import Mathlib

/-!
# Upstream version lister (`pkg/module/go_vcs_lister.go`)

A shallow embedding of `vcsLister.List` and of the collaborators it calls,
followed by the properties the specification states about it.

Conventions of the embedding.

* Go strings and byte buffers are Lean strings (sequences of code points); the
  functions that inspect them work on the underlying character list.
* A Go slice of strings is `Option (List String)`: `none` is the `nil` slice.
* A Go `error` is `Option GoError`: `none` is the `nil` error.
* The filesystem, and the order in which `List` calls its collaborators, are
  explicit state (`State`); what the collaborators answer is given by `World`.
* `json.NewDecoder(stdout).Decode(&lr)` is modelled down to the characters of
  standard output: the scanner of `encoding/json` with its nesting limit, the
  storing of an object into `listResp` (field matching, reuse of the `Versions`
  slice, type errors), and `time.Parse` for the `Time` field.
* What the specification calls valid structured output and a well-formed record
  is defined on the text of standard output, apart from the decoder: a grammar
  of JSON (`JsonText`) and the text the tool prints for a record
  (`recordText`).
-/

namespace Athens

/-! ## `encoding/json`: reading the first value of a stream -/

/-- A JSON value as the decoder sees it. A string keeps both the raw text that
stood between its quotes and the text after unescaping. -/
inductive JValue where
  | null
  | bool (b : Bool)
  | num (raw : List Char)
  | str (raw : List Char) (val : List Char)
  | arr (xs : List JValue)
  | obj (kvs : List (List Char × JValue))

/-- Whether a value is a number. -/
def JValue.isNum : JValue → Bool
  | JValue.num _ => true
  | _ => false

/-- The four bytes `encoding/json` treats as insignificant whitespace. -/
def isSpace (c : Char) : Bool :=
  c == ' ' || c == '\t' || c == '\r' || c == '\n'

/-- Drop leading whitespace. -/
def skipSpace : List Char → List Char
  | [] => []
  | c :: cs => if isSpace c then skipSpace cs else c :: cs

/-- Decimal digit test. -/
def isDigit (c : Char) : Bool := '0' ≤ c && c ≤ '9'

/-- Value of a hexadecimal digit. -/
def hexVal (c : Char) : Option Nat :=
  if '0' ≤ c && c ≤ '9' then some (c.toNat - '0'.toNat)
  else if 'a' ≤ c && c ≤ 'f' then some (c.toNat - 'a'.toNat + 10)
  else if 'A' ≤ c && c ≤ 'F' then some (c.toNat - 'A'.toNat + 10)
  else none

/-- The number written by four hexadecimal digits (`getu4`). -/
def hex4 (a b c d : Char) : Option Nat :=
  match hexVal a, hexVal b, hexVal c, hexVal d with
  | some x, some y, some z, some w => some (((x * 16 + y) * 16 + z) * 16 + w)
  | _, _, _, _ => none

/-- The character a one-letter escape stands for. -/
def unescape1 (c : Char) : Option Char :=
  if c == '"' then some '"'
  else if c == '\\' then some '\\'
  else if c == '/' then some '/'
  else if c == 'b' then some (Char.ofNat 8)
  else if c == 'f' then some (Char.ofNat 12)
  else if c == 'n' then some '\n'
  else if c == 'r' then some '\r'
  else if c == 't' then some '\t'
  else none

/-- The low half of a surrogate pair written as a `\uXXXX` escape at the head
of the input, with the input after it. -/
def lowSurrogate : List Char → Option (Nat × List Char)
  | c1 :: c2 :: a :: b :: c :: d :: rest =>
    if c1 == '\\' && c2 == 'u' then
      match hex4 a b c d with
      | some lo => if 0xDC00 ≤ lo ∧ lo < 0xE000 then some (lo, rest) else none
      | none => none
    else none
  | _ => none

/-- Scan a string literal whose opening quote has been consumed. `fuel` bounds
the number of steps, each of which consumes input; the result is the raw text,
the unescaped text and the input after the closing quote. Control characters
and unknown escapes are syntax errors; a `\u` escape that is half of a
surrogate pair without its other half becomes U+FFFD. -/
def scanStr : Nat → List Char → List Char → List Char →
    Option (List Char × List Char × List Char)
  | 0, _, _, _ => none
  | _ + 1, _, _, [] => none
  | fuel + 1, raw, val, c :: cs =>
    if c == '"' then some (raw.reverse, val.reverse, cs)
    else if c == '\\' then
      match cs with
      | [] => none
      | e :: rest0 =>
        if e == 'u' then
          match rest0 with
          | a :: b :: c1 :: d :: rest =>
            match hex4 a b c1 d with
            | none => none
            | some hi =>
              let raw1 := d :: c1 :: b :: a :: 'u' :: '\\' :: raw
              if 0xD800 ≤ hi ∧ hi < 0xE000 then
                match (if hi < 0xDC00 then lowSurrogate rest else none) with
                | some (lo, rest2) =>
                  scanStr fuel ((rest.take 6).reverse ++ raw1)
                    (Char.ofNat ((hi - 0xD800) * 1024 + (lo - 0xDC00) + 0x10000) :: val) rest2
                | none => scanStr fuel raw1 (Char.ofNat 0xFFFD :: val) rest
              else scanStr fuel raw1 (Char.ofNat hi :: val) rest
          | _ => none
        else
          match unescape1 e with
          | some u => scanStr fuel (e :: '\\' :: raw) (u :: val) rest0
          | none => none
    else if c.toNat < 0x20 then none
    else scanStr fuel (c :: raw) (c :: val) cs

/-- Split off the longest run of decimal digits. -/
def spanDigits (cs : List Char) : List Char × List Char :=
  (cs.takeWhile isDigit, cs.dropWhile isDigit)

/-- The exponent part of a number, if one starts here. -/
def scanExp (cs : List Char) : Option (List Char × List Char) :=
  match cs with
  | e :: rest =>
    if e == 'e' || e == 'E' then
      match rest with
      | s :: rest1 =>
        if s == '+' || s == '-' then
          match spanDigits rest1 with
          | ([], _) => none
          | (ds, r) => some (e :: s :: ds, r)
        else
          match spanDigits rest with
          | ([], _) => none
          | (ds, r) => some (e :: ds, r)
      | [] => none
    else some ([], cs)
  | [] => some ([], cs)

/-- The fraction part of a number, if one starts here. -/
def scanFrac (cs : List Char) : Option (List Char × List Char) :=
  match cs with
  | c :: rest =>
    if c == '.' then
      match spanDigits rest with
      | ([], _) => none
      | (ds, r) => some ('.' :: ds, r)
    else some ([], cs)
  | [] => some ([], cs)

/-- The integer part of a number: a lone `0`, or a nonzero digit and the
digits after it. -/
def scanInt (cs : List Char) : Option (List Char × List Char) :=
  match cs with
  | c :: rest =>
    if c == '0' then some (['0'], rest)
    else if isDigit c then
      match spanDigits rest with
      | (ds, r) => some (c :: ds, r)
    else none
  | [] => none

/-- The optional minus sign of a number. -/
def scanSign (cs : List Char) : List Char × List Char :=
  match cs with
  | c :: rest => if c == '-' then (['-'], rest) else ([], cs)
  | [] => ([], cs)

/-- Scan a number literal: optional minus, integer part, optional fraction,
optional exponent. -/
def scanNum (cs : List Char) : Option (List Char × List Char) :=
  match scanInt (scanSign cs).2 with
  | none => none
  | some (ip, cs2) =>
    match scanFrac cs2 with
    | none => none
    | some (fp, cs3) =>
      match scanExp cs3 with
      | none => none
      | some (ep, cs4) => some ((scanSign cs).1 ++ ip ++ fp ++ ep, cs4)

/-- Consume the literal `lit` at the head of the input. -/
def matchLit (lit cs : List Char) : Option (List Char) :=
  if lit.isPrefixOf cs then some (cs.drop lit.length) else none

/-- Scan a value that is not an array or an object, whose first character is
`c`: a string, one of the three literals, or a number. -/
def parseScalar (c : Char) (r : List Char) : Option (JValue × List Char) :=
  if c == '"' then
    match scanStr (r.length + 1) [] [] r with
    | some (raw, val, r1) => some (JValue.str raw val, r1)
    | none => none
  else if c == 't' then (matchLit ['r', 'u', 'e'] r).map (fun r1 => (JValue.bool true, r1))
  else if c == 'f' then
    (matchLit ['a', 'l', 's', 'e'] r).map (fun r1 => (JValue.bool false, r1))
  else if c == 'n' then (matchLit ['u', 'l', 'l'] r).map (fun r1 => (JValue.null, r1))
  else if c == '-' || isDigit c then
    (scanNum (c :: r)).map (fun p => (JValue.num p.1, p.2))
  else none

/-- The deepest nesting of arrays and objects the scanner accepts
(`maxNestingDepth`); one level more is the error "exceeded max depth". -/
def maxNestingDepth : Nat := 10000

mutual
/-- Parse one JSON value at the head of the input (leading whitespace
allowed) and return it with the input that follows it. `depth` is the number of
arrays and objects open around the value; opening one more beyond
`maxNestingDepth` is an error. Each call on a nested value uses one unit of
`fuel`. -/
def parseValue : Nat → Nat → List Char → Option (JValue × List Char)
  | 0, _, _ => none
  | fuel + 1, depth, cs =>
    match skipSpace cs with
    | [] => none
    | c :: r =>
      if c == '{' then
        if depth < maxNestingDepth then
          match skipSpace r with
          | [] => none
          | c1 :: r1 =>
            if c1 == '}' then some (JValue.obj [], r1)
            else parseMembers fuel (depth + 1) [] (c1 :: r1)
        else none
      else if c == '[' then
        if depth < maxNestingDepth then
          match skipSpace r with
          | [] => none
          | c1 :: r1 =>
            if c1 == ']' then some (JValue.arr [], r1)
            else parseElems fuel (depth + 1) [] (c1 :: r1)
        else none
      else parseScalar c r
/-- The elements of an array after its opening bracket (at least one), up to
and including the closing bracket. -/
def parseElems : Nat → Nat → List JValue → List Char → Option (JValue × List Char)
  | 0, _, _, _ => none
  | fuel + 1, depth, acc, cs =>
    match parseValue fuel depth cs with
    | none => none
    | some (v, r) =>
      match skipSpace r with
      | [] => none
      | c :: r1 =>
        if c == ',' then parseElems fuel depth (v :: acc) r1
        else if c == ']' then some (JValue.arr (v :: acc).reverse, r1)
        else none
/-- The members of an object after its opening brace (at least one), up to and
including the closing brace. -/
def parseMembers : Nat → Nat → List (List Char × JValue) → List Char →
    Option (JValue × List Char)
  | 0, _, _, _ => none
  | fuel + 1, depth, acc, cs =>
    match skipSpace cs with
    | [] => none
    | q :: r =>
      if q == '"' then
        match scanStr (r.length + 1) [] [] r with
        | none => none
        | some (_, key, r1) =>
          match skipSpace r1 with
          | [] => none
          | c :: r2 =>
            if c == ':' then
              match parseValue fuel depth r2 with
              | none => none
              | some (v, r3) =>
                match skipSpace r3 with
                | [] => none
                | c3 :: r4 =>
                  if c3 == ',' then parseMembers fuel depth ((key, v) :: acc) r4
                  else if c3 == '}' then some (JValue.obj ((key, v) :: acc).reverse, r4)
                  else none
            else none
      else none
end

/-! ## `time.Time` and its JSON form -/

/-- A `time.Time` value: the wall-clock reading and the zone offset (seconds
east of UTC) it was given with. -/
structure Time where
  year : Nat
  month : Nat
  day : Nat
  hour : Nat
  min : Nat
  sec : Nat
  nsec : Nat
  offset : Int
  deriving DecidableEq, Repr

/-- The zero `time.Time`: January 1, year 1, 00:00:00 UTC. -/
def Time.zero : Time := ⟨1, 1, 1, 0, 0, 0, 0, 0⟩

/-- The number written by a list of decimal digits (`none` if one is not a
digit). -/
def digitsVal : List Char → Option Nat
  | [] => some 0
  | cs => cs.foldl (fun acc c =>
      match acc with
      | some n => if isDigit c then some (n * 10 + (c.toNat - '0'.toNat)) else none
      | none => none) (some 0)

/-- Number of days of a month of a year (Gregorian). -/
def daysIn (month year : Nat) : Nat :=
  if month == 2 then
    if year % 4 == 0 && (year % 100 != 0 || year % 400 == 0) then 29 else 28
  else if month == 4 || month == 6 || month == 9 || month == 11 then 30
  else 31

/-- Nanoseconds written by the digits of a fractional second: the first nine
digits count (`parseNanoseconds`). -/
def fracNanos (ds : List Char) : Option Nat :=
  let d9 := ds.take 9
  (digitsVal d9).map (fun n => n * 10 ^ (9 - d9.length))

/-- The value of a decimal digit. -/
def digitVal (c : Char) : Nat := c.toNat - '0'.toNat

/-- The number at the head of the input (`getnum`): two digits, or one digit
when only one is there and the field is not `fixed`. -/
def getnum (s : List Char) (fixed : Bool) : Option (Nat × List Char) :=
  match s with
  | [] => none
  | a :: r =>
    if isDigit a then
      match r with
      | [] => if fixed then none else some (digitVal a, r)
      | b :: r2 =>
        if isDigit b then some (digitVal a * 10 + digitVal b, r2)
        else if fixed then none else some (digitVal a, r)
    else none

/-- A character of the layout that stands for itself (`skip`). -/
def skipChar (c : Char) (s : List Char) : Option (List Char) :=
  match s with
  | [] => none
  | x :: r => if x == c then some r else none

/-- The year of the layout element `2006`: four digits. -/
def parseYear (s : List Char) : Option (Nat × List Char) :=
  match s with
  | a :: b :: c :: d :: r =>
    if isDigit a && isDigit b && isDigit c && isDigit d then
      some (((digitVal a * 10 + digitVal b) * 10 + digitVal c) * 10 + digitVal d, r)
    else none
  | _ => none

/-- The fractional second that may follow the seconds although the layout has
none: a period or a comma and the digits after it. Without a digit after the
separator nothing is consumed. -/
def parseFraction (s : List Char) : Option (Nat × List Char) :=
  match s with
  | c :: d :: r =>
    if (c == '.' || c == ',') && isDigit d then
      (fracNanos (spanDigits (d :: r)).1).map (fun n => (n, (spanDigits (d :: r)).2))
    else some (0, s)
  | _ => some (0, s)

/-- The zone of the layout element `Z07:00`: the letter `Z`, or a sign, two
digits, a colon and two digits. The range test admits an hour of 24 and a
minute of 60. The result is the offset in seconds east of UTC. -/
def parseZone (s : List Char) : Option (Int × List Char) :=
  match s with
  | [] => none
  | z :: r0 =>
    if z == 'Z' then some (0, r0)
    else
      match s with
      | sg :: h1 :: h2 :: c :: m1 :: m2 :: r =>
        if c == ':' then
          match getnum [h1, h2] true, getnum [m1, m2] true with
          | some (hr, _), some (mm, _) =>
            if 24 < hr || 60 < mm then none
            else if sg == '+' then some ((((hr * 60 + mm) * 60 : Nat) : Int), r)
            else if sg == '-' then some (-(((hr * 60 + mm) * 60 : Nat) : Int), r)
            else none
          | _, _ => none
        else none
      | _ => none

/-- The date of a timestamp, `2006-01-02T`: year, month and day with the input
after the `T`. The month must lie in 1..12; the day is checked against the
month once the whole timestamp is read. -/
def parseDate (s : List Char) : Option ((Nat × Nat × Nat) × List Char) :=
  match parseYear s with
  | none => none
  | some (year, s1) =>
    match skipChar '-' s1 with
    | none => none
    | some s2 =>
      match getnum s2 true with
      | none => none
      | some (month, s3) =>
        if month = 0 || 12 < month then none
        else
          match skipChar '-' s3 with
          | none => none
          | some s4 =>
            match getnum s4 true with
            | none => none
            | some (day, s5) =>
              match skipChar 'T' s5 with
              | none => none
              | some s6 => some ((year, month, day), s6)

/-- The clock of a timestamp, `15:04:05`: hour (one or two digits), minute and
second, each in its range, with the input after the seconds. -/
def parseClock (s : List Char) : Option ((Nat × Nat × Nat) × List Char) :=
  match getnum s false with
  | none => none
  | some (hour, s1) =>
    if 24 ≤ hour then none
    else
      match skipChar ':' s1 with
      | none => none
      | some s2 =>
        match getnum s2 true with
        | none => none
        | some (min, s3) =>
          if 60 ≤ min then none
          else
            match skipChar ':' s3 with
            | none => none
            | some s4 =>
              match getnum s4 true with
              | none => none
              | some (sec, s5) => if 60 ≤ sec then none else some ((hour, min, sec), s5)

/-- The call `time.Parse(time.RFC3339, s)`, which is what `Time.UnmarshalJSON`
comes to on the text between the quotes (its strict reading of RFC 3339 is a
subset with the same results, and the extra checks after a lenient parse are
switched off in the library): the layout `2006-01-02T15:04:05Z07:00` read
element by element, a fractional second accepted after the seconds, no text
left over, and the day within its month. An hour of one digit, a comma before
the fraction and a zone of `24:60` pass. -/
def parseRFC3339 (s : List Char) : Option Time :=
  match parseDate s with
  | none => none
  | some ((year, month, day), s1) =>
    match parseClock s1 with
    | none => none
    | some ((hour, min, sec), s2) =>
      match parseFraction s2 with
      | none => none
      | some (nsec, s3) =>
        match parseZone s3 with
        | none => none
        | some (off, s4) =>
          if s4.isEmpty && decide (1 ≤ day) && decide (day ≤ daysIn month year) then
            some ⟨year, month, day, hour, min, sec, nsec, off⟩
          else none

/-! ## Decoding the tool's record -/

/-- The record `go list -m -versions -json` prints. `Versions` is a slice:
`none` is the nil slice. -/
structure listResp where
  Path : String
  Version : String
  Versions : Option (List String)
  Time : Time
  deriving DecidableEq, Repr

/-- The zero `listResp`, the value of `var lr listResp`. -/
def listResp.zero : listResp := ⟨"", "", none, Time.zero⟩

/-- Case folding of a key character, as far as it matters for a comparison
with an ASCII field name: ASCII letters, and the two non-ASCII characters whose
simple fold is an ASCII letter (long s, Kelvin sign). -/
def foldRune (c : Char) : Char :=
  if 'a' ≤ c && c ≤ 'z' then Char.ofNat (c.toNat - 32)
  else if c == Char.ofNat 0x17F then 'S'
  else if c == Char.ofNat 0x212A then 'K'
  else c

/-- Case-insensitive comparison of an object key with a field name. -/
def equalFold (name key : List Char) : Bool :=
  name.map foldRune == key.map foldRune

/-- The fields of `listResp`. -/
inductive Field where
  | Path
  | Version
  | Versions
  | Time
  deriving DecidableEq, Repr

/-- The JSON name of each field (the struct has no renaming tags). -/
def fieldNames : List (List Char × Field) :=
  [("Path".data, Field.Path), ("Version".data, Field.Version),
   ("Versions".data, Field.Versions), ("Time".data, Field.Time)]

/-- The field an object key denotes: an exact match if there is one, else a
case-insensitive one; keys that denote no field are ignored by the decoder. -/
def findField (key : List Char) : Option Field :=
  match fieldNames.find? (fun p => p.1 == key) with
  | some p => some p.2
  | none => (fieldNames.find? (fun p => equalFold p.1 key)).map (fun p => p.2)

/-- Decoder state while an object is stored into a `listResp`: the record so
far, the first type error met (the decoder goes on after a type error and
reports it at the end), and what the backing array of `lr.Versions` holds
behind the length of the slice (elements a longer slice left there). -/
structure DecState where
  lr : listResp
  saved : Option String
  spare : List String

/-- Record a type error unless one is recorded already. -/
def DecState.saveError (st : DecState) (msg : String) : DecState :=
  match st.saved with
  | some _ => st
  | none => { st with saved := some msg }

/-- Store a JSON value into a `string`: a string is stored unescaped, `null`
leaves the old value, anything else is a type error. -/
def storeString (old : String) (v : JValue) : String × Option String :=
  match v with
  | JValue.str _ val => (String.mk val, none)
  | JValue.null => (old, none)
  | _ => (old, some "json: cannot unmarshal value into Go value of type string")

/-- Store the elements of a JSON array into a `[]string`, element by element,
over the backing array `old` of the slice that is there: element `i` is stored
into what index `i` holds (the empty string beyond the array), so that a `null`
element keeps it. The first type error among the elements is returned with the
slice. -/
def storeElems : List String → List JValue → List String × Option String
  | _, [] => ([], none)
  | old, v :: vs =>
    let (x, e) := storeString (old.headD "") v
    let (xs, es) := storeElems old.tail vs
    (x :: xs, match e with
      | some m => some m
      | none => es)

/-- Store a JSON array into the `Versions` field. An empty array gives a fresh
empty slice. Otherwise the slice that is there is reused: it is extended or
truncated to the number of elements, and what stays behind the new length
remains in the backing array. -/
def storeVersions (st : DecState) (xs : List JValue) : DecState :=
  match xs with
  | [] => { st with lr := { st.lr with Versions := some [] }, spare := [] }
  | _ :: _ =>
    match storeElems (st.lr.Versions.getD [] ++ st.spare) xs with
    | (ys, none) =>
      { st with lr := { st.lr with Versions := some ys },
                spare := (st.lr.Versions.getD [] ++ st.spare).drop xs.length }
    | (ys, some m) =>
      { st with lr := { st.lr with Versions := some ys },
                spare := (st.lr.Versions.getD [] ++ st.spare).drop xs.length }.saveError m

/-- Store the value of one object member into the field its key denotes. The
result is `Except.error` when decoding stops at once (the `Time` field's own
unmarshaler rejects the value). -/
def storeField (st : DecState) (f : Field) (v : JValue) : Except String DecState :=
  match f with
  | Field.Path =>
    match storeString st.lr.Path v with
    | (x, none) => .ok { st with lr := { st.lr with Path := x } }
    | (_, some m) => .ok (st.saveError m)
  | Field.Version =>
    match storeString st.lr.Version v with
    | (x, none) => .ok { st with lr := { st.lr with Version := x } }
    | (_, some m) => .ok (st.saveError m)
  | Field.Versions =>
    match v with
    | JValue.arr xs => .ok (storeVersions st xs)
    | JValue.null => .ok { st with lr := { st.lr with Versions := none }, spare := [] }
    | _ => .ok (st.saveError "json: cannot unmarshal value into Go value of type []string")
  | Field.Time =>
    match v with
    | JValue.null => .ok st
    | JValue.str raw _ =>
      match parseRFC3339 raw with
      | some t => .ok { st with lr := { st.lr with Time := t } }
      | none => .error "parsing time: not an RFC 3339 timestamp"
    | _ => .error "Time.UnmarshalJSON: input is not a JSON string"

/-- Store the members of an object, in order. -/
def storeMembers : DecState → List (List Char × JValue) → Except String DecState
  | st, [] => .ok st
  | st, (key, v) :: kvs =>
    match findField key with
    | none => storeMembers st kvs
    | some f =>
      match storeField st f v with
      | .error e => .error e
      | .ok st1 => storeMembers st1 kvs

/-- Store a decoded JSON value into a zero `listResp`: an object fills the
fields its keys denote, `null` changes nothing, any other value is a type
error. -/
def unmarshal (v : JValue) : Except String listResp :=
  match v with
  | JValue.obj kvs =>
    match storeMembers ⟨listResp.zero, none, []⟩ kvs with
    | .error e => .error e
    | .ok st =>
      match st.saved with
      | some m => .error m
      | none => .ok st.lr
  | JValue.null => .ok listResp.zero
  | _ => .error "json: cannot unmarshal value into Go value of type module.listResp"

/-- The call `json.NewDecoder(stdout).Decode(&lr)` on a zero `lr`: skip
whitespace, read the first JSON value of the stream and store it; whatever
follows that value in the stream is not read. The value starts at nesting
depth zero. The parser gets fuel that is enough for every input
(`parseValue_fuel_enough`, `scanStr_fuel_enough`). The error strings are labels
of the failure, not the library's wording. -/
def jsonDecode (stdout : String) : Except String listResp :=
  match skipSpace stdout.data with
  | [] => .error "EOF"
  | cs =>
    match parseValue (2 * cs.length + 2) 0 cs with
    | none => .error "json: syntax error or unexpected end of input"
    | some (v, _) => unmarshal v

/-! ## JSON texts (RFC 8259) -/

/-- The whitespace of JSON: space, horizontal tab, line feed, carriage
return. -/
def blankChar (c : Char) : Bool := c == ' ' || c == '\t' || c == '\n' || c == '\r'

/-- A text made of JSON whitespace. -/
def blank (w : List Char) : Bool := w.all blankChar

/-- A hexadecimal digit, in either case. -/
def hexChar (c : Char) : Bool :=
  ('0' ≤ c && c ≤ '9') || ('a' ≤ c && c ≤ 'f') || ('A' ≤ c && c ≤ 'F')

/-- A character that may follow a backslash on its own. -/
def escapeChar (c : Char) : Bool :=
  c == '"' || c == '\\' || c == '/' || c == 'b' || c == 'f' || c == 'n' || c == 'r' || c == 't'

/-- The text between the quotes of a JSON string: characters other than the
quote, the backslash and the control characters, and escapes. -/
inductive StringBody : List Char → Prop where
  | nil : StringBody []
  | char (c : Char) (t : List Char) : c ≠ '"' → c ≠ '\\' → 0x20 ≤ c.toNat → StringBody t →
    StringBody (c :: t)
  | escape (e : Char) (t : List Char) : escapeChar e = true → StringBody t →
    StringBody ('\\' :: e :: t)
  | unicode (a b c d : Char) (t : List Char) : hexChar a = true → hexChar b = true →
    hexChar c = true → hexChar d = true → StringBody t →
    StringBody ('\\' :: 'u' :: a :: b :: c :: d :: t)

/-- A nonempty run of decimal digits. -/
def digitRun (ds : List Char) : Bool := !ds.isEmpty && ds.all (fun c => '0' ≤ c && c ≤ '9')

/-- A JSON number: an optional minus sign, an integer part without a leading
zero, an optional fraction and an optional exponent. -/
def NumberText (n : List Char) : Prop :=
  ∃ sign int frac exp : List Char, n = sign ++ (int ++ (frac ++ exp)) ∧
    (sign = [] ∨ sign = ['-']) ∧
    (int = ['0'] ∨ (digitRun int = true ∧ int.head? ≠ some '0')) ∧
    (frac = [] ∨ ∃ ds, frac = '.' :: ds ∧ digitRun ds = true) ∧
    (exp = [] ∨ ∃ e sg ds, exp = e :: (sg ++ ds) ∧ (e = 'e' ∨ e = 'E') ∧
      (sg = [] ∨ sg = ['+'] ∨ sg = ['-']) ∧ digitRun ds = true)

mutual
/-- A JSON value, as a text without whitespace around it. -/
inductive JsonText : List Char → Prop where
  | string (s : List Char) : StringBody s → JsonText ('"' :: (s ++ ['"']))
  | number (n : List Char) : NumberText n → JsonText n
  | litTrue : JsonText ['t', 'r', 'u', 'e']
  | litFalse : JsonText ['f', 'a', 'l', 's', 'e']
  | litNull : JsonText ['n', 'u', 'l', 'l']
  | emptyArray (w : List Char) : blank w = true → JsonText ('[' :: (w ++ [']']))
  | array (b : List Char) : ElementsText b → JsonText ('[' :: (b ++ [']']))
  | emptyObject (w : List Char) : blank w = true → JsonText ('\x7b' :: (w ++ ['\x7d']))
  | object (b : List Char) : MembersText b → JsonText ('\x7b' :: (b ++ ['\x7d']))
/-- The elements of a nonempty array, separated by commas, each with
whitespace around it. -/
inductive ElementsText : List Char → Prop where
  | one (w1 v w2 : List Char) : blank w1 = true → JsonText v → blank w2 = true →
    ElementsText (w1 ++ (v ++ w2))
  | more (w1 v w2 rest : List Char) : blank w1 = true → JsonText v → blank w2 = true →
    ElementsText rest → ElementsText (w1 ++ (v ++ (w2 ++ ',' :: rest)))
/-- The members of a nonempty object, separated by commas: a string, a colon
and a value, with whitespace around each. -/
inductive MembersText : List Char → Prop where
  | one (w1 k w2 w3 v w4 : List Char) : blank w1 = true → StringBody k → blank w2 = true →
    blank w3 = true → JsonText v → blank w4 = true →
    MembersText (w1 ++ '"' :: (k ++ '"' :: (w2 ++ ':' :: (w3 ++ (v ++ w4)))))
  | more (w1 k w2 w3 v w4 rest : List Char) : blank w1 = true → StringBody k →
    blank w2 = true → blank w3 = true → JsonText v → blank w4 = true → MembersText rest →
    MembersText (w1 ++ '"' :: (k ++ '"' :: (w2 ++ ':' :: (w3 ++ (v ++ (w4 ++ ',' :: rest))))))
end

/-- A JSON document: one value with whitespace around it. -/
def jsonDocument (s : List Char) : Prop :=
  ∃ w1 t w2, s = w1 ++ (t ++ w2) ∧ blank w1 = true ∧ blank w2 = true ∧ JsonText t

/-- Standard output does not begin with a JSON value: no text that follows
its leading whitespace, however far it is taken, is a JSON value. This is so
for output that is empty, that is no JSON at all, or that is JSON cut short or
malformed before its first value is complete. -/
def noJsonAtHead (stdout : String) : Prop :=
  ¬ ∃ w t rest, stdout.data = w ++ (t ++ rest) ∧ blank w = true ∧ JsonText t

/-- The first character of standard output after its leading whitespace. -/
def firstChar (stdout : String) : Option Char := (stdout.data.dropWhile blankChar).head?

/-- Standard output cannot begin with a record: it is empty or whitespace, or
its first character is neither an opening brace nor the `n` of `null`. -/
def startsNoRecord (stdout : String) : Bool :=
  match firstChar stdout with
  | none => true
  | some c => !(c == '\x7b' || c == 'n')

/-- A character a JSON value can begin with. -/
def openingChar (c : Char) : Bool :=
  c == '\x7b' || c == '[' || c == '"' || c == 't' || c == 'f' || c == 'n' || c == '-' ||
    ('0' ≤ c && c ≤ '9')

/-- Standard output holds no JSON at all: it is empty or whitespace, or its
first character is one no JSON value begins with. -/
def startsNoValue (stdout : String) : Bool :=
  match firstChar stdout with
  | none => true
  | some c => !openingChar c

/-- A character a JSON value can end with. -/
def closingChar (c : Char) : Bool :=
  c == '\x7d' || c == ']' || c == '"' || c == 'e' || c == 'l' || ('0' ≤ c && c ≤ '9')

/-- Standard output cannot be a JSON document: its last character is neither
whitespace nor one a JSON value ends with. -/
def endsNoDocument (stdout : String) : Bool :=
  match stdout.data.getLast? with
  | none => true
  | some c => !(closingChar c || blankChar c)

/-! ## The record as the tool prints it -/

/-- A character that stands for itself inside a JSON string. -/
def plainChar (c : Char) : Bool := !(c == '"') && !(c == '\\') && !(decide (c.toNat < 0x20))

/-- A text made of characters that stand for themselves inside a JSON string. -/
def plain (s : String) : Bool := s.data.all plainChar

/-- A text between double quotes. -/
def quote (s : String) : List Char := '"' :: (s.data ++ ['"'])

/-- The elements of a JSON array of strings, separated by commas. -/
def renderElems : List String → List Char
  | [] => []
  | [x] => quote x
  | x :: y :: xs => quote x ++ ',' :: renderElems (y :: xs)

/-- The `Versions` member of a record, with the comma before it; a record with
no versions has no such member. -/
def renderVersions (vs : List String) : List Char :=
  match vs with
  | [] => []
  | _ :: _ => ',' :: (quote "Versions" ++ ':' :: '[' :: (renderElems vs ++ [']']))

/-- The record the tool prints for a module, in compact form: path, version,
versions if there are any, and time. -/
def renderRecord (path version : String) (vs : List String) (time : String) : String :=
  String.mk ('\x7b' :: (quote "Path" ++ ':' :: (quote path ++ ',' :: (quote "Version" ++ ':' ::
    (quote version ++ (renderVersions vs ++ ',' :: (quote "Time" ++ ':' ::
      (quote time ++ ['\x7d']))))))))

/-- The slice the decoder builds for a list of versions: nil when the member is
absent. -/
def sliceOf (vs : List String) : Option (List String) :=
  match vs with
  | [] => none
  | _ :: _ => some vs

/-- The string scanner reads the text `body`, met after an opening quote and
followed by a closing quote, as the string `val`: it keeps `body` as the raw
text, yields `val` as the unescaped text and stops after the closing quote. -/
def readsAs (body val : List Char) : Prop :=
  ∀ (fuel : Nat) (raw acc rest : List Char), body.length + 1 ≤ fuel →
    scanStr fuel raw acc (body ++ '"' :: rest) =
      some (raw.reverse ++ body, acc.reverse ++ val, rest)

/-- The hexadecimal digit of a number below sixteen, in lower case. -/
def hexDigit (n : Nat) : Char := if n < 10 then Char.ofNat (48 + n) else Char.ofNat (87 + n)

/-- How the encoder of `encoding/json` writes one character of a string: the
quote and the backslash after a backslash, the control characters as escapes,
`<`, `>`, `&` and the two Unicode line separators as `\u` escapes, any other
character as itself. -/
def encodeChar (c : Char) : List Char :=
  if c == '"' then ['\\', '"']
  else if c == '\\' then ['\\', '\\']
  else if c == Char.ofNat 8 then ['\\', 'b']
  else if c == Char.ofNat 12 then ['\\', 'f']
  else if c == '\n' then ['\\', 'n']
  else if c == '\r' then ['\\', 'r']
  else if c == '\t' then ['\\', 't']
  else if c.toNat < 0x20 || c == '<' || c == '>' || c == '&' then
    ['\\', 'u', '0', '0', hexDigit (c.toNat / 16), hexDigit (c.toNat % 16)]
  else if c == Char.ofNat 0x2028 then ['\\', 'u', '2', '0', '2', '8']
  else if c == Char.ofNat 0x2029 then ['\\', 'u', '2', '0', '2', '9']
  else [c]

/-- How the encoder writes the text of a string between its quotes. -/
def encodeString : List Char → List Char
  | [] => []
  | c :: cs => encodeChar c ++ encodeString cs

/-- The whitespace at position `i` of a layout; positions the layout does not
list hold none. -/
def gap (gaps : List (List Char)) (i : Nat) : List Char := gaps.getD i []

/-- One element of an array of strings: the whitespace before it, the text
between its quotes, the whitespace after it. -/
def elemText (e : List Char × List Char × List Char) : List Char :=
  e.1 ++ '"' :: (e.2.1 ++ '"' :: e.2.2)

/-- The elements of a nonempty array of strings, separated by commas. -/
def elemsText : List (List Char × List Char × List Char) → List Char
  | [] => []
  | [e] => elemText e
  | e :: e1 :: es => elemText e ++ ',' :: elemsText (e1 :: es)

/-- What stands between the brackets of the `Versions` array: whitespace when
the array is empty, the elements otherwise. -/
def arrayBody (gaps : List (List Char)) (es : List (List Char × List Char × List Char)) :
    List Char :=
  match es with
  | [] => gap gaps 12
  | _ :: _ => elemsText es

/-- A member of an object whose value is a string, followed by `rest`: key and
value are given by the texts between their quotes, `w1`, `w2` and `w3` are the
whitespace before the key, before the colon and before the value. -/
def stringMember (w1 key w2 w3 body rest : List Char) : List Char :=
  w1 ++ '"' :: (key ++ '"' :: (w2 ++ ':' :: (w3 ++ '"' :: (body ++ '"' :: rest))))

/-- The `Versions` member of a record and the comma after it, followed by
`rest`; only `rest` when the record has no such member (`none`). -/
def versionsMember (gaps : List (List Char))
    (vs : Option (List (List Char × List Char × List Char))) (rest : List Char) : List Char :=
  match vs with
  | none => rest
  | some es =>
    gap gaps 9 ++ '"' :: ("Versions".data ++ '"' :: (gap gaps 10 ++ ':' ::
      (gap gaps 11 ++ '[' :: (arrayBody gaps es ++ ']' :: (gap gaps 13 ++ ',' :: rest)))))

/-- The text of a record after its opening brace, up to its closing brace. The
four values are given by the texts between their quotes; `gaps` gives the
whitespace between the tokens, position by position: 0 before the opening
brace; 1 to 4 before the key `Path`, before its colon, before its value and
after its value; 5 to 8 likewise for `Version`; 9 to 11 before the key
`Versions`, before its colon and before its opening bracket, 12 inside an empty
array, 13 after the closing bracket; 14 to 17 for `Time` as for `Path`; 18
after the closing brace. -/
def layoutMembers (gaps : List (List Char)) (path version : List Char)
    (vs : Option (List (List Char × List Char × List Char))) (time : List Char) : List Char :=
  stringMember (gap gaps 1) "Path".data (gap gaps 2) (gap gaps 3) path (gap gaps 4 ++ ',' ::
    stringMember (gap gaps 5) "Version".data (gap gaps 6) (gap gaps 7) version
      (gap gaps 8 ++ ',' :: versionsMember gaps vs
        (stringMember (gap gaps 14) "Time".data (gap gaps 15) (gap gaps 16) time
          (gap gaps 17))))

/-- A record up to, and without, its closing brace. -/
def layoutBody (gaps : List (List Char)) (path version : List Char)
    (vs : Option (List (List Char × List Char × List Char))) (time : List Char) : List Char :=
  gap gaps 0 ++ '\x7b' :: layoutMembers gaps path version vs time

/-- A record laid out with the whitespace `gaps`: an object with the members
`Path`, `Version`, `Versions` (if any) and `Time`, in this order, and the
whitespace after it. -/
def layoutRecord (gaps : List (List Char)) (path version : List Char)
    (vs : Option (List (List Char × List Char × List Char))) (time : List Char) : List Char :=
  layoutBody gaps path version vs time ++ '\x7d' :: gap gaps 18

/-- The decimal digit of a number below ten. -/
def digitChar (d : Nat) : Char := Char.ofNat (48 + d)

/-- A number in decimal, in `width` digits with leading zeros. -/
def pad : Nat → Nat → List Char
  | 0, _ => []
  | width + 1, n => pad width (n / 10) ++ [digitChar (n % 10)]

/-- The fractional second of a timestamp written with `k` digits (none when
`k` is zero). -/
def fracText (nsec k : Nat) : List Char :=
  if k = 0 then [] else '.' :: pad k (nsec / 10 ^ (9 - k))

/-- The zone of a timestamp: `Z` for UTC, else sign, hours, colon, minutes. -/
def zoneText (offset : Int) : List Char :=
  if offset = 0 then ['Z']
  else (if offset < 0 then '-' else '+') ::
    (pad 2 (offset.natAbs / 3600) ++ ':' :: pad 2 (offset.natAbs / 60 % 60))

/-- A `time.Time` as an RFC 3339 timestamp, its fractional second written with
`k` digits. -/
def formatRFC3339 (t : Time) (k : Nat) : List Char :=
  pad 4 t.year ++ '-' :: (pad 2 t.month ++ '-' :: (pad 2 t.day ++ 'T' :: (pad 2 t.hour ++ ':' ::
    (pad 2 t.min ++ ':' :: (pad 2 t.sec ++ (fracText t.nsec k ++ zoneText t.offset))))))

/-- A `time.Time` that an RFC 3339 timestamp with `k` fraction digits can
write: a date of the calendar in the years 0 to 9999, a time of day, a
fractional second that fits `k` digits (at most nine), and a zone offset of
whole minutes, less than a day. -/
def wellFormedTime (t : Time) (k : Nat) : Bool :=
  decide (t.year ≤ 9999 ∧ 1 ≤ t.month ∧ t.month ≤ 12 ∧ 1 ≤ t.day ∧
    t.day ≤ daysIn t.month t.year ∧ t.hour ≤ 23 ∧ t.min ≤ 59 ∧ t.sec ≤ 59 ∧ k ≤ 9 ∧
    t.nsec < 10 ^ 9 ∧ t.nsec % 10 ^ (9 - k) = 0 ∧ t.offset.natAbs < 86400 ∧
    t.offset.natAbs % 60 = 0)

/-- One element of the `Versions` array as the tool prints it: the whitespace
before it, the version, the whitespace after it. The version is written as the
encoder writes a string. -/
def encodeElem (e : List Char × String × List Char) : List Char × List Char × List Char :=
  (e.1, encodeString e.2.1.data, e.2.2)

/-- The record the tool prints for a path, a version, a list of versions (or
none) and a time, with the whitespace `gaps` between its tokens and the
whitespace given with each element of the list. -/
def recordText (gaps : List (List Char)) (path version : String)
    (vs : Option (List (List Char × String × List Char))) (t : Time) (k : Nat) : String :=
  String.mk (layoutRecord gaps (encodeString path.data) (encodeString version.data)
    (vs.map (fun es => es.map encodeElem)) (formatRFC3339 t k))

/-- A layout is made of whitespace. -/
def blankLayout (gaps : List (List Char)) (vs : Option (List (List Char × String × List Char))) :
    Bool :=
  gaps.all blank && (vs.getD []).all (fun e => blank e.1 && blank e.2.2)

/-- The versions of a record, in the order and with the repetitions they are
written in; `none` when the record has no `Versions` member. -/
def versionsOf (vs : Option (List (List Char × String × List Char))) : Option (List String) :=
  vs.map (fun es => es.map (fun e => e.2.1))

/-- The elements of a list of versions in compact form, without whitespace;
`none` for no versions, as `renderRecord` writes no member then. -/
def compactElems (vs : List String) : Option (List (List Char × String × List Char)) :=
  match vs with
  | [] => none
  | _ :: _ => some (vs.map (fun s => ([], s, [])))

/-- The proper beginnings of a record: what is left when the text is cut
anywhere before its closing brace. -/
def cutShort (stdout : String) (gaps : List (List Char)) (path version : String)
    (vs : Option (List (List Char × String × List Char))) (t : Time) (k : Nat) : Prop :=
  stdout.data <+: layoutBody gaps (encodeString path.data) (encodeString version.data)
    (vs.map (fun es => es.map encodeElem)) (formatRFC3339 t k)

/-! ## Errors (`pkg/errors`) -/

/-- A Go `error` value: an error of another package, known by its text, or an
`errors.Error` of this repository with its operation, kind and cause. A kind of
`0` means that no kind was given. -/
inductive GoError where
  | plain (msg : String)
  | athens (op : String) (kind : Nat) (err : GoError)
  deriving DecidableEq, Repr

/-- Modelled from the spec: the constant `errors.KindNotFound` of pkg/errors,
which is not in src; the kind the specification calls NotFound. Only that it is
not zero and differs from the other kind matters. -/
def KindNotFound : Nat := 404

/-- Modelled from the spec: the constant `errors.KindUnexpected` of pkg/errors,
which is not in src; the kind the specification calls Internal, the kind of
every failure that was given none. -/
def KindUnexpected : Nat := 500

/-- Modelled from the spec: `errors.E(op, err)` of pkg/errors, which is not in
src. It wraps the cause with the operation name; no kind is given. -/
def errorsE (op : String) (err : GoError) : GoError :=
  GoError.athens op 0 err

/-- Modelled from the spec: `errors.E(op, err, kind)` of pkg/errors, which is
not in src. It wraps the cause with the operation name and the kind. -/
def errorsEKind (op : String) (err : GoError) (kind : Nat) : GoError :=
  GoError.athens op kind err

/-- Modelled from the spec: `errors.Kind(err)` of pkg/errors, which is not in
src. The kind of an error is the kind its wrapper attached; a wrapper without a
kind has the kind of its cause, and an error of another package (a local
infrastructure failure) is Internal. -/
def errorsKind : GoError → Nat
  | GoError.plain _ => KindUnexpected
  | GoError.athens _ kind err => if kind ≠ 0 then kind else errorsKind err

/-- Modelled from the spec: the method `Error()` of `errors.Error` (pkg/errors,
not in src): a wrapper embeds its cause and shows the text of the cause; an
error of another package shows its own text. -/
def GoError.Error : GoError → String
  | GoError.plain msg => msg
  | GoError.athens _ _ err => err.Error

/-! ## The filesystem -/

/-- The filesystem: the paths that exist. -/
abbrev FS := List String

/-- Whether path `p` is directory `d` or lies below it. -/
def under (d p : String) : Bool :=
  p == d || (d.data ++ ['/']).isPrefixOf p.data

/-- The effect of a `RemoveAll(path)` that succeeds (`List` does not look at its
error): `path` and everything below it is gone; the empty path removes
nothing. -/
def removeAll (path : String) (fs : FS) : FS :=
  if path == "" then fs else fs.filter (fun p => !under path p)

/-! ## The lister and its collaborators -/

/-- Modelled from the spec: `auth.BasicAuth` of pkg/auth, which is not in src:
the caller's user and password pair. -/
structure BasicAuth where
  User : String
  Password : String
  deriving DecidableEq, Repr

/-- Why a context is done (`ctx.Err()`). -/
inductive CtxErr where
  | Canceled
  | DeadlineExceeded
  deriving DecidableEq, Repr

/-- The caller's `context.Context`, as far as the lister can observe it: the
credentials attached to it, and its cancellation state during the call
(`none`: not done). -/
structure Context where
  auth : Option BasicAuth
  err : Option CtxErr
  deriving DecidableEq, Repr

/-- Modelled from the spec: `auth.FromContext(ctx)` of pkg/auth, which is not
in src: the credentials attached to the context and whether there are any. -/
def authFromContext (ctx : Context) : BasicAuth × Bool :=
  match ctx.auth with
  | some creds => (creds, true)
  | none => (⟨"", ""⟩, false)

/-- The command handed to `os/exec`; `Args` starts with the command name. -/
structure Cmd where
  Path : String
  Args : List String
  Dir : String
  Env : List String
  deriving DecidableEq, Repr

/-- What one run of the external tool does: the error of `cmd.Run()` (`none`
for exit status zero), the two captured buffers, and the paths it created. -/
structure RunResult where
  err : Option String
  stdout : String
  stderr : String
  writes : List String

/-- The answers of the collaborators outside this package: the credential
materializer `auth.WriteTemporaryNETRC` (host, user, password; answers a
directory), `afero.TempDir(fs, "", prefix)` and the external tool. The two
directory creators see the filesystem they create in. -/
structure World where
  writeTemporaryNETRC : FS → String → String → String → Except String String
  tempDir : FS → String → Except String String
  run : Cmd → RunResult

/-- The functions of package `module` that `List` calls and that are declared
in other files of the package. -/
structure Pkg where
  matchesAuthPattern : List String → String → Bool
  prepareEnv : String → String → List String → List String

/-- The lister. Its `fs` field is the filesystem of `State`: the lister's
`afero.Fs` is the operating system's filesystem, the one `os.RemoveAll` and the
external tool act on. -/
structure vcsLister where
  goBinPath : String
  env : List String
  propagateAuth : Bool
  propagateAuthPatterns : List String
  deriving DecidableEq, Repr

/-- A call `List` makes to a collaborator. The two directory creators are
recorded with their answer: the directory, or `none` for a failure. -/
inductive Event where
  | writeTemporaryNETRC (host user password : String) (dir : Option String)
  | tempDir (pfx : String) (dir : Option String)
  | run (cmd : Cmd)
  | osRemoveAll (path : String)
  | fsRemoveAll (path : String)
  | clearFiles (path : String)
  deriving DecidableEq, Repr

/-- The state a call runs in: the filesystem and the calls made so far, oldest
first. -/
structure State where
  fs : FS
  trace : List Event

/-- Append a call to the trace. -/
def State.log (s : State) (e : Event) : State :=
  { s with trace := s.trace ++ [e] }

/-- Add paths to the filesystem. -/
def State.create (s : State) (paths : List String) : State :=
  { s with fs := paths ++ s.fs }

/-- Modelled from the spec: `storage.RevInfo`, which is not in src: the
resolved version and its timestamp. -/
structure RevInfo where
  Version : String
  Time : Time
  deriving DecidableEq, Repr

/-- The three results of `List`: `*storage.RevInfo` (`none` is nil), the version
slice (`none` is nil) and the error (`none` is nil). -/
structure ListResult where
  rev : Option RevInfo
  versions : Option (List String)
  err : Option GoError
  deriving DecidableEq, Repr

/-- The statement `return nil, nil, err`. -/
def ListResult.fail (err : GoError) : ListResult := ⟨none, none, some err⟩

/-- The elements of a slice; the nil slice has none. -/
def elems (xs : Option (List String)) : List String := xs.getD []

/-- The call `strings.Split(s, sep)` for a one-character separator: the pieces
of `s` between the separators, at least one. -/
def stringsSplit : List Char → Char → List (List Char)
  | [], _ => [[]]
  | c :: cs, sep =>
    if c == sep then [] :: stringsSplit cs sep
    else
      match stringsSplit cs sep with
      | piece :: pieces => (c :: piece) :: pieces
      | [] => [[c]]

/-- Modelled from the spec: `config.FmtModVer(mod, ver)` of pkg/config, which
is not in src: the module path pinned to a version, `<mod>@<ver>`. -/
def FmtModVer (mod ver : String) : String := mod ++ "@" ++ ver

/-- Modelled from the spec: the file `auth.WriteTemporaryNETRC` (pkg/auth, not
in src) writes into the directory it creates. -/
def netrcFile (dir : String) : String := dir ++ "/.netrc"

/-- Modelled from the spec: `clearFiles(fs, root)`, declared in another file of
the package: the directory and everything in it is removed. -/
def clearFiles (root : String) (s : State) : State :=
  { (s.log (Event.clearFiles root)) with fs := removeAll root s.fs }

/-- The call `os.RemoveAll(path)`. -/
def osRemoveAll (path : String) (s : State) : State :=
  { (s.log (Event.osRemoveAll path)) with fs := removeAll path s.fs }

/-- The call `l.fs.RemoveAll(path)`. -/
def fsRemoveAll (path : String) (s : State) : State :=
  { (s.log (Event.fsRemoveAll path)) with fs := removeAll path s.fs }

/-- The call `afero.TempDir(l.fs, "", prefix)`: on success the directory now
exists. -/
def aferoTempDir (w : World) (pfx : String) (s : State) : Except String String × State :=
  match w.tempDir s.fs pfx with
  | .error e => (.error e, s.log (Event.tempDir pfx none))
  | .ok dir => (.ok dir, (s.log (Event.tempDir pfx (some dir))).create [dir])

/-- Modelled from the spec: the call `auth.WriteTemporaryNETRC(host, user,
password)` of pkg/auth, which is not in src: on success a new directory holding
the credential file exists and is returned; on failure nothing is left. -/
def authWriteTemporaryNETRC (w : World) (host user password : String) (s : State) :
    Except String String × State :=
  match w.writeTemporaryNETRC s.fs host user password with
  | .error e => (.error e, s.log (Event.writeTemporaryNETRC host user password none))
  | .ok dir =>
    (.ok dir,
      (s.log (Event.writeTemporaryNETRC host user password (some dir))).create
        [dir, netrcFile dir])

/-- The call `cmd.Run()`: the tool runs and leaves what it wrote. -/
def cmdRun (w : World) (cmd : Cmd) (s : State) : RunResult × State :=
  (w.run cmd, (s.log (Event.run cmd)).create (w.run cmd).writes)

/-- The method `shouldPropAuth`. -/
def vcsLister.shouldPropAuth (l : vcsLister) (pkg : Pkg) (module : String) : Bool :=
  l.propagateAuth && pkg.matchesAuthPattern l.propagateAuthPatterns module

/-- The operation name `List` wraps its errors with. -/
def op : String := "vcsLister.List"

/-- Lines 76 to 85 and 92 of `List`: the command for `<module>@latest`, with its
working directory and its environment. -/
def listCmd (l : vcsLister) (pkg : Pkg) (module netrcDir tmpDir gopath : String) : Cmd :=
  ⟨l.goBinPath, [l.goBinPath, "list", "-m", "-versions", "-json", FmtModVer module "latest"],
    tmpDir, pkg.prepareEnv gopath netrcDir l.env⟩

/-- Lines 94 to 116 of `List`: the result for an outcome of `cmd.Run()`. -/
def listResult (r : RunResult) : ListResult :=
  match r.err with
  | some e =>
    ListResult.fail (errorsEKind op (GoError.plain (e ++ ": " ++ r.stderr)) KindNotFound)
  | none =>
    match jsonDecode r.stdout with
    | .error e => ListResult.fail (errorsE op (GoError.plain e))
    | .ok lr => ⟨some ⟨lr.Version, lr.Time⟩, lr.Versions, none⟩

/-- Lines 87 to 116 of `List`: from the creation of the module-cache directory
to the result. The deferred `clearFiles` runs on every return after the
directory exists. -/
def listInGopath (l : vcsLister) (pkg : Pkg) (w : World) (module netrcDir tmpDir : String)
    (s : State) : ListResult × State :=
  match aferoTempDir w "athens" s with
  | (.error e, s1) => (ListResult.fail (errorsE op (GoError.plain e)), s1)
  | (.ok gopath, s1) =>
    let (r, s2) := cmdRun w (listCmd l pkg module netrcDir tmpDir gopath) s1
    (listResult r, clearFiles gopath s2)

/-- Lines 70 to 116 of `List`: from the creation of the working directory on.
The deferred `l.fs.RemoveAll(tmpDir)` runs on every return after the directory
exists. -/
def listInTmpDir (l : vcsLister) (pkg : Pkg) (w : World) (module netrcDir : String)
    (s : State) : ListResult × State :=
  match aferoTempDir w "go-list" s with
  | (.error e, s1) => (ListResult.fail (errorsE op (GoError.plain e)), s1)
  | (.ok tmpDir, s1) =>
    let (res, s2) := listInGopath l pkg w module netrcDir tmpDir s1
    (res, fsRemoveAll tmpDir s2)

/-- Line 63 of `List`: the host token `strings.Split(module, "/")[0]`. The
split has at least one piece, so the index is in range. -/
def hostToken (module : String) : String :=
  String.mk ((stringsSplit module.data '/').headD [])

/-- The method `List`. The context is used for the credentials attached to it
and for nothing else: the command is built with `exec.Command`. The deferred
`os.RemoveAll(netrcDir)` runs on every return after the credential directory
exists. -/
def vcsLister.List (l : vcsLister) (pkg : Pkg) (w : World) (ctx : Context) (module : String)
    (s : State) : ListResult × State :=
  let (creds, ok) := authFromContext ctx
  if ok && l.shouldPropAuth pkg module then
    let host := hostToken module
    match authWriteTemporaryNETRC w host creds.User creds.Password s with
    | (.error e, s1) => (ListResult.fail (errorsE op (GoError.plain e)), s1)
    | (.ok netrcDir, s1) =>
      let (res, s2) := listInTmpDir l pkg w module netrcDir s1
      (res, osRemoveAll netrcDir s2)
  else listInTmpDir l pkg w module "" s

/-! ## Vocabulary of the statements -/

/-- Whether `List` takes the credential branch: the context carries
credentials and `shouldPropAuth` accepts the module path. -/
def gated (l : vcsLister) (pkg : Pkg) (ctx : Context) (module : String) : Bool :=
  (authFromContext ctx).2 && l.shouldPropAuth pkg module

/-- Directory `d` was created during the calls recorded in a trace. -/
def created (t : List Event) (d : String) : Prop :=
  (∃ pfx, Event.tempDir pfx (some d) ∈ t) ∨
    ∃ host user password, Event.writeTemporaryNETRC host user password (some d) ∈ t

/-- A creation of a directory failed during the calls recorded in a trace. -/
def setupFailed (t : List Event) : Prop :=
  (∃ pfx, Event.tempDir pfx none ∈ t) ∨
    ∃ host user password, Event.writeTemporaryNETRC host user password none ∈ t

/-- The credential materializer was called during the calls recorded in a
trace. -/
def propagated (t : List Event) : Prop :=
  ∃ host user password dir, Event.writeTemporaryNETRC host user password dir ∈ t

/-- The shape of a run of `List` from an empty trace: its result, the
filesystem it leaves and the calls it made. -/
inductive Run (l : vcsLister) (pkg : Pkg) (w : World) (ctx : Context) (module : String)
    (fs : FS) : ListResult × State → Prop where
  | noTmpDir (e : String) (hg : gated l pkg ctx module = false) :
    Run l pkg w ctx module fs
      (ListResult.fail (errorsE op (GoError.plain e)), ⟨fs, [Event.tempDir "go-list" none]⟩)
  | noGopath (tmpDir e : String) (hg : gated l pkg ctx module = false) :
    Run l pkg w ctx module fs
      (ListResult.fail (errorsE op (GoError.plain e)),
        ⟨removeAll tmpDir (tmpDir :: fs),
          [Event.tempDir "go-list" (some tmpDir), Event.tempDir "athens" none,
            Event.fsRemoveAll tmpDir]⟩)
  | ran (tmpDir gopath : String) (hg : gated l pkg ctx module = false) :
    Run l pkg w ctx module fs
      (listResult (w.run (listCmd l pkg module "" tmpDir gopath)),
        ⟨removeAll tmpDir (removeAll gopath
            ((w.run (listCmd l pkg module "" tmpDir gopath)).writes ++ gopath :: tmpDir :: fs)),
          [Event.tempDir "go-list" (some tmpDir), Event.tempDir "athens" (some gopath),
            Event.run (listCmd l pkg module "" tmpDir gopath), Event.clearFiles gopath,
            Event.fsRemoveAll tmpDir]⟩)
  | noNetrc (creds : BasicAuth) (e : String) (hc : ctx.auth = some creds)
      (hp : l.shouldPropAuth pkg module = true) :
    Run l pkg w ctx module fs
      (ListResult.fail (errorsE op (GoError.plain e)),
        ⟨fs, [Event.writeTemporaryNETRC (hostToken module) creds.User creds.Password none]⟩)
  | netrcNoTmpDir (creds : BasicAuth) (netrcDir e : String) (hc : ctx.auth = some creds)
      (hp : l.shouldPropAuth pkg module = true) :
    Run l pkg w ctx module fs
      (ListResult.fail (errorsE op (GoError.plain e)),
        ⟨removeAll netrcDir (netrcDir :: netrcFile netrcDir :: fs),
          [Event.writeTemporaryNETRC (hostToken module) creds.User creds.Password (some netrcDir),
            Event.tempDir "go-list" none, Event.osRemoveAll netrcDir]⟩)
  | netrcNoGopath (creds : BasicAuth) (netrcDir tmpDir e : String) (hc : ctx.auth = some creds)
      (hp : l.shouldPropAuth pkg module = true) :
    Run l pkg w ctx module fs
      (ListResult.fail (errorsE op (GoError.plain e)),
        ⟨removeAll netrcDir (removeAll tmpDir (tmpDir :: netrcDir :: netrcFile netrcDir :: fs)),
          [Event.writeTemporaryNETRC (hostToken module) creds.User creds.Password (some netrcDir),
            Event.tempDir "go-list" (some tmpDir), Event.tempDir "athens" none,
            Event.fsRemoveAll tmpDir, Event.osRemoveAll netrcDir]⟩)
  | netrcRan (creds : BasicAuth) (netrcDir tmpDir gopath : String) (hc : ctx.auth = some creds)
      (hp : l.shouldPropAuth pkg module = true) :
    Run l pkg w ctx module fs
      (listResult (w.run (listCmd l pkg module netrcDir tmpDir gopath)),
        ⟨removeAll netrcDir (removeAll tmpDir (removeAll gopath
            ((w.run (listCmd l pkg module netrcDir tmpDir gopath)).writes ++
              gopath :: tmpDir :: netrcDir :: netrcFile netrcDir :: fs))),
          [Event.writeTemporaryNETRC (hostToken module) creds.User creds.Password (some netrcDir),
            Event.tempDir "go-list" (some tmpDir), Event.tempDir "athens" (some gopath),
            Event.run (listCmd l pkg module netrcDir tmpDir gopath), Event.clearFiles gopath,
            Event.fsRemoveAll tmpDir, Event.osRemoveAll netrcDir]⟩)

/-- A result that is an Internal failure: nil `RevInfo`, nil version list and
an error whose kind is Internal, hence not NotFound. -/
def internalFailure (r : ListResult) : Prop :=
  r.rev = none ∧ r.versions = none ∧
    ∃ err, r.err = some err ∧ errorsKind err = KindUnexpected ∧ errorsKind err ≠ KindNotFound

/-! ## Instances for the worked examples -/

/-- An instance of the package functions for the worked examples: a pattern
matches a module path when it equals the path's host token, and the environment
is the base environment followed by the two directories. -/
def samplePkg : Pkg :=
  ⟨fun patterns module => patterns.contains (hostToken module),
   fun gopath netrcDir env => env ++ ["GOPATH=" ++ gopath, "NETRCDIR=" ++ netrcDir]⟩

/-- A lister with propagation enabled for `example.org`. -/
def sampleLister : vcsLister := ⟨"go", ["PATH=/usr/bin"], true, ["example.org"]⟩

/-- A world in which every directory can be created and the tool behaves as
`r` says. -/
def sampleWorld (r : RunResult) : World :=
  ⟨fun _ _ _ _ => .ok "/tmp/netrcp1", fun _ pfx => .ok ("/tmp/" ++ pfx ++ "1"), fun _ => r⟩

/-- A world in which the directories named by `bad` cannot be created. -/
def brokenWorld (bad : List String) (r : RunResult) : World :=
  ⟨fun _ _ _ _ => if bad.contains "netrcp" then .error "mkdir: no space left on device"
      else .ok "/tmp/netrcp1",
   fun _ pfx => if bad.contains pfx then .error "mkdir: no space left on device"
      else .ok ("/tmp/" ++ pfx ++ "1"),
   fun _ => r⟩

/-- The standard output of the specification's example. -/
def sampleStdout : String :=
  "\x7b\"Path\":\"m\",\"Version\":\"v1.2.0\",\"Time\":\"2023-01-01T00:00:00Z\"\x7d"

/-- The whitespace of the record as the tool prints it: a line for each
member, indented with a tab, and a space after each colon. -/
def printedLayout : List (List Char) :=
  [[], "\n\t".data, [], " ".data, [], "\n\t".data, [], " ".data, [], "\n\t".data, [],
    " ".data, [], [], "\n\t".data, [], " ".data, "\n".data, "\n".data]

/-- The versions of the printed record, unsorted and with a repetition, each on
a line of its own. -/
def printedVersions : Option (List (List Char × String × List Char)) :=
  some [("\n\t\t".data, "v1.0.0", []), ("\n\t\t".data, "v1.2.0", []),
    ("\n\t\t".data, "v1.1.0", []), ("\n\t\t".data, "v1.0.0", "\n\t".data)]

/-- The record as the tool prints it, indented. -/
def printedStdout : String :=
  "\x7b\n\t\"Path\": \"m\",\n\t\"Version\": \"v1.2.0\",\n\t\"Versions\": [\n\t\t\"v1.0.0\",\n\t\t\"v1.2.0\",\n\t\t\"v1.1.0\",\n\t\t\"v1.0.0\"\n\t],\n\t\"Time\": \"2023-01-01T00:00:00Z\"\n\x7d\n"

/-- The printed record cut short in the middle of its list of versions. -/
def truncatedStdout : String :=
  "\x7b\n\t\"Path\": \"m\",\n\t\"Version\": \"v1.2.0\",\n\t\"Versions\": [\n\t\t\"v1.0.0\",\n\t\t\"v1"

/-- The sample record followed by text that is not JSON. -/
def garbledStdout : String := sampleStdout ++ "\ngo: finished with warnings."

/-- A call whose context carries credentials and is not cancelled. -/
def sampleCtx : Context := ⟨some ⟨"user", "secret"⟩, none⟩

/-- A call whose context is cancelled while the tool runs. -/
def cancelledCtx : Context := ⟨some ⟨"user", "secret"⟩, some CtxErr.Canceled⟩

/-- A call whose context carries no credentials. -/
def anonymousCtx : Context := ⟨none, none⟩

/-- A run of the tool that prints the sample record and leaves files in its
working directory and in the module cache. -/
def writingRun : RunResult :=
  ⟨none, sampleStdout, "",
    ["/tmp/go-list1/go.mod", "/tmp/athens1/pkg/mod/cache/download/m/@v/list"]⟩

/-- A second record, as a tool that prints two would append it. -/
def secondRecord : String := "\x7b\"Path\":\"m\",\"Version\":\"v9.9.9\"\x7d"

/-- A run of the tool that exits zero and prints `out`. -/
def printingRun (out : String) : RunResult := ⟨none, out, "", []⟩

/-! ## The layers of `List`, case by case -/

@[simp] theorem log_fs (s : State) (e : Event) : (s.log e).fs = s.fs := rfl

@[simp] theorem log_trace (s : State) (e : Event) : (s.log e).trace = s.trace ++ [e] := rfl

@[simp] theorem create_fs (s : State) (ps : List String) : (s.create ps).fs = ps ++ s.fs := rfl

@[simp] theorem create_trace (s : State) (ps : List String) : (s.create ps).trace = s.trace :=
  rfl

theorem gopath_eq_error (l : vcsLister) (pkg : Pkg) (w : World) (module netrcDir tmpDir : String)
    (s : State) (e : String) (h : w.tempDir s.fs "athens" = .error e) :
    listInGopath l pkg w module netrcDir tmpDir s =
      (ListResult.fail (errorsE op (GoError.plain e)),
        ⟨s.fs, s.trace ++ [Event.tempDir "athens" none]⟩) := by
  simp [listInGopath, aferoTempDir, h, State.log]

theorem gopath_eq_ok (l : vcsLister) (pkg : Pkg) (w : World) (module netrcDir tmpDir : String)
    (s : State) (gopath : String) (h : w.tempDir s.fs "athens" = .ok gopath) :
    listInGopath l pkg w module netrcDir tmpDir s =
      (listResult (w.run (listCmd l pkg module netrcDir tmpDir gopath)),
        ⟨removeAll gopath
          ((w.run (listCmd l pkg module netrcDir tmpDir gopath)).writes ++ gopath :: s.fs),
         s.trace ++ [Event.tempDir "athens" (some gopath),
           Event.run (listCmd l pkg module netrcDir tmpDir gopath), Event.clearFiles gopath]⟩) := by
  simp [listInGopath, aferoTempDir, h, State.log, cmdRun, clearFiles, State.create]

theorem tmpDir_eq_error (l : vcsLister) (pkg : Pkg) (w : World) (module netrcDir : String)
    (s : State) (e : String) (h : w.tempDir s.fs "go-list" = .error e) :
    listInTmpDir l pkg w module netrcDir s =
      (ListResult.fail (errorsE op (GoError.plain e)),
        ⟨s.fs, s.trace ++ [Event.tempDir "go-list" none]⟩) := by
  simp [listInTmpDir, aferoTempDir, h, State.log]

theorem tmpDir_eq_ok (l : vcsLister) (pkg : Pkg) (w : World) (module netrcDir : String)
    (s : State) (tmpDir : String) (h : w.tempDir s.fs "go-list" = .ok tmpDir) :
    listInTmpDir l pkg w module netrcDir s =
      ((listInGopath l pkg w module netrcDir tmpDir
          ⟨tmpDir :: s.fs, s.trace ++ [Event.tempDir "go-list" (some tmpDir)]⟩).1,
        fsRemoveAll tmpDir (listInGopath l pkg w module netrcDir tmpDir
          ⟨tmpDir :: s.fs, s.trace ++ [Event.tempDir "go-list" (some tmpDir)]⟩).2) := by
  simp [listInTmpDir, aferoTempDir, h, State.log, State.create]

theorem list_eq_ungated (l : vcsLister) (pkg : Pkg) (w : World) (ctx : Context)
    (module : String) (s : State) (h : gated l pkg ctx module = false) :
    l.List pkg w ctx module s = listInTmpDir l pkg w module "" s := by
  unfold gated at h
  simp [vcsLister.List, h]

theorem list_eq_error (l : vcsLister) (pkg : Pkg) (w : World) (ctx : Context)
    (module : String) (s : State) (creds : BasicAuth) (e : String)
    (hc : ctx.auth = some creds) (hp : l.shouldPropAuth pkg module = true)
    (h : w.writeTemporaryNETRC s.fs (hostToken module) creds.User creds.Password = .error e) :
    l.List pkg w ctx module s =
      (ListResult.fail (errorsE op (GoError.plain e)),
        ⟨s.fs, s.trace ++
          [Event.writeTemporaryNETRC (hostToken module) creds.User creds.Password none]⟩) := by
  simp [vcsLister.List, authFromContext, hc, hp, authWriteTemporaryNETRC, h, State.log]

theorem list_eq_ok (l : vcsLister) (pkg : Pkg) (w : World) (ctx : Context)
    (module : String) (s : State) (creds : BasicAuth) (dir : String)
    (hc : ctx.auth = some creds) (hp : l.shouldPropAuth pkg module = true)
    (h : w.writeTemporaryNETRC s.fs (hostToken module) creds.User creds.Password = .ok dir) :
    l.List pkg w ctx module s =
      ((listInTmpDir l pkg w module dir
          ⟨dir :: netrcFile dir :: s.fs, s.trace ++
            [Event.writeTemporaryNETRC (hostToken module) creds.User creds.Password
              (some dir)]⟩).1,
        osRemoveAll dir (listInTmpDir l pkg w module dir
          ⟨dir :: netrcFile dir :: s.fs, s.trace ++
            [Event.writeTemporaryNETRC (hostToken module) creds.User creds.Password
              (some dir)]⟩).2) := by
  simp [vcsLister.List, authFromContext, hc, hp, authWriteTemporaryNETRC, h, State.log,
    State.create]

theorem gated_iff (l : vcsLister) (pkg : Pkg) (ctx : Context) (module : String) :
    gated l pkg ctx module = true ↔
      (∃ creds, ctx.auth = some creds) ∧ l.shouldPropAuth pkg module = true := by
  unfold gated authFromContext
  cases ctx.auth <;> simp

/-- Every run of lines 70 to 116 is one of three: the working directory cannot
be created; the module-cache directory cannot be created; the tool runs. Each
comes with its result, its final filesystem and its trace. -/
theorem tmpDir_cases (l : vcsLister) (pkg : Pkg) (w : World) (module netrcDir : String)
    (s : State) :
    (∃ e, listInTmpDir l pkg w module netrcDir s =
      (ListResult.fail (errorsE op (GoError.plain e)),
        ⟨s.fs, s.trace ++ [Event.tempDir "go-list" none]⟩)) ∨
    (∃ tmpDir e, listInTmpDir l pkg w module netrcDir s =
      (ListResult.fail (errorsE op (GoError.plain e)),
        ⟨removeAll tmpDir (tmpDir :: s.fs),
          s.trace ++ [Event.tempDir "go-list" (some tmpDir), Event.tempDir "athens" none,
            Event.fsRemoveAll tmpDir]⟩)) ∨
    (∃ tmpDir gopath, listInTmpDir l pkg w module netrcDir s =
      (listResult (w.run (listCmd l pkg module netrcDir tmpDir gopath)),
        ⟨removeAll tmpDir (removeAll gopath
            ((w.run (listCmd l pkg module netrcDir tmpDir gopath)).writes ++
              gopath :: tmpDir :: s.fs)),
          s.trace ++ [Event.tempDir "go-list" (some tmpDir), Event.tempDir "athens" (some gopath),
            Event.run (listCmd l pkg module netrcDir tmpDir gopath), Event.clearFiles gopath,
            Event.fsRemoveAll tmpDir]⟩)) := by
  rcases ht : w.tempDir s.fs "go-list" with e | tmpDir
  · exact Or.inl ⟨e, tmpDir_eq_error l pkg w module netrcDir s e ht⟩
  · rw [tmpDir_eq_ok l pkg w module netrcDir s tmpDir ht]
    rcases hg : w.tempDir (tmpDir :: s.fs) "athens" with e | gopath
    · refine Or.inr (Or.inl ⟨tmpDir, e, ?_⟩)
      rw [gopath_eq_error l pkg w module netrcDir tmpDir _ e hg]
      simp [fsRemoveAll, State.log]
    · refine Or.inr (Or.inr ⟨tmpDir, gopath, ?_⟩)
      rw [gopath_eq_ok l pkg w module netrcDir tmpDir _ gopath hg]
      simp [fsRemoveAll, State.log]

/-- Every call of `List` from an empty trace has one of the seven shapes. -/
theorem list_run (l : vcsLister) (pkg : Pkg) (w : World) (ctx : Context) (module : String)
    (fs : FS) : Run l pkg w ctx module fs (l.List pkg w ctx module ⟨fs, []⟩) := by
  cases hg : gated l pkg ctx module
  · rw [list_eq_ungated l pkg w ctx module _ hg]
    rcases tmpDir_cases l pkg w module "" ⟨fs, []⟩ with ⟨e, h⟩ | ⟨t, e, h⟩ | ⟨t, g, h⟩
    · rw [h]; exact Run.noTmpDir e hg
    · rw [h]; exact Run.noGopath t e hg
    · rw [h]; exact Run.ran t g hg
  · obtain ⟨⟨creds, hc⟩, hp⟩ := (gated_iff l pkg ctx module).1 hg
    rcases hn : w.writeTemporaryNETRC fs (hostToken module) creds.User creds.Password
      with e | netrcDir
    · rw [list_eq_error l pkg w ctx module ⟨fs, []⟩ creds e hc hp hn]
      exact Run.noNetrc creds e hc hp
    · rw [list_eq_ok l pkg w ctx module ⟨fs, []⟩ creds netrcDir hc hp hn]
      rcases tmpDir_cases l pkg w module netrcDir
        ⟨netrcDir :: netrcFile netrcDir :: fs,
          [] ++ [Event.writeTemporaryNETRC (hostToken module) creds.User creds.Password
            (some netrcDir)]⟩ with ⟨e, h⟩ | ⟨t, e, h⟩ | ⟨t, g, h⟩
      · rw [h]; exact Run.netrcNoTmpDir creds netrcDir e hc hp
      · rw [h]; exact Run.netrcNoGopath creds netrcDir t e hc hp
      · rw [h]; exact Run.netrcRan creds netrcDir t g hc hp

/-- A call that ran the tool returns what lines 94 to 116 make of the run. -/
theorem run_inv (l : vcsLister) (pkg : Pkg) (w : World) (ctx : Context)
    (module : String) (fs : FS) (cmd : Cmd)
    (hran : Event.run cmd ∈ (l.List pkg w ctx module ⟨fs, []⟩).2.trace) :
    (l.List pkg w ctx module ⟨fs, []⟩).1 = listResult (w.run cmd) := by
  have h := list_run l pkg w ctx module fs
  generalize l.List pkg w ctx module ⟨fs, []⟩ = out at h hran
  cases h <;> simp at hran ⊢
  · rw [hran]
  · rw [hran]

/-- The tool runs in a call exactly when no creation of a directory failed in
it: "the sandbox was set up" and "the tool ran" are the same condition. -/
theorem ran_iff_setup_ok (l : vcsLister) (pkg : Pkg) (w : World) (ctx : Context)
    (module : String) (fs : FS) :
    (∃ cmd, Event.run cmd ∈ (l.List pkg w ctx module ⟨fs, []⟩).2.trace) ↔
      ¬ setupFailed (l.List pkg w ctx module ⟨fs, []⟩).2.trace := by
  have h := list_run l pkg w ctx module fs
  generalize l.List pkg w ctx module ⟨fs, []⟩ = out at h
  cases h <;> simp [setupFailed]

/-! ## The host token -/

theorem stringsSplit_ne_nil (cs : List Char) (sep : Char) : stringsSplit cs sep ≠ [] := by
  induction cs with
  | nil => simp [stringsSplit]
  | cons c cs ih =>
    unfold stringsSplit
    split
    · simp
    · split
      · simp
      · simp

theorem stringsSplit_head (cs : List Char) :
    (stringsSplit cs '/').headD [] = cs.takeWhile (fun c => c != '/') := by
  induction cs with
  | nil => simp [stringsSplit]
  | cons c cs ih =>
    unfold stringsSplit
    by_cases hc : c = '/'
    · simp [hc]
    · have hne := stringsSplit_ne_nil cs '/'
      cases hs : stringsSplit cs '/' with
      | nil => exact absurd hs hne
      | cons piece pieces =>
        rw [hs] at ih
        simp [hc, List.takeWhile_cons] at ih ⊢
        exact ih

theorem hostToken_data (module : String) :
    (hostToken module).data = module.data.takeWhile (fun c => c != '/') := by
  simp only [hostToken]
  exact stringsSplit_head module.data

theorem hostToken_spec (module : String) :
    '/' ∉ (hostToken module).data ∧ (hostToken module).data <+: module.data ∧
    ((module = hostToken module ∧ '/' ∉ module.data) ∨
      ∃ rest, module = hostToken module ++ "/" ++ rest) := by
  refine ⟨?_, ?_, ?_⟩
  · rw [hostToken_data]
    intro h
    have := List.mem_takeWhile_imp h
    simp at this
  · rw [hostToken_data]
    exact List.takeWhile_prefix _
  · have hsplit := List.takeWhile_append_dropWhile (fun c => c != '/') module.data
    cases hd : module.data.dropWhile (fun c => c != '/') with
    | nil =>
      left
      rw [hd, List.append_nil] at hsplit
      constructor
      · apply String.ext
        rw [hostToken_data, hsplit]
      · intro hmem
        rw [← hsplit] at hmem
        have := List.mem_takeWhile_imp hmem
        simp at this
    | cons c rest =>
      right
      have hc : c = '/' := by
        have := List.head_dropWhile_not (fun c => c != '/') module.data
        simp [hd] at this
        exact this
      refine ⟨String.mk rest, ?_⟩
      apply String.ext
      subst hc
      rw [hd] at hsplit
      simp only [String.data_append, hostToken_data]
      simpa using hsplit.symm

/-! ## Removal of directories -/

theorem created_iff (t : List Event) (d : String) :
    created t d ↔ ∃ e ∈ t, (∃ pfx, e = Event.tempDir pfx (some d)) ∨
      ∃ host user password, e = Event.writeTemporaryNETRC host user password (some d) := by
  unfold created
  constructor
  · rintro (⟨pfx, h⟩ | ⟨a, b, c, h⟩)
    · exact ⟨_, h, Or.inl ⟨pfx, rfl⟩⟩
    · exact ⟨_, h, Or.inr ⟨a, b, c, rfl⟩⟩
  · rintro ⟨e, he, ⟨pfx, rfl⟩ | ⟨a, b, c, rfl⟩⟩
    · exact Or.inl ⟨pfx, he⟩
    · exact Or.inr ⟨a, b, c, he⟩

theorem mem_removeAll {d q : String} {xs : FS} (h : q ∈ removeAll d xs) : q ∈ xs := by
  unfold removeAll at h
  split at h
  · exact h
  · exact (List.mem_filter.1 h).1

theorem not_under_of_mem_removeAll {d q : String} {xs : FS} (hd : d ≠ "")
    (h : q ∈ removeAll d xs) : under d q = false := by
  unfold removeAll at h
  split at h
  · rename_i he
    simp at he
    exact absurd he hd
  · simpa using (List.mem_filter.1 h).2

theorem under_self (d : String) : under d d = true := by
  simp [under]

theorem under_netrcFile (d : String) : under d (netrcFile d) = true := by
  simp [under, netrcFile, String.data_append]

theorem foldr_removeAll (ds : List String) (hne : ∀ d ∈ ds, d ≠ "") (ys : FS) :
    ds.foldr removeAll ys = ys.filter (fun q => ds.all (fun d => !under d q)) := by
  induction ds with
  | nil => simp
  | cons d ds ih =>
    have hd : d ≠ "" := hne d (List.mem_cons_self _ _)
    have hds : ∀ x ∈ ds, x ≠ "" := fun x hx => hne x (List.mem_cons_of_mem _ hx)
    simp only [List.foldr_cons, ih hds, removeAll]
    have : (d == "") = false := by simpa using hd
    simp only [this, Bool.false_eq_true, if_false, List.filter_filter, List.all_cons]

theorem cleanup_restores (ds : List String) (xs fs : FS) (hne : ∀ d ∈ ds, d ≠ "")
    (hx : ∀ q ∈ xs, ∃ d ∈ ds, under d q = true)
    (hfs : ∀ q ∈ fs, ∀ d ∈ ds, under d q = false) :
    ds.foldr removeAll (xs ++ fs) = fs := by
  rw [foldr_removeAll ds hne, List.filter_append]
  have h1 : xs.filter (fun q => ds.all (fun d => !under d q)) = [] := by
    rw [List.filter_eq_nil_iff]
    intro q hq
    obtain ⟨d, hd, hu⟩ := hx q hq
    simp only [List.all_eq_true, Bool.not_eq_true', not_forall]
    exact ⟨d, hd, by simp [hu]⟩
  have h2 : fs.filter (fun q => ds.all (fun d => !under d q)) = fs := by
    rw [List.filter_eq_self]
    intro q hq
    simp only [List.all_eq_true, Bool.not_eq_true']
    exact fun d hd => hfs q hq d hd
  rw [h1, h2, List.nil_append]


theorem propagated_iff (t : List Event) :
    propagated t ↔ ∃ e ∈ t, ∃ host user password dir,
      e = Event.writeTemporaryNETRC host user password dir := by
  unfold propagated
  constructor
  · rintro ⟨a, b, c, d, h⟩
    exact ⟨_, h, a, b, c, d, rfl⟩
  · rintro ⟨e, he, a, b, c, d, rfl⟩
    exact ⟨a, b, c, d, he⟩

/-! ## The decoder reads one value and no further -/

theorem skipSpace_append (cs t : List Char) (c : Char) (r : List Char)
    (h : skipSpace cs = c :: r) : skipSpace (cs ++ t) = c :: (r ++ t) := by
  induction cs with
  | nil => simp [skipSpace] at h
  | cons x xs ih =>
    simp only [skipSpace, List.cons_append] at h ⊢
    split
    · rename_i hx
      rw [if_pos hx] at h
      exact ih h
    · rename_i hx
      rw [if_neg hx] at h
      cases h
      rfl

theorem spanDigits_append (cs t ds r : List Char) (h : spanDigits cs = (ds, r)) (hr : r ≠ []) :
    spanDigits (cs ++ t) = (ds, r ++ t) := by
  induction cs generalizing ds with
  | nil =>
    simp [spanDigits] at h
    exact absurd h.2 hr
  | cons x xs ih =>
    simp only [spanDigits, List.cons_append, List.takeWhile_cons, List.dropWhile_cons] at h ⊢
    by_cases hx : isDigit x = true
    · simp only [hx, if_true] at h ⊢
      simp only [Prod.mk.injEq] at h
      have := ih (xs.takeWhile isDigit) (by simp [spanDigits, h.2])
      simp only [spanDigits, Prod.mk.injEq] at this
      simp only [Prod.mk.injEq]
      rw [this.1, this.2]
      exact ⟨h.1, rfl⟩
    · simp only [hx] at h ⊢
      simp only [Bool.false_eq_true, if_false, Prod.mk.injEq] at h ⊢
      rw [← h.2]
      exact ⟨h.1, rfl⟩

theorem scanInt_append (cs t ip r : List Char) (h : scanInt cs = some (ip, r)) (hr : r ≠ []) :
    scanInt (cs ++ t) = some (ip, r ++ t) := by
  cases cs with
  | nil => simp [scanInt] at h
  | cons c rest =>
    simp only [scanInt, List.cons_append] at h ⊢
    split
    · rename_i h0
      rw [if_pos h0] at h
      cases h
      rfl
    · rename_i h0
      rw [if_neg h0] at h
      split
      · rename_i hd
        rw [if_pos hd] at h
        simp only [Option.some.injEq, Prod.mk.injEq] at h
        have hs : spanDigits rest = (rest.takeWhile isDigit, r) := by
          simp only [spanDigits, Prod.mk.injEq, true_and]
          have := h.2
          simpa [spanDigits] using this
        rw [spanDigits_append rest t _ r hs hr]
        simp only [Option.some.injEq, Prod.mk.injEq, and_true]
        rw [← h.1]
        simp [spanDigits]
      · rename_i hd
        rw [if_neg hd] at h
        cases h

theorem spanDigits_some (cs t r : List Char) (f : List Char → List Char)
    (h : (match spanDigits cs with
      | ([], _) => none
      | (ds, r) => some (f ds, r)) = some (x, r)) (hr : r ≠ []) :
    (match spanDigits (cs ++ t) with
      | ([], _) => none
      | (ds, r) => some (f ds, r)) = some (x, r ++ t) := by
  split at h
  · cases h
  · rename_i ds r1 hne heq
    simp only [Option.some.injEq, Prod.mk.injEq] at h
    obtain ⟨h1, h2⟩ := h
    subst h2
    rw [spanDigits_append cs t ds r1 heq hr]
    split
    · rename_i heq2
      simp only [Prod.mk.injEq] at heq2
      exact absurd heq2.1 hne
    · rename_i heq2
      simp only [Prod.mk.injEq] at heq2
      rw [← heq2.1, ← heq2.2, h1]

theorem scanFrac_append (cs t fp r : List Char) (h : scanFrac cs = some (fp, r))
    (hr : r ≠ []) : scanFrac (cs ++ t) = some (fp, r ++ t) := by
  cases cs with
  | nil =>
    simp [scanFrac] at h
    exact absurd h.2 hr
  | cons c rest =>
    simp only [scanFrac, List.cons_append] at h ⊢
    split
    · rename_i hc
      rw [if_pos hc] at h
      exact spanDigits_some rest t r (fun ds => '.' :: ds) h hr
    · rename_i hc
      rw [if_neg hc] at h
      cases h
      rfl

theorem scanFrac_ne (cs fp r : List Char) (h : scanFrac cs = some (fp, r)) (hr : r ≠ []) :
    cs ≠ [] := by
  intro hc
  subst hc
  simp [scanFrac] at h
  exact hr h.2

theorem scanExp_append (cs t ep r : List Char) (h : scanExp cs = some (ep, r))
    (hr : r ≠ []) : scanExp (cs ++ t) = some (ep, r ++ t) := by
  cases cs with
  | nil =>
    simp [scanExp] at h
    exact absurd h.2 hr
  | cons e rest =>
    simp only [scanExp, List.cons_append] at h ⊢
    split
    · rename_i he
      rw [if_pos he] at h
      cases rest with
      | nil => simp at h
      | cons s rest1 =>
        simp only [List.cons_append] at h ⊢
        split
        · rename_i hsg
          rw [if_pos hsg] at h
          exact spanDigits_some rest1 t r (fun ds => e :: s :: ds) h hr
        · rename_i hsg
          rw [if_neg hsg] at h
          exact spanDigits_some (s :: rest1) t r (fun ds => e :: ds) h hr
    · rename_i he
      rw [if_neg he] at h
      cases h
      rfl

theorem scanExp_ne (cs ep r : List Char) (h : scanExp cs = some (ep, r)) (hr : r ≠ []) :
    cs ≠ [] := by
  intro hc
  subst hc
  simp [scanExp] at h
  exact hr h.2

theorem scanSign_append (cs t : List Char) (h : (scanSign cs).2 ≠ []) :
    scanSign (cs ++ t) = ((scanSign cs).1, (scanSign cs).2 ++ t) := by
  cases cs with
  | nil => simp [scanSign] at h
  | cons c rest =>
    simp only [scanSign, List.cons_append]
    split <;> rfl

theorem scanNum_append (cs t raw r : List Char) (h : scanNum cs = some (raw, r))
    (hr : r ≠ []) : scanNum (cs ++ t) = some (raw, r ++ t) := by
  unfold scanNum at h ⊢
  split at h
  · cases h
  · rename_i ip cs2 hint
    split at h
    · cases h
    · rename_i fp cs3 hfrac
      split at h
      · cases h
      · rename_i ep cs4 hexp
        simp only [Option.some.injEq, Prod.mk.injEq] at h
        obtain ⟨h1, h2⟩ := h
        subst h2
        have h3 : cs3 ≠ [] := scanExp_ne cs3 ep cs4 hexp hr
        have h2 : cs2 ≠ [] := scanFrac_ne cs2 fp cs3 hfrac h3
        have h1' : (scanSign cs).2 ≠ [] := by
          intro hnil
          rw [hnil] at hint
          simp [scanInt] at hint
        rw [scanSign_append cs t h1']
        simp only
        rw [scanInt_append _ t ip cs2 hint h2]
        simp only
        rw [scanFrac_append cs2 t fp cs3 hfrac h3]
        simp only
        rw [scanExp_append cs3 t ep cs4 hexp hr]
        simp only [h1]

theorem lowSurrogate_append_some (rest t : List Char) (lo : Nat) (r2 : List Char)
    (h : lowSurrogate rest = some (lo, r2)) :
    lowSurrogate (rest ++ t) = some (lo, r2 ++ t) ∧ (rest ++ t).take 6 = rest.take 6 := by
  rcases rest with _ | ⟨c1, _ | ⟨c2, _ | ⟨a, _ | ⟨b, _ | ⟨c, _ | ⟨d, rest1⟩⟩⟩⟩⟩⟩ <;>
    try (simp [lowSurrogate] at h; done)
  simp only [lowSurrogate, List.cons_append] at h ⊢
  refine ⟨?_, by simp⟩
  split at h
  · rename_i hc
    rw [if_pos hc]
    split at h
    · rename_i lo1 hhex
      split at h
      · rename_i hrange
        rw [if_pos hrange]
        cases h
        rfl
      · cases h
    · cases h
  · cases h

theorem lowSurrogate_some_shape (xs : List Char) (p : Nat × List Char)
    (h : lowSurrogate xs = some p) :
    ∃ a b c d rest, xs = '\\' :: 'u' :: a :: b :: c :: d :: rest := by
  rcases xs with _ | ⟨c1, _ | ⟨c2, _ | ⟨a, _ | ⟨b, _ | ⟨c, _ | ⟨d, rest1⟩⟩⟩⟩⟩⟩ <;>
    try (simp [lowSurrogate] at h; done)
  simp only [lowSurrogate] at h
  split at h
  · rename_i hc
    simp only [Bool.and_eq_true, beq_iff_eq] at hc
    exact ⟨a, b, c, d, rest1, by rw [hc.1, hc.2]⟩
  · cases h

theorem lowSurrogate_append_none (fuel : Nat) (raw val rest t : List Char)
    (out : List Char × List Char × List Char)
    (h : scanStr fuel raw val rest = some out) (hl : lowSurrogate rest = none) :
    lowSurrogate (rest ++ t) = none := by
  cases hq : lowSurrogate (rest ++ t) with
  | none => rfl
  | some p =>
    exfalso
    obtain ⟨a1, b1, c1, d1, rest2, hshape⟩ := lowSurrogate_some_shape _ p hq
    cases fuel with
    | zero => simp [scanStr] at h
    | succ fuel =>
      rcases rest with _ | ⟨x1, _ | ⟨x2, _ | ⟨a, _ | ⟨b, _ | ⟨c, _ | ⟨d, rest1⟩⟩⟩⟩⟩⟩
      · simp [scanStr] at h
      · simp only [List.cons_append, List.cons.injEq] at hshape
        obtain ⟨rfl, -⟩ := hshape
        simp [scanStr] at h
      · simp only [List.cons_append, List.cons.injEq] at hshape
        obtain ⟨rfl, rfl, -⟩ := hshape
        simp [scanStr] at h
      · simp only [List.cons_append, List.cons.injEq] at hshape
        obtain ⟨rfl, rfl, -⟩ := hshape
        simp [scanStr] at h
      · simp only [List.cons_append, List.cons.injEq] at hshape
        obtain ⟨rfl, rfl, -⟩ := hshape
        simp [scanStr] at h
      · simp only [List.cons_append, List.cons.injEq] at hshape
        obtain ⟨rfl, rfl, -⟩ := hshape
        simp [scanStr] at h
      · simp only [lowSurrogate, List.cons_append] at hl hq
        split at hl
        · rename_i hc
          rw [if_pos hc] at hq
          split at hl
          · rename_i lo hhex
            rw [hhex] at hq
            simp only at hq
            split at hl
            · cases hl
            · rename_i hrange
              rw [if_neg hrange] at hq
              cases hq
          · rename_i hhex
            rw [hhex] at hq
            cases hq
        · rename_i hc
          rw [if_neg hc] at hq
          cases hq

theorem scanStr_append (t : List Char) :
    ∀ (fuel : Nat) (raw val cs a b r : List Char),
      scanStr fuel raw val cs = some (a, b, r) →
      ∀ fuel', fuel ≤ fuel' → scanStr fuel' raw val (cs ++ t) = some (a, b, r ++ t) := by
  intro fuel
  induction fuel with
  | zero =>
    intro raw val cs a b r h
    simp [scanStr] at h
  | succ fuel ih =>
    intro raw val cs a b r h fuel' hle
    obtain ⟨fuel1, rfl⟩ : ∃ k, fuel' = k + 1 := ⟨fuel' - 1, by omega⟩
    have hle1 : fuel ≤ fuel1 := by omega
    cases cs with
    | nil => simp [scanStr] at h
    | cons c cs =>
      simp only [scanStr, List.cons_append] at h ⊢
      split at h
      · rename_i hq
        rw [if_pos hq]
        cases h
        rfl
      · rename_i hq
        rw [if_neg hq]
        split at h
        · rename_i hb
          rw [if_pos hb]
          cases cs with
          | nil => simp at h
          | cons e rest0 =>
            simp only [List.append_eq, List.cons_append] at h ⊢
            split at h
            · rename_i hu
              rw [if_pos hu]
              rcases rest0 with _ | ⟨x1, _ | ⟨x2, _ | ⟨x3, _ | ⟨x4, rest⟩⟩⟩⟩ <;>
                try (simp at h; done)
              simp only [List.append_eq, List.cons_append] at h ⊢
              split at h
              · cases h
              · rename_i hi hhex
                split at h
                · rename_i hsur
                  rw [if_pos hsur]
                  split at h
                  · rename_i lo rest2 hlow
                    by_cases hhi : hi < 0xDC00
                    · rw [if_pos hhi] at hlow ⊢
                      obtain ⟨h1, h2⟩ := lowSurrogate_append_some rest t lo rest2 hlow
                      rw [h1]
                      simp only
                      rw [h2]
                      exact ih _ _ _ _ _ _ h _ hle1
                    · rw [if_neg hhi] at hlow
                      cases hlow
                  · rename_i hlow
                    have hnone : (if hi < 0xDC00 then lowSurrogate (rest ++ t) else none) = none := by
                      by_cases hhi : hi < 0xDC00
                      · rw [if_pos hhi] at hlow ⊢
                        exact lowSurrogate_append_none fuel _ _ rest t _ h hlow
                      · rw [if_neg hhi]
                    rw [hnone]
                    exact ih _ _ _ _ _ _ h _ hle1
                · rename_i hsur
                  rw [if_neg hsur]
                  exact ih _ _ _ _ _ _ h _ hle1
            · rename_i hu
              rw [if_neg hu]
              split at h
              · rename_i u hun
                exact ih _ _ _ _ _ _ h _ hle1
              · cases h
        · rename_i hb
          rw [if_neg hb]
          split at h
          · cases h
          · rename_i hctl
            rw [if_neg hctl]
            exact ih _ _ _ _ _ _ h _ hle1

theorem matchLit_append (lit r t r1 : List Char) (h : matchLit lit r = some r1) :
    matchLit lit (r ++ t) = some (r1 ++ t) := by
  unfold matchLit at h ⊢
  split at h
  · rename_i hp
    cases h
    have hpre : lit <+: r := List.isPrefixOf_iff_prefix.1 hp
    have hp2 : lit.isPrefixOf (r ++ t) = true :=
      List.isPrefixOf_iff_prefix.2 (hpre.trans (List.prefix_append r t))
    rw [if_pos hp2, List.drop_append_of_le_length hpre.length_le]
  · cases h

theorem skipSpace_ne_nil (r : List Char) (c : Char) (r1 : List Char)
    (h : skipSpace r = c :: r1) : r ≠ [] := by
  intro hr
  subst hr
  simp [skipSpace] at h

theorem parseScalar_append (c : Char) (r t : List Char) (v : JValue) (r1 : List Char)
    (h : parseScalar c r = some (v, r1)) (hnum : v.isNum = true → r1 ≠ []) :
    parseScalar c (r ++ t) = some (v, r1 ++ t) := by
  unfold parseScalar at h ⊢
  split at h
  · rename_i hq
    rw [if_pos hq]
    split at h
    · rename_i raw val r2 hs
      cases h
      rw [scanStr_append t _ _ _ _ _ _ _ hs ((r ++ t).length + 1) (by simp)]
    · cases h
  · rename_i hq
    rw [if_neg hq]
    split at h
    · rename_i ht
      rw [if_pos ht]
      cases hm : matchLit ['r', 'u', 'e'] r with
      | none => simp [hm] at h
      | some r2 =>
        simp only [hm, Option.map_some', Option.some.injEq, Prod.mk.injEq] at h
        rw [matchLit_append _ _ t _ hm]
        simp [h.1, ← h.2]
    · rename_i ht
      rw [if_neg ht]
      split at h
      · rename_i hf
        rw [if_pos hf]
        cases hm : matchLit ['a', 'l', 's', 'e'] r with
        | none => simp [hm] at h
        | some r2 =>
          simp only [hm, Option.map_some', Option.some.injEq, Prod.mk.injEq] at h
          rw [matchLit_append _ _ t _ hm]
          simp [h.1, ← h.2]
      · rename_i hf
        rw [if_neg hf]
        split at h
        · rename_i hn
          rw [if_pos hn]
          cases hm : matchLit ['u', 'l', 'l'] r with
          | none => simp [hm] at h
          | some r2 =>
            simp only [hm, Option.map_some', Option.some.injEq, Prod.mk.injEq] at h
            rw [matchLit_append _ _ t _ hm]
            simp [h.1, ← h.2]
        · rename_i hn
          rw [if_neg hn]
          split at h
          · rename_i hd
            rw [if_pos hd]
            cases hm : scanNum (c :: r) with
            | none => simp [hm] at h
            | some p =>
              obtain ⟨raw, r2⟩ := p
              simp only [hm, Option.map_some', Option.some.injEq, Prod.mk.injEq] at h
              obtain ⟨h1, h2⟩ := h
              subst h1
              subst h2
              have := scanNum_append (c :: r) t raw r2 hm (hnum rfl)
              rw [List.cons_append] at this
              rw [this]
              rfl
          · cases h

theorem parse_append (t : List Char) : ∀ fuel : Nat,
    (∀ d cs v r, parseValue fuel d cs = some (v, r) → (v.isNum = true → r ≠ []) →
      ∀ fuel', fuel ≤ fuel' → parseValue fuel' d (cs ++ t) = some (v, r ++ t)) ∧
    (∀ d acc cs v r, parseElems fuel d acc cs = some (v, r) →
      ∀ fuel', fuel ≤ fuel' → parseElems fuel' d acc (cs ++ t) = some (v, r ++ t)) ∧
    (∀ d acc cs v r, parseMembers fuel d acc cs = some (v, r) →
      ∀ fuel', fuel ≤ fuel' → parseMembers fuel' d acc (cs ++ t) = some (v, r ++ t)) := by
  intro fuel
  induction fuel with
  | zero =>
    refine ⟨?_, ?_, ?_⟩
    · intro d cs v r h
      simp [parseValue] at h
    · intro d acc cs v r h
      simp [parseElems] at h
    · intro d acc cs v r h
      simp [parseMembers] at h
  | succ fuel ih =>
    obtain ⟨ihV, ihE, ihM⟩ := ih
    refine ⟨?_, ?_, ?_⟩
    · intro d cs v r h hnum fuel' hle
      obtain ⟨fuel1, rfl⟩ : ∃ k, fuel' = k + 1 := ⟨fuel' - 1, by omega⟩
      have hle1 : fuel ≤ fuel1 := by omega
      simp only [parseValue] at h ⊢
      split at h
      · cases h
      · rename_i c r0 hsk
        rw [skipSpace_append cs t c r0 hsk]
        simp only
        split at h
        · rename_i hc
          rw [if_pos hc]
          split at h
          · rename_i hd
            rw [if_pos hd]
            split at h
            · cases h
            · rename_i c1 r1 hsk1
              rw [skipSpace_append r0 t c1 r1 hsk1]
              simp only
              split at h
              · rename_i hc1
                rw [if_pos hc1]
                cases h
                rfl
              · rename_i hc1
                rw [if_neg hc1]
                exact ihM _ _ _ _ _ h _ hle1
          · cases h
        · rename_i hc
          rw [if_neg hc]
          split at h
          · rename_i hb
            rw [if_pos hb]
            split at h
            · rename_i hd
              rw [if_pos hd]
              split at h
              · cases h
              · rename_i c1 r1 hsk1
                rw [skipSpace_append r0 t c1 r1 hsk1]
                simp only
                split at h
                · rename_i hc1
                  rw [if_pos hc1]
                  cases h
                  rfl
                · rename_i hc1
                  rw [if_neg hc1]
                  exact ihE _ _ _ _ _ h _ hle1
            · cases h
          · rename_i hb
            rw [if_neg hb]
            exact parseScalar_append c r0 t v r h hnum
    · intro d acc cs v r h fuel' hle
      obtain ⟨fuel1, rfl⟩ : ∃ k, fuel' = k + 1 := ⟨fuel' - 1, by omega⟩
      have hle1 : fuel ≤ fuel1 := by omega
      simp only [parseElems] at h ⊢
      split at h
      · cases h
      · rename_i v1 r1 hv
        split at h
        · cases h
        · rename_i c r2 hsk
          have hr1 : r1 ≠ [] := skipSpace_ne_nil r1 c r2 hsk
          rw [ihV d cs v1 r1 hv (fun _ => hr1) fuel1 hle1]
          simp only
          rw [skipSpace_append r1 t c r2 hsk]
          simp only
          split at h
          · rename_i hc
            rw [if_pos hc]
            exact ihE _ _ _ _ _ h _ hle1
          · rename_i hc
            rw [if_neg hc]
            split at h
            · rename_i hc2
              rw [if_pos hc2]
              cases h
              rfl
            · cases h
    · intro d acc cs v r h fuel' hle
      obtain ⟨fuel1, rfl⟩ : ∃ k, fuel' = k + 1 := ⟨fuel' - 1, by omega⟩
      have hle1 : fuel ≤ fuel1 := by omega
      simp only [parseMembers] at h ⊢
      split at h
      · cases h
      · rename_i q r0 hsk
        rw [skipSpace_append cs t q r0 hsk]
        simp only
        split at h
        · rename_i hq
          rw [if_pos hq]
          split at h
          · cases h
          · rename_i raw key r1 hs
            rw [scanStr_append t _ _ _ _ _ _ _ hs ((r0 ++ t).length + 1) (by simp)]
            simp only
            split at h
            · cases h
            · rename_i c r2 hsk1
              rw [skipSpace_append r1 t c r2 hsk1]
              simp only
              split at h
              · rename_i hc
                rw [if_pos hc]
                split at h
                · cases h
                · rename_i v1 r3 hv
                  split at h
                  · cases h
                  · rename_i c3 r4 hsk3
                    have hr3 : r3 ≠ [] := skipSpace_ne_nil r3 c3 r4 hsk3
                    rw [ihV d r2 v1 r3 hv (fun _ => hr3) fuel1 hle1]
                    simp only
                    rw [skipSpace_append r3 t c3 r4 hsk3]
                    simp only
                    split at h
                    · rename_i hc3
                      rw [if_pos hc3]
                      exact ihM _ _ _ _ _ h _ hle1
                    · rename_i hc3
                      rw [if_neg hc3]
                      split at h
                      · rename_i hc4
                        rw [if_pos hc4]
                        cases h
                        rfl
                      · cases h
              · cases h
        · cases h

theorem unmarshal_ok_not_num (v : JValue) (lr : listResp) (h : unmarshal v = .ok lr) :
    v.isNum = false := by
  cases v <;> first | rfl | (simp [unmarshal] at h)

/-- A stream the decode step accepts is accepted, with the same record, when
anything is appended to it. -/
theorem jsonDecode_append (head tail : String) (lr : listResp)
    (h : jsonDecode head = .ok lr) : jsonDecode (head ++ tail) = .ok lr := by
  unfold jsonDecode at h ⊢
  rw [String.data_append]
  cases hsk : skipSpace head.data with
  | nil => simp [hsk] at h
  | cons c r =>
    rw [hsk] at h
    simp only at h
    rw [skipSpace_append head.data tail.data c r hsk]
    simp only
    simp only [List.length_cons] at h ⊢
    cases hp : parseValue (2 * (r.length + 1) + 2) 0 (c :: r) with
    | none => simp [hp] at h
    | some p =>
      obtain ⟨v, rest⟩ := p
      rw [hp] at h
      simp only at h
      have hnum := unmarshal_ok_not_num v lr h
      have key : ∀ fuel', 2 * (r.length + 1) + 2 ≤ fuel' →
          parseValue fuel' 0 (c :: (r ++ tail.data)) = some (v, rest ++ tail.data) := by
        intro fuel' hle
        have := (parse_append tail.data (2 * (r.length + 1) + 2)).1 0 (c :: r) v rest hp
          (fun hn => by rw [hnum] at hn; cases hn) fuel' hle
        rw [List.cons_append] at this
        exact this
      rw [key _ (by simp only [List.length_append]; omega)]
      exact h

/-! ## The fuel of the parser is enough -/

theorem skipSpace_length (cs : List Char) : (skipSpace cs).length ≤ cs.length := by
  induction cs with
  | nil => simp [skipSpace]
  | cons c cs ih =>
    simp only [skipSpace]
    split
    · simp only [List.length_cons]
      omega
    · exact Nat.le_refl _

theorem lowSurrogate_length (rest : List Char) (lo : Nat) (r2 : List Char)
    (h : lowSurrogate rest = some (lo, r2)) : r2.length ≤ rest.length := by
  obtain ⟨a, b, c, d, r, rfl⟩ := lowSurrogate_some_shape rest _ h
  simp only [lowSurrogate] at h
  split at h
  · split at h
    · split at h
      · cases h
        simp only [List.length_cons]
        omega
      · cases h
    · cases h
  · cases h

theorem scanStr_length : ∀ (fuel : Nat) (raw val cs a b r : List Char),
    scanStr fuel raw val cs = some (a, b, r) → r.length < cs.length := by
  intro fuel
  induction fuel with
  | zero =>
    intro raw val cs a b r h
    simp [scanStr] at h
  | succ fuel ih =>
    intro raw val cs a b r h
    cases cs with
    | nil => simp [scanStr] at h
    | cons c cs =>
      simp only [scanStr] at h
      split at h
      · cases h
        simp
      · split at h
        · cases cs with
          | nil => simp at h
          | cons e rest0 =>
            simp only at h
            split at h
            · rcases rest0 with _ | ⟨x1, _ | ⟨x2, _ | ⟨x3, _ | ⟨x4, rest⟩⟩⟩⟩ <;>
                try (simp at h; done)
              simp only at h
              split at h
              · cases h
              · split at h
                · split at h
                  · rename_i lo rest2 hlow
                    have h1 := ih _ _ _ _ _ _ h
                    have h2 : rest2.length ≤ rest.length := by
                      split at hlow
                      · exact lowSurrogate_length rest lo rest2 hlow
                      · cases hlow
                    simp only [List.length_cons]
                    omega
                  · have h1 := ih _ _ _ _ _ _ h
                    simp only [List.length_cons]
                    omega
                · have h1 := ih _ _ _ _ _ _ h
                  simp only [List.length_cons]
                  omega
            · split at h
              · have h1 := ih _ _ _ _ _ _ h
                simp only [List.length_cons]
                omega
              · cases h
        · split at h
          · cases h
          · have h1 := ih _ _ _ _ _ _ h
            simp only [List.length_cons]
            omega

theorem matchLit_length (lit cs r : List Char) (h : matchLit lit cs = some r) :
    r.length ≤ cs.length := by
  unfold matchLit at h
  split at h
  · cases h
    simp
  · cases h

theorem spanDigits_length (cs : List Char) : (spanDigits cs).2.length ≤ cs.length := by
  simp only [spanDigits]
  exact (List.dropWhile_suffix _).length_le

theorem spanDigits_some_length (cs x r : List Char) (f : List Char → List Char)
    (h : (match spanDigits cs with
      | ([], _) => none
      | (ds, r) => some (f ds, r)) = some (x, r)) : r.length ≤ cs.length := by
  have hl := spanDigits_length cs
  split at h
  · cases h
  · rename_i ds r1 _ heq
    cases h
    rw [heq] at hl
    exact hl

theorem scanInt_length (cs ip r : List Char) (h : scanInt cs = some (ip, r)) :
    r.length < cs.length := by
  cases cs with
  | nil => simp [scanInt] at h
  | cons c rest =>
    simp only [scanInt] at h
    have hl := spanDigits_length rest
    split at h
    · cases h
      simp
    · split at h
      · simp only [Option.some.injEq, Prod.mk.injEq] at h
        rw [← h.2]
        simp only [List.length_cons]
        omega
      · cases h

theorem scanFrac_length (cs fp r : List Char) (h : scanFrac cs = some (fp, r)) :
    r.length ≤ cs.length := by
  cases cs with
  | nil =>
    simp [scanFrac] at h
    simp [h.2]
  | cons c rest =>
    simp only [scanFrac] at h
    split at h
    · have := spanDigits_some_length rest _ r (fun ds => '.' :: ds) h
      simp only [List.length_cons]
      omega
    · cases h
      exact Nat.le_refl _

theorem scanExp_length (cs ep r : List Char) (h : scanExp cs = some (ep, r)) :
    r.length ≤ cs.length := by
  cases cs with
  | nil =>
    simp [scanExp] at h
    simp [h.2]
  | cons e rest =>
    simp only [scanExp] at h
    split at h
    · cases rest with
      | nil => simp at h
      | cons s rest1 =>
        simp only at h
        split at h
        · have := spanDigits_some_length rest1 _ r (fun ds => e :: s :: ds) h
          simp only [List.length_cons]
          omega
        · have := spanDigits_some_length (s :: rest1) _ r (fun ds => e :: ds) h
          simp only [List.length_cons] at this ⊢
          omega
    · cases h
      exact Nat.le_refl _

theorem scanSign_length (cs : List Char) : (scanSign cs).2.length ≤ cs.length := by
  cases cs with
  | nil => simp [scanSign]
  | cons c rest =>
    simp only [scanSign]
    split
    · simp
    · exact Nat.le_refl _

theorem scanNum_length (cs raw r : List Char) (h : scanNum cs = some (raw, r)) :
    r.length < cs.length := by
  unfold scanNum at h
  split at h
  · cases h
  · rename_i ip cs2 hint
    split at h
    · cases h
    · rename_i fp cs3 hfrac
      split at h
      · cases h
      · rename_i ep cs4 hexp
        cases h
        have h1 := scanSign_length cs
        have h2 := scanInt_length _ ip cs2 hint
        have h3 := scanFrac_length cs2 fp cs3 hfrac
        have h4 := scanExp_length cs3 ep r hexp
        omega

theorem parseScalar_length (c : Char) (r0 : List Char) (v : JValue) (r : List Char)
    (h : parseScalar c r0 = some (v, r)) : r.length ≤ r0.length := by
  unfold parseScalar at h
  split at h
  · split at h
    · rename_i raw val r1 hs
      cases h
      exact Nat.le_of_lt (scanStr_length _ _ _ _ _ _ _ hs)
    · cases h
  · split at h
    · cases hm : matchLit ['r', 'u', 'e'] r0 with
      | none => simp [hm] at h
      | some r2 =>
        simp only [hm, Option.map_some', Option.some.injEq, Prod.mk.injEq] at h
        rw [← h.2]
        exact matchLit_length _ _ _ hm
    · split at h
      · cases hm : matchLit ['a', 'l', 's', 'e'] r0 with
        | none => simp [hm] at h
        | some r2 =>
          simp only [hm, Option.map_some', Option.some.injEq, Prod.mk.injEq] at h
          rw [← h.2]
          exact matchLit_length _ _ _ hm
      · split at h
        · cases hm : matchLit ['u', 'l', 'l'] r0 with
          | none => simp [hm] at h
          | some r2 =>
            simp only [hm, Option.map_some', Option.some.injEq, Prod.mk.injEq] at h
            rw [← h.2]
            exact matchLit_length _ _ _ hm
        · split at h
          · cases hm : scanNum (c :: r0) with
            | none => simp [hm] at h
            | some p =>
              obtain ⟨raw, r2⟩ := p
              simp only [hm, Option.map_some', Option.some.injEq, Prod.mk.injEq] at h
              rw [← h.2]
              have := scanNum_length _ _ _ hm
              simp only [List.length_cons] at this
              omega
          · cases h

theorem scanStr_fuel : ∀ (fuel : Nat) (raw val cs a b r : List Char),
    scanStr fuel raw val cs = some (a, b, r) →
    ∀ f', cs.length - r.length ≤ f' → scanStr f' raw val cs = some (a, b, r) := by
  intro fuel
  induction fuel with
  | zero =>
    intro raw val cs a b r h
    simp [scanStr] at h
  | succ fuel ih =>
    intro raw val cs a b r h f' hf'
    have hlen := scanStr_length _ _ _ _ _ _ _ h
    obtain ⟨f1, rfl⟩ : ∃ k, f' = k + 1 := ⟨f' - 1, by omega⟩
    cases cs with
    | nil => simp [scanStr] at h
    | cons c cs =>
      simp only [scanStr] at h ⊢
      split at h
      · rename_i hq
        rw [if_pos hq]
        exact h
      · rename_i hq
        rw [if_neg hq]
        split at h
        · rename_i hb
          rw [if_pos hb]
          cases cs with
          | nil => simp at h
          | cons e rest0 =>
            simp only at h ⊢
            split at h
            · rename_i hu
              rw [if_pos hu]
              rcases rest0 with _ | ⟨x1, _ | ⟨x2, _ | ⟨x3, _ | ⟨x4, rest⟩⟩⟩⟩ <;>
                try (simp at h; done)
              simp only at h ⊢
              split at h
              · cases h
              · split at h
                · rename_i hsur
                  rw [if_pos hsur]
                  split at h
                  · rename_i lo rest2 hlow
                    have h2 : rest2.length ≤ rest.length := by
                      split at hlow
                      · exact lowSurrogate_length rest lo rest2 hlow
                      · cases hlow
                    have h3 := scanStr_length _ _ _ _ _ _ _ h
                    simp only [List.length_cons] at hf'
                    exact ih _ _ _ _ _ _ h f1 (by omega)
                  · have h3 := scanStr_length _ _ _ _ _ _ _ h
                    simp only [List.length_cons] at hf'
                    exact ih _ _ _ _ _ _ h f1 (by omega)
                · rename_i hsur
                  rw [if_neg hsur]
                  have h3 := scanStr_length _ _ _ _ _ _ _ h
                  simp only [List.length_cons] at hf'
                  exact ih _ _ _ _ _ _ h f1 (by omega)
            · rename_i hu
              rw [if_neg hu]
              split at h
              · have h3 := scanStr_length _ _ _ _ _ _ _ h
                simp only [List.length_cons] at hf'
                exact ih _ _ _ _ _ _ h f1 (by omega)
              · cases h
        · rename_i hb
          rw [if_neg hb]
          split at h
          · cases h
          · rename_i hctl
            rw [if_neg hctl]
            have h3 := scanStr_length _ _ _ _ _ _ _ h
            simp only [List.length_cons] at hf'
            exact ih _ _ _ _ _ _ h f1 (by omega)

/-- The fuel `parseScalar` and `parseMembers` give the string scanner is enough
for every input: a string the scanner finds with some amount of fuel, it finds
with the length of the input and one. -/
theorem scanStr_fuel_enough (fuel : Nat) (raw val cs a b r : List Char)
    (h : scanStr fuel raw val cs = some (a, b, r)) :
    scanStr (cs.length + 1) raw val cs = some (a, b, r) :=
  scanStr_fuel fuel raw val cs a b r h _ (by omega)

theorem skipSpace_cons_length (cs : List Char) (c : Char) (r : List Char)
    (h : skipSpace cs = c :: r) : r.length + 1 ≤ cs.length := by
  have := skipSpace_length cs
  rw [h] at this
  simpa using this

theorem parse_fuel : ∀ fuel : Nat,
    (∀ d cs v r, parseValue fuel d cs = some (v, r) → r.length < cs.length ∧
      ∀ f', 2 * (cs.length - r.length) ≤ f' → parseValue f' d cs = some (v, r)) ∧
    (∀ d acc cs v r, parseElems fuel d acc cs = some (v, r) → r.length < cs.length ∧
      ∀ f', 2 * (cs.length - r.length) ≤ f' → parseElems f' d acc cs = some (v, r)) ∧
    (∀ d acc cs v r, parseMembers fuel d acc cs = some (v, r) → r.length < cs.length ∧
      ∀ f', 2 * (cs.length - r.length) ≤ f' → parseMembers f' d acc cs = some (v, r)) := by
  intro fuel
  induction fuel with
  | zero =>
    refine ⟨?_, ?_, ?_⟩
    · intro d cs v r h
      simp [parseValue] at h
    · intro d acc cs v r h
      simp [parseElems] at h
    · intro d acc cs v r h
      simp [parseMembers] at h
  | succ fuel ih =>
    obtain ⟨ihV, ihE, ihM⟩ := ih
    refine ⟨?_, ?_, ?_⟩
    · intro d cs v r h
      simp only [parseValue] at h
      split at h
      · cases h
      · rename_i c r0 hsk
        have l0 := skipSpace_cons_length cs c r0 hsk
        split at h
        · rename_i hc
          split at h
          · rename_i hd
            split at h
            · cases h
            · rename_i c1 r1 hsk1
              have l1 := skipSpace_cons_length r0 c1 r1 hsk1
              split at h
              · rename_i hc1
                cases h
                refine ⟨by omega, fun f' hf' => ?_⟩
                obtain ⟨f1, rfl⟩ : ∃ k, f' = k + 1 := ⟨f' - 1, by omega⟩
                simp only [parseValue, Bool.false_eq_true, if_false, hsk, hc, if_true, hd, hsk1,
                  hc1]
              · rename_i hc1
                obtain ⟨l2, hM⟩ := ihM _ _ _ _ _ h
                simp only [List.length_cons] at l2 hM
                refine ⟨by omega, fun f' hf' => ?_⟩
                obtain ⟨f1, rfl⟩ : ∃ k, f' = k + 1 := ⟨f' - 1, by omega⟩
                simp only [parseValue, Bool.false_eq_true, if_false, hsk, hc, if_true, hd, hsk1,
                  hc1, if_false]
                exact hM f1 (by omega)
          · cases h
        · rename_i hc
          split at h
          · rename_i hb
            split at h
            · rename_i hd
              split at h
              · cases h
              · rename_i c1 r1 hsk1
                have l1 := skipSpace_cons_length r0 c1 r1 hsk1
                split at h
                · rename_i hc1
                  cases h
                  refine ⟨by omega, fun f' hf' => ?_⟩
                  obtain ⟨f1, rfl⟩ : ∃ k, f' = k + 1 := ⟨f' - 1, by omega⟩
                  simp only [parseValue, Bool.false_eq_true, if_false, hsk, hc, if_false, hb,
                    if_true, hd, hsk1, hc1]
                · rename_i hc1
                  obtain ⟨l2, hE⟩ := ihE _ _ _ _ _ h
                  simp only [List.length_cons] at l2 hE
                  refine ⟨by omega, fun f' hf' => ?_⟩
                  obtain ⟨f1, rfl⟩ : ∃ k, f' = k + 1 := ⟨f' - 1, by omega⟩
                  simp only [parseValue, Bool.false_eq_true, if_false, hsk, hc, if_false, hb,
                    if_true, hd, hsk1, hc1]
                  exact hE f1 (by omega)
            · cases h
          · rename_i hb
            have l1 := parseScalar_length c r0 v r h
            refine ⟨by omega, fun f' hf' => ?_⟩
            obtain ⟨f1, rfl⟩ : ∃ k, f' = k + 1 := ⟨f' - 1, by omega⟩
            simp only [parseValue, Bool.false_eq_true, if_false, hsk, hc, if_false, hb]
            exact h
    · intro d acc cs v r h
      simp only [parseElems] at h
      split at h
      · cases h
      · rename_i v1 r1 hv
        obtain ⟨l1, hV⟩ := ihV _ _ _ _ hv
        split at h
        · cases h
        · rename_i c r2 hsk
          have l2 := skipSpace_cons_length r1 c r2 hsk
          split at h
          · rename_i hc
            obtain ⟨l3, hE⟩ := ihE _ _ _ _ _ h
            refine ⟨by omega, fun f' hf' => ?_⟩
            obtain ⟨f1, rfl⟩ : ∃ k, f' = k + 1 := ⟨f' - 1, by omega⟩
            simp only [parseElems, Bool.false_eq_true, if_false, hV f1 (by omega), hsk, hc,
              if_true]
            exact hE f1 (by omega)
          · rename_i hc
            split at h
            · rename_i hc2
              cases h
              refine ⟨by omega, fun f' hf' => ?_⟩
              obtain ⟨f1, rfl⟩ : ∃ k, f' = k + 1 := ⟨f' - 1, by omega⟩
              simp only [parseElems, Bool.false_eq_true, if_false, hV f1 (by omega), hsk, hc,
                if_false, hc2, if_true]
            · cases h
    · intro d acc cs v r h
      simp only [parseMembers] at h
      split at h
      · cases h
      · rename_i q r0 hsk
        have l0 := skipSpace_cons_length cs q r0 hsk
        split at h
        · rename_i hq
          split at h
          · cases h
          · rename_i raw key r1 hs
            have l1 := scanStr_length _ _ _ _ _ _ _ hs
            split at h
            · cases h
            · rename_i c r2 hsk1
              have l2 := skipSpace_cons_length r1 c r2 hsk1
              split at h
              · rename_i hc
                split at h
                · cases h
                · rename_i v1 r3 hv
                  obtain ⟨l3, hV⟩ := ihV _ _ _ _ hv
                  split at h
                  · cases h
                  · rename_i c3 r4 hsk3
                    have l4 := skipSpace_cons_length r3 c3 r4 hsk3
                    split at h
                    · rename_i hc3
                      obtain ⟨l5, hM⟩ := ihM _ _ _ _ _ h
                      refine ⟨by omega, fun f' hf' => ?_⟩
                      obtain ⟨f1, rfl⟩ : ∃ k, f' = k + 1 := ⟨f' - 1, by omega⟩
                      simp only [parseMembers, Bool.false_eq_true, if_false, hsk, hq, if_true, hs,
                        hsk1, hc, hV f1 (by omega), hsk3, hc3]
                      exact hM f1 (by omega)
                    · rename_i hc3
                      split at h
                      · rename_i hc4
                        cases h
                        refine ⟨by omega, fun f' hf' => ?_⟩
                        obtain ⟨f1, rfl⟩ : ∃ k, f' = k + 1 := ⟨f' - 1, by omega⟩
                        simp only [parseMembers, Bool.false_eq_true, if_false, hsk, hq, if_true,
                          hs, hsk1, hc, hV f1 (by omega), hsk3, hc3, if_false, hc4]
                      · cases h
              · cases h
        · cases h

/-- The fuel the decode step gives the parser is enough for every input: a
value the parser finds with some amount of fuel, it finds with twice the length
of the input and two. -/
theorem parseValue_fuel_enough (fuel d : Nat) (cs : List Char) (v : JValue) (r : List Char)
    (h : parseValue fuel d cs = some (v, r)) :
    parseValue (2 * cs.length + 2) d cs = some (v, r) :=
  ((parse_fuel fuel).1 d cs v r h).2 _ (by omega)

/-! ## The decoder accepts the records the tool prints -/

theorem isSpace_of_blankChar (c : Char) (h : blankChar c = true) : isSpace c = true := by
  simp only [blankChar, isSpace, Bool.or_eq_true, beq_iff_eq] at h ⊢
  rcases h with ((h | h) | h) | h <;> simp [h]

theorem blankChar_of_isSpace (c : Char) (h : isSpace c = true) : blankChar c = true := by
  simp only [blankChar, isSpace, Bool.or_eq_true, beq_iff_eq] at h ⊢
  rcases h with ((h | h) | h) | h <;> simp [h]

theorem skipSpace_blank (w : List Char) (c : Char) (r : List Char) (hw : blank w = true)
    (hc : isSpace c = false) : skipSpace (w ++ c :: r) = c :: r := by
  induction w with
  | nil => simp [skipSpace, hc]
  | cons x xs ih =>
    simp only [blank, List.all_cons, Bool.and_eq_true] at hw
    simp only [List.cons_append, skipSpace, isSpace_of_blankChar x hw.1, if_true]
    exact ih hw.2

theorem blank_gap (gaps : List (List Char)) (h : gaps.all blank = true) (i : Nat) :
    blank (gap gaps i) = true := by
  unfold gap
  rw [List.getD_eq_getElem?_getD]
  cases hi : gaps[i]? with
  | none => rfl
  | some w =>
    simp only [Option.getD_some]
    exact List.all_eq_true.1 h w (List.getElem?_mem hi)

theorem scanStr_plain (s : List Char) : ∀ (fuel : Nat) (raw val rest : List Char),
    s.all plainChar = true → s.length + 1 ≤ fuel →
    scanStr fuel raw val (s ++ '"' :: rest) = some (raw.reverse ++ s, val.reverse ++ s, rest) := by
  induction s with
  | nil =>
    intro fuel raw val rest _ hf
    obtain ⟨f, rfl⟩ : ∃ k, fuel = k + 1 := ⟨fuel - 1, by simp at hf; omega⟩
    simp [scanStr]
  | cons c s ih =>
    intro fuel raw val rest hp hf
    obtain ⟨f, rfl⟩ : ∃ k, fuel = k + 1 := ⟨fuel - 1, by simp at hf; omega⟩
    simp only [List.all_cons, Bool.and_eq_true] at hp
    obtain ⟨hc, hs⟩ := hp
    simp only [plainChar, Bool.and_eq_true, Bool.not_eq_true', decide_eq_false_iff_not] at hc
    obtain ⟨⟨h1, h2⟩, h3⟩ := hc
    simp only [List.cons_append, scanStr, h1, h2, Bool.false_eq_true, if_false, h3,
      List.append_eq]
    rw [ih f (c :: raw) (c :: val) rest hs (by simp at hf; omega)]
    simp

theorem readsAs_plain (s : List Char) (h : s.all plainChar = true) : readsAs s s :=
  fun fuel raw acc rest hf => scanStr_plain s fuel raw acc rest h hf

theorem hex4_byte : ∀ n, n < 128 →
    hex4 '0' '0' (hexDigit (n / 16)) (hexDigit (n % 16)) = some n := by
  decide


theorem scanStr_encodeChar (c : Char) (fuel : Nat) (raw acc X : List Char) :
    scanStr (fuel + 1) raw acc (encodeChar c ++ X) =
      scanStr fuel ((encodeChar c).reverse ++ raw) (c :: acc) X := by
  unfold encodeChar
  split
  · rename_i h
    simp only [beq_iff_eq] at h
    subst h
    simp [scanStr, unescape1]
  · rename_i h1
    split
    · rename_i h
      simp only [beq_iff_eq] at h
      subst h
      simp [scanStr, unescape1]
    · rename_i h2
      split
      · rename_i h
        simp only [beq_iff_eq] at h
        subst h
        simp [scanStr, unescape1]
      · rename_i h3
        split
        · rename_i h
          simp only [beq_iff_eq] at h
          subst h
          simp [scanStr, unescape1]
        · rename_i h4
          split
          · rename_i h
            simp only [beq_iff_eq] at h
            subst h
            simp [scanStr, unescape1]
          · rename_i h5
            split
            · rename_i h
              simp only [beq_iff_eq] at h
              subst h
              simp [scanStr, unescape1]
            · rename_i h6
              split
              · rename_i h
                simp only [beq_iff_eq] at h
                subst h
                simp [scanStr, unescape1]
              · rename_i h7
                split
                · rename_i h
                  have hlt : c.toNat < 128 := by
                    simp only [Bool.or_eq_true, decide_eq_true_eq, beq_iff_eq] at h
                    rcases h with ((h | h) | h) | h
                    · omega
                    · subst h; decide
                    · subst h; decide
                    · subst h; decide
                  have hhex := hex4_byte c.toNat hlt
                  have hns : ¬ (0xD800 ≤ c.toNat ∧ c.toNat < 0xE000) := by omega
                  simp only [List.cons_append, List.nil_append, scanStr, h1, h2,
                    Bool.false_eq_true, if_false]
                  simp [hhex, hns, Char.ofNat_toNat]
                · rename_i h8
                  split
                  · rename_i h
                    simp only [beq_iff_eq] at h
                    subst h
                    simp [scanStr, hex4, hexVal]
                  · rename_i h9
                    split
                    · rename_i h
                      simp only [beq_iff_eq] at h
                      subst h
                      simp [scanStr, hex4, hexVal]
                    · rename_i h10
                      simp only [Bool.or_eq_true, decide_eq_true_eq, not_or] at h8
                      simp [scanStr, h1, h2, h8.1.1.1]


theorem scanStr_encodeString (s : List Char) : ∀ (fuel : Nat) (raw acc rest : List Char),
    s.length + 1 ≤ fuel →
    scanStr fuel raw acc (encodeString s ++ '"' :: rest) =
      some (raw.reverse ++ encodeString s, acc.reverse ++ s, rest) := by
  induction s with
  | nil =>
    intro fuel raw acc rest hf
    obtain ⟨f, rfl⟩ : ∃ k, fuel = k + 1 := ⟨fuel - 1, by simp at hf; omega⟩
    simp [scanStr, encodeString]
  | cons c s ih =>
    intro fuel raw acc rest hf
    obtain ⟨f, rfl⟩ : ∃ k, fuel = k + 1 := ⟨fuel - 1, by simp at hf; omega⟩
    simp only [encodeString, List.append_assoc]
    rw [scanStr_encodeChar, ih f _ _ rest (by simp at hf; omega)]
    simp

theorem encodeChar_length (c : Char) : 1 ≤ (encodeChar c).length := by
  unfold encodeChar
  repeat' split
  all_goals simp

theorem encodeString_length (s : List Char) : s.length ≤ (encodeString s).length := by
  induction s with
  | nil => simp
  | cons c s ih =>
    have := encodeChar_length c
    simp only [encodeString, List.length_append, List.length_cons]
    omega

/-- The string scanner reads what the encoder writes as the string it was
written for. -/
theorem readsAs_encodeString (s : List Char) : readsAs (encodeString s) s := by
  intro fuel raw acc rest hf
  have := encodeString_length s
  exact scanStr_encodeString s fuel raw acc rest (by omega)

theorem parseValue_string (w body val : List Char) (hw : blank w = true)
    (hb : readsAs body val) (f d : Nat) (rest : List Char) :
    parseValue (f + 1) d (w ++ '"' :: (body ++ '"' :: rest)) =
      some (JValue.str body val, rest) := by
  have h1 : ('"' == '\x7b') = false := by decide
  have h2 : ('"' == '[') = false := by decide
  rw [parseValue.eq_2, skipSpace_blank w _ _ hw (by decide)]
  simp only [h1, h2, Bool.false_eq_true, if_false, parseScalar, beq_self_eq_true, if_true]
  rw [hb _ [] [] rest (by simp)]
  simp

theorem parseMembers_comma (w1 key kv w2 X R r4 : List Char) (v : JValue) (f d : Nat)
    (acc : List (List Char × JValue)) (hw1 : blank w1 = true) (hk : readsAs key kv)
    (hw2 : blank w2 = true) (hv : parseValue f d X = some (v, R))
    (hR : skipSpace R = ',' :: r4) :
    parseMembers (f + 1) d acc (w1 ++ '"' :: (key ++ '"' :: (w2 ++ ':' :: X))) =
      parseMembers f d ((kv, v) :: acc) r4 := by
  rw [parseMembers.eq_2, skipSpace_blank w1 _ _ hw1 (by decide)]
  simp only [beq_self_eq_true, if_true]
  rw [hk _ [] [] _ (by simp)]
  simp only
  rw [skipSpace_blank w2 ':' X hw2 (by decide)]
  simp only [beq_self_eq_true, if_true, hv, hR, List.reverse_nil, List.nil_append]

theorem parseMembers_close (w1 key kv w2 X R r4 : List Char) (v : JValue) (f d : Nat)
    (acc : List (List Char × JValue)) (hw1 : blank w1 = true) (hk : readsAs key kv)
    (hw2 : blank w2 = true) (hv : parseValue f d X = some (v, R))
    (hR : skipSpace R = '\x7d' :: r4) :
    parseMembers (f + 1) d acc (w1 ++ '"' :: (key ++ '"' :: (w2 ++ ':' :: X))) =
      some (JValue.obj ((kv, v) :: acc).reverse, r4) := by
  have h1 : ('\x7d' == ',') = false := by decide
  rw [parseMembers.eq_2, skipSpace_blank w1 _ _ hw1 (by decide)]
  simp only [beq_self_eq_true, if_true]
  rw [hk _ [] [] _ (by simp)]
  simp only
  rw [skipSpace_blank w2 ':' X hw2 (by decide)]
  simp only [beq_self_eq_true, if_true, hv, hR, h1, Bool.false_eq_true, if_false,
    List.reverse_nil, List.nil_append]

theorem skipSpace_blank_append (w cs : List Char) (hw : blank w = true) :
    skipSpace (w ++ cs) = skipSpace cs := by
  induction w with
  | nil => rfl
  | cons x xs ih =>
    simp only [blank, List.all_cons, Bool.and_eq_true] at hw
    simp only [List.cons_append, skipSpace, isSpace_of_blankChar x hw.1, if_true]
    exact ih hw.2

theorem skipSpace_idem (cs : List Char) : skipSpace (skipSpace cs) = skipSpace cs := by
  induction cs with
  | nil => rfl
  | cons c cs ih =>
    by_cases hc : isSpace c = true
    · simpa [skipSpace, hc] using ih
    · simp [skipSpace, hc]

theorem parseMembers_skipSpace (f d : Nat) (acc : List (List Char × JValue)) (cs : List Char) :
    parseMembers f d acc (skipSpace cs) = parseMembers f d acc cs := by
  cases f with
  | zero => simp [parseMembers]
  | succ f => rw [parseMembers.eq_2, parseMembers.eq_2, skipSpace_idem]

theorem parseValue_skipSpace (f d : Nat) (cs : List Char) :
    parseValue f d (skipSpace cs) = parseValue f d cs := by
  cases f with
  | zero => simp [parseValue]
  | succ f => rw [parseValue.eq_2, parseValue.eq_2, skipSpace_idem]

theorem parseElems_skipSpace (f d : Nat) (acc : List JValue) (cs : List Char) :
    parseElems f d acc (skipSpace cs) = parseElems f d acc cs := by
  cases f with
  | zero => simp [parseElems]
  | succ f => rw [parseElems.eq_2, parseElems.eq_2, parseValue_skipSpace]

/-- An opening brace followed by something other than a closing brace starts
the members of an object, one level deeper. -/
theorem parseValue_brace (w r : List Char) (c1 : Char) (r1 : List Char) (f d : Nat)
    (hw : blank w = true) (hd : d < maxNestingDepth) (hsk : skipSpace r = c1 :: r1)
    (hc1 : (c1 == '\x7d') = false) :
    parseValue (f + 1) d (w ++ '\x7b' :: r) = parseMembers f (d + 1) [] r := by
  rw [parseValue.eq_2, skipSpace_blank w _ _ hw (by decide)]
  simp only [beq_self_eq_true, if_true, hd, hsk, hc1, Bool.false_eq_true, if_false]
  rw [← hsk, parseMembers_skipSpace]

/-- An opening bracket followed by something other than a closing bracket
starts the elements of an array, one level deeper. -/
theorem parseValue_bracket (w r : List Char) (c1 : Char) (r1 : List Char) (f d : Nat)
    (hw : blank w = true) (hd : d < maxNestingDepth) (hsk : skipSpace r = c1 :: r1)
    (hc1 : (c1 == ']') = false) :
    parseValue (f + 1) d (w ++ '[' :: r) = parseElems f (d + 1) [] r := by
  have h1 : ('[' == '\x7b') = false := by decide
  rw [parseValue.eq_2, skipSpace_blank w _ _ hw (by decide)]
  simp only [h1, beq_self_eq_true, if_true, hd, hsk, hc1, Bool.false_eq_true, if_false]
  rw [← hsk, parseElems_skipSpace]

theorem parseValue_emptyArray (w w1 rest : List Char) (f d : Nat) (hw : blank w = true)
    (hw1 : blank w1 = true) (hd : d < maxNestingDepth) :
    parseValue (f + 1) d (w ++ '[' :: (w1 ++ ']' :: rest)) = some (JValue.arr [], rest) := by
  have h1 : ('[' == '\x7b') = false := by decide
  rw [parseValue.eq_2, skipSpace_blank w _ _ hw (by decide)]
  simp only [h1, beq_self_eq_true, if_true, hd, Bool.false_eq_true, if_false]
  rw [skipSpace_blank w1 _ _ hw1 (by decide)]
  simp

theorem parseMembers_string_comma (w1 key kv w2 w3 body val w4 rest : List Char) (f d : Nat)
    (acc : List (List Char × JValue)) (hw1 : blank w1 = true) (hk : readsAs key kv)
    (hw2 : blank w2 = true) (hw3 : blank w3 = true) (hb : readsAs body val)
    (hw4 : blank w4 = true) :
    parseMembers (f + 2) d acc (stringMember w1 key w2 w3 body (w4 ++ ',' :: rest)) =
      parseMembers (f + 1) d ((kv, JValue.str body val) :: acc) rest :=
  parseMembers_comma w1 key kv w2 _ _ rest _ (f + 1) d acc hw1 hk hw2
    (parseValue_string w3 body val hw3 hb f d _) (skipSpace_blank w4 ',' rest hw4 (by decide))

theorem parseMembers_string_close (w1 key kv w2 w3 body val w4 rest : List Char) (f d : Nat)
    (acc : List (List Char × JValue)) (hw1 : blank w1 = true) (hk : readsAs key kv)
    (hw2 : blank w2 = true) (hw3 : blank w3 = true) (hb : readsAs body val)
    (hw4 : blank w4 = true) :
    parseMembers (f + 2) d acc (stringMember w1 key w2 w3 body (w4 ++ '\x7d' :: rest)) =
      some (JValue.obj ((kv, JValue.str body val) :: acc).reverse, rest) :=
  parseMembers_close w1 key kv w2 _ _ rest _ (f + 1) d acc hw1 hk hw2
    (parseValue_string w3 body val hw3 hb f d _) (skipSpace_blank w4 '\x7d' rest hw4 (by decide))

theorem elemsText_append (e : List Char × List Char × List Char)
    (es : List (List Char × List Char × List Char)) (X : List Char) :
    elemsText (e :: es) ++ X =
      e.1 ++ '"' :: (e.2.1 ++ '"' :: (e.2.2 ++
        (match es with
          | [] => X
          | e1 :: es1 => ',' :: (elemsText (e1 :: es1) ++ X)))) := by
  cases es with
  | nil => simp [elemsText, elemText]
  | cons e1 es1 => simp [elemsText, elemText]

theorem parseElems_elems (enc : String → List Char)
    (es : List (List Char × String × List Char)) : es ≠ [] →
    (∀ e ∈ es, blank e.1 = true ∧ blank e.2.2 = true ∧ readsAs (enc e.2.1) e.2.1.data) →
    ∀ (fuel d : Nat) (acc : List JValue) (rest : List Char), es.length + 1 ≤ fuel →
    parseElems fuel d acc
        (elemsText (es.map (fun e => (e.1, enc e.2.1, e.2.2))) ++ ']' :: rest) =
      some (JValue.arr (acc.reverse ++ es.map (fun e => JValue.str (enc e.2.1) e.2.1.data)),
        rest) := by
  induction es with
  | nil => intro h; exact absurd rfl h
  | cons e es ih =>
    intro _ hes fuel d acc rest hf
    obtain ⟨f, rfl⟩ : ∃ k, fuel = k + 2 := ⟨fuel - 2, by simp at hf; omega⟩
    obtain ⟨he1, he2, he3⟩ := hes e (List.mem_cons_self _ _)
    rw [List.map_cons, elemsText_append, parseElems.eq_2,
      parseValue_string e.1 (enc e.2.1) e.2.1.data he1 he3 f d]
    cases es with
    | nil =>
      have h1 : (']' == ',') = false := by decide
      simp only [List.map_nil]
      rw [skipSpace_blank e.2.2 ']' rest he2 (by decide)]
      simp [h1]
    | cons e1 es1 =>
      simp only [List.map_cons]
      rw [skipSpace_blank e.2.2 ',' _ he2 (by decide)]
      simp only [beq_self_eq_true, if_true]
      have := ih (by simp) (fun z hz => hes z (List.mem_cons_of_mem _ hz)) (f + 1) d
        (JValue.str (enc e.2.1) e.2.1.data :: acc) rest (by simp at hf ⊢; omega)
      simp only [List.map_cons] at this
      rw [this]
      simp

theorem skipSpace_elemsText (e : List Char × List Char × List Char)
    (es : List (List Char × List Char × List Char)) (X : List Char) (he : blank e.1 = true) :
    ∃ r1, skipSpace (elemsText (e :: es) ++ X) = '"' :: r1 := by
  rw [elemsText_append, skipSpace_blank e.1 _ _ he (by decide)]
  exact ⟨_, rfl⟩

/-- The `Versions` member of a record is read as an array of its strings. -/
theorem parseMembers_versions (enc : String → List Char) (gaps : List (List Char))
    (es : List (List Char × String × List Char)) (rest : List Char) (f d : Nat)
    (acc : List (List Char × JValue)) (hgaps : gaps.all blank = true)
    (hes : ∀ e ∈ es, blank e.1 = true ∧ blank e.2.2 = true ∧ readsAs (enc e.2.1) e.2.1.data)
    (hd : d < maxNestingDepth) (hf : es.length + 1 ≤ f) :
    parseMembers (f + 2) d acc
        (versionsMember gaps (some (es.map (fun e => (e.1, enc e.2.1, e.2.2)))) rest) =
      parseMembers (f + 1) d
        (("Versions".data, JValue.arr (es.map (fun e => JValue.str (enc e.2.1) e.2.1.data))) ::
          acc) rest := by
  have hg := blank_gap gaps hgaps
  have hkey : readsAs "Versions".data "Versions".data := readsAs_plain _ (by decide)
  unfold versionsMember
  simp only
  cases es with
  | nil =>
    exact parseMembers_comma (gap gaps 9) _ _ (gap gaps 10) _ _ rest _ (f + 1) d acc (hg 9) hkey
      (hg 10) (parseValue_emptyArray (gap gaps 11) (gap gaps 12) _ f d (hg 11) (hg 12) hd)
      (skipSpace_blank (gap gaps 13) ',' rest (hg 13) (by decide))
  | cons e es1 =>
    obtain ⟨r1, hr1⟩ := skipSpace_elemsText (e.1, enc e.2.1, e.2.2)
      (es1.map (fun e => (e.1, enc e.2.1, e.2.2))) (']' :: (gap gaps 13 ++ ',' :: rest))
      (hes e (List.mem_cons_self _ _)).1
    have hv : parseValue (f + 1) d (gap gaps 11 ++ '[' ::
        (arrayBody gaps ((e :: es1).map (fun e => (e.1, enc e.2.1, e.2.2))) ++
          ']' :: (gap gaps 13 ++ ',' :: rest))) =
        some (JValue.arr ((e :: es1).map (fun e => JValue.str (enc e.2.1) e.2.1.data)),
          gap gaps 13 ++ ',' :: rest) := by
      simp only [arrayBody, List.map_cons] at hr1 ⊢
      rw [parseValue_bracket (gap gaps 11) _ '"' r1 f d (hg 11) hd hr1 (by decide)]
      have := parseElems_elems enc (e :: es1) (by simp) hes f (d + 1) []
        (gap gaps 13 ++ ',' :: rest) hf
      simp only [List.map_cons, List.reverse_nil, List.nil_append] at this
      exact this
    exact parseMembers_comma (gap gaps 9) _ _ (gap gaps 10) _ _ rest _ (f + 1) d acc (hg 9) hkey
      (hg 10) hv (skipSpace_blank (gap gaps 13) ',' rest (hg 13) (by decide))

theorem layoutMembers_append (gaps : List (List Char)) (path version : List Char)
    (vs : Option (List (List Char × List Char × List Char))) (time X : List Char) :
    layoutMembers gaps path version vs time ++ X =
      stringMember (gap gaps 1) "Path".data (gap gaps 2) (gap gaps 3) path (gap gaps 4 ++ ',' ::
        stringMember (gap gaps 5) "Version".data (gap gaps 6) (gap gaps 7) version
          (gap gaps 8 ++ ',' :: versionsMember gaps vs
            (stringMember (gap gaps 14) "Time".data (gap gaps 15) (gap gaps 16) time
              (gap gaps 17 ++ X)))) := by
  cases vs <;> simp [layoutMembers, stringMember, versionsMember]

theorem parseValue_brace_string (w1 key w2 w3 body X : List Char) (f d : Nat)
    (hw1 : blank w1 = true) (hd : d < maxNestingDepth) :
    parseValue (f + 1) d ('\x7b' :: stringMember w1 key w2 w3 body X) =
      parseMembers f (d + 1) [] (stringMember w1 key w2 w3 body X) := by
  have hopen : skipSpace (stringMember w1 key w2 w3 body X) =
      '"' :: (key ++ '"' :: (w2 ++ ':' :: (w3 ++ '"' :: (body ++ '"' :: X)))) :=
    skipSpace_blank w1 _ _ hw1 (by decide)
  exact parseValue_brace [] _ '"' _ f d rfl hd hopen (by decide)

theorem storeElems_strs (enc : String → List Char) (es : List (List Char × String × List Char)) :
    ∀ old, storeElems old (es.map (fun e => JValue.str (enc e.2.1) e.2.1.data)) =
      (es.map (fun e => e.2.1), none) := by
  induction es with
  | nil => intro old; rfl
  | cons e es ih =>
    intro old
    simp only [List.map_cons, storeElems, storeString, ih]

theorem findField_keys : findField "Path".data = some Field.Path ∧
    findField "Version".data = some Field.Version ∧
    findField "Versions".data = some Field.Versions ∧
    findField "Time".data = some Field.Time := by decide

/-- The parser reads a record laid out with whitespace as an object, and the
object is stored as the record's path, version, versions and time. -/
theorem parse_layout (enc : String → List Char) (gaps : List (List Char))
    (path version : String) (vs : Option (List (List Char × String × List Char)))
    (time : List Char) (t : Time) (tail : List Char)
    (hgaps : gaps.all blank = true)
    (hvs : ∀ e ∈ vs.getD [], blank e.1 = true ∧ blank e.2.2 = true ∧
      readsAs (enc e.2.1) e.2.1.data)
    (hp : readsAs (enc path) path.data) (hv : readsAs (enc version) version.data)
    (ht : readsAs time time) (fuel : Nat) (hf : (vs.getD []).length + 6 ≤ fuel) :
    ∃ v, parseValue fuel 0 ('\x7b' :: (layoutMembers gaps (enc path) (enc version)
        (vs.map (fun es => es.map (fun e => (e.1, enc e.2.1, e.2.2)))) time ++
          '\x7d' :: tail)) = some (v, tail) ∧
      (parseRFC3339 time = some t → unmarshal v = .ok ⟨path, version, versionsOf vs, t⟩) := by
  have hg := blank_gap gaps hgaps
  obtain ⟨h1, h2, h3, h4⟩ := findField_keys
  have hk1 : readsAs "Path".data "Path".data := readsAs_plain _ (by decide)
  have hk2 : readsAs "Version".data "Version".data := readsAs_plain _ (by decide)
  have hk4 : readsAs "Time".data "Time".data := readsAs_plain _ (by decide)
  obtain ⟨g, rfl⟩ : ∃ g, fuel = g + 6 := ⟨fuel - 6, by omega⟩
  rw [layoutMembers_append, parseValue_brace_string _ _ _ _ _ _ (g + 5) 0 (hg 1) (by decide)]
  rw [parseMembers_string_comma _ _ _ _ _ _ _ _ _ (g + 3) 1 _ (hg 1) hk1 (hg 2) (hg 3) hp (hg 4)]
  rw [parseMembers_string_comma _ _ _ _ _ _ _ _ _ (g + 2) 1 _ (hg 5) hk2 (hg 6) (hg 7) hv (hg 8)]
  cases vs with
  | none =>
    simp only [Option.map_none', versionsMember]
    rw [parseMembers_string_close _ _ _ _ _ _ _ _ _ (g + 1) 1 _ (hg 14) hk4 (hg 15) (hg 16) ht
      (hg 17)]
    refine ⟨_, rfl, fun hts => ?_⟩
    simp [unmarshal, storeMembers, h1, h2, h4, storeField, storeString, hts, listResp.zero,
      versionsOf]
  | some es =>
    simp only [Option.map_some', Option.getD_some] at hvs hf ⊢
    rw [parseMembers_versions enc gaps es _ (g + 1) 1 _ hgaps hvs (by decide) (by omega)]
    rw [parseMembers_string_close _ _ _ _ _ _ _ _ _ g 1 _ (hg 14) hk4 (hg 15) (hg 16) ht
      (hg 17)]
    refine ⟨_, rfl, fun hts => ?_⟩
    cases es with
    | nil =>
      simp [unmarshal, storeMembers, h1, h2, h3, h4, storeField, storeString, storeVersions,
        hts, listResp.zero, versionsOf]
    | cons e es1 =>
      have hmap := storeElems_strs enc (e :: es1) []
      simp only [List.map_cons] at hmap
      simp [unmarshal, storeMembers, h1, h2, h3, h4, storeField, storeString, storeVersions,
        hts, listResp.zero, versionsOf, hmap]

theorem layoutRecord_eq (gaps : List (List Char)) (path version : List Char)
    (vs : Option (List (List Char × List Char × List Char))) (time : List Char) :
    layoutRecord gaps path version vs time =
      gap gaps 0 ++ '\x7b' :: (layoutMembers gaps path version vs time ++
        '\x7d' :: gap gaps 18) := by
  simp [layoutRecord, layoutBody]

theorem jsonDecode_of_parse (stdout : String) (w cs tail : List Char) (c : Char) (v : JValue)
    (fuel : Nat) (lr : listResp) (hw : blank w = true) (hc : isSpace c = false)
    (hout : stdout.data = w ++ c :: cs)
    (hparse : parseValue fuel 0 (c :: cs) = some (v, tail)) (hstore : unmarshal v = .ok lr) :
    jsonDecode stdout = .ok lr := by
  unfold jsonDecode
  rw [hout, skipSpace_blank w c cs hw hc]
  simp only
  rw [parseValue_fuel_enough fuel 0 (c :: cs) v tail hparse]
  exact hstore

/-- The decode step accepts a record laid out with whitespace, whose strings
are written in a way the string scanner reads back, and yields its fields. -/
theorem jsonDecode_layout (enc : String → List Char) (gaps : List (List Char))
    (path version : String) (vs : Option (List (List Char × String × List Char)))
    (time : List Char) (t : Time) (hgaps : gaps.all blank = true)
    (hvs : ∀ e ∈ vs.getD [], blank e.1 = true ∧ blank e.2.2 = true ∧
      readsAs (enc e.2.1) e.2.1.data)
    (hp : readsAs (enc path) path.data) (hv : readsAs (enc version) version.data)
    (ht : readsAs time time) (hts : parseRFC3339 time = some t) :
    jsonDecode (String.mk (layoutRecord gaps (enc path) (enc version)
      (vs.map (fun es => es.map (fun e => (e.1, enc e.2.1, e.2.2)))) time)) =
      .ok ⟨path, version, versionsOf vs, t⟩ := by
  obtain ⟨v, hparse, hstore⟩ := parse_layout enc gaps path version vs time t (gap gaps 18)
    hgaps hvs hp hv ht ((vs.getD []).length + 6) (Nat.le_refl _)
  exact jsonDecode_of_parse _ (gap gaps 0) _ (gap gaps 18) '\x7b' v _ _ (blank_gap gaps hgaps 0)
    (by decide) (layoutRecord_eq _ _ _ _ _) hparse (hstore hts)

theorem elemsText_compact (x : String) (xs : List String) :
    elemsText ((x :: xs).map (fun s => (([] : List Char), s.data, ([] : List Char)))) =
      renderElems (x :: xs) := by
  induction xs generalizing x with
  | nil => simp [elemsText, elemText, renderElems, quote]
  | cons y ys ih =>
    have := ih y
    simp only [List.map_cons] at this ⊢
    simp only [elemsText, renderElems, this]
    simp [elemText, quote]

theorem renderRecord_eq (path version : String) (vs : List String) (ts : String) :
    renderRecord path version vs ts =
      String.mk (layoutRecord [] path.data version.data
        ((compactElems vs).map (fun es => es.map (fun e => (e.1, e.2.1.data, e.2.2))))
        ts.data) := by
  cases vs with
  | nil =>
    simp [renderRecord, layoutRecord, layoutBody, layoutMembers, stringMember, versionsMember,
      gap, compactElems, renderVersions, quote]
  | cons x xs =>
    have h := elemsText_compact x xs
    simp only [List.map_cons] at h
    have hc : ((fun e : List Char × String × List Char => (e.1, e.2.1.data, e.2.2)) ∘
        fun s => (([] : List Char), s, ([] : List Char))) = fun s => ([], s.data, []) := rfl
    simp [renderRecord, layoutRecord, layoutBody, layoutMembers, stringMember, versionsMember,
      gap, compactElems, renderVersions, quote, arrayBody, hc, h]

/-- The decode step accepts every record in compact form whose texts are plain
and whose time is a timestamp `time.Parse` accepts, and yields its fields. -/
theorem jsonDecode_renderRecord (path version : String) (vs : List String) (ts : String)
    (t : Time) (hp : plain path = true) (hv : plain version = true)
    (hvs : ∀ x ∈ vs, plain x = true) (hts : plain ts = true)
    (ht : parseRFC3339 ts.data = some t) :
    jsonDecode (renderRecord path version vs ts) = .ok ⟨path, version, sliceOf vs, t⟩ := by
  have key := jsonDecode_layout (fun s => s.data) [] path version (compactElems vs) ts.data t
    rfl
    (by
      intro e he
      cases vs with
      | nil => simp [compactElems] at he
      | cons x xs =>
        simp only [compactElems, Option.getD_some, List.mem_map] at he
        obtain ⟨s, hs, rfl⟩ := he
        exact ⟨rfl, rfl, readsAs_plain _ (hvs s hs)⟩)
    (readsAs_plain _ hp) (readsAs_plain _ hv) (readsAs_plain _ hts) ht
  rw [renderRecord_eq]
  have hv : versionsOf (compactElems vs) = sliceOf vs := by
    cases vs with
    | nil => rfl
    | cons x xs =>
      have hc : ((fun e : List Char × String × List Char => e.2.1) ∘
          fun s => (([] : List Char), s, ([] : List Char))) = id := rfl
      simp [versionsOf, compactElems, sliceOf, hc]
  rw [← hv]
  exact key

/-! ## Timestamps -/

theorem digitChar_spec : ∀ d, d < 10 →
    isDigit (digitChar d) = true ∧ digitVal (digitChar d) = d ∧
      (digitChar d).toNat - '0'.toNat = d ∧ plainChar (digitChar d) = true := by
  decide

theorem pad_two (n : Nat) : pad 2 n = [digitChar (n / 10 % 10), digitChar (n % 10)] := by
  simp [pad]

theorem pad_four (n : Nat) :
    pad 4 n = [digitChar (n / 1000 % 10), digitChar (n / 100 % 10), digitChar (n / 10 % 10),
      digitChar (n % 10)] := by
  simp [pad, Nat.div_div_eq_div_mul]

theorem getnum_pad (n : Nat) (fixed : Bool) (rest : List Char) (hn : n < 100) :
    getnum (pad 2 n ++ rest) fixed = some (n, rest) := by
  obtain ⟨a1, a2, -, -⟩ := digitChar_spec (n / 10 % 10) (Nat.mod_lt _ (by decide))
  obtain ⟨b1, b2, -, -⟩ := digitChar_spec (n % 10) (Nat.mod_lt _ (by decide))
  rw [pad_two]
  simp only [List.cons_append, List.nil_append, getnum, a1, b1, if_true, a2, b2,
    Option.some.injEq, Prod.mk.injEq, and_true]
  omega

theorem parseYear_pad (n : Nat) (rest : List Char) (hn : n ≤ 9999) :
    parseYear (pad 4 n ++ rest) = some (n, rest) := by
  obtain ⟨a1, a2, -, -⟩ := digitChar_spec (n / 1000 % 10) (Nat.mod_lt _ (by decide))
  obtain ⟨b1, b2, -, -⟩ := digitChar_spec (n / 100 % 10) (Nat.mod_lt _ (by decide))
  obtain ⟨c1, c2, -, -⟩ := digitChar_spec (n / 10 % 10) (Nat.mod_lt _ (by decide))
  obtain ⟨d1, d2, -, -⟩ := digitChar_spec (n % 10) (Nat.mod_lt _ (by decide))
  rw [pad_four]
  simp only [List.cons_append, List.nil_append, parseYear, a1, b1, c1, d1, Bool.and_self,
    if_true, a2, b2, c2, d2, Option.some.injEq, Prod.mk.injEq, and_true]
  omega

theorem parseDate_pad (y m d : Nat) (rest : List Char) (hy : y ≤ 9999) (hm1 : 1 ≤ m)
    (hm : m ≤ 12) (hd : d < 100) :
    parseDate (pad 4 y ++ '-' :: (pad 2 m ++ '-' :: (pad 2 d ++ 'T' :: rest))) =
      some ((y, m, d), rest) := by
  have h1 : (decide (m = 0) || decide (12 < m)) = false := by
    simp only [Bool.or_eq_false_iff, decide_eq_false_iff_not]
    omega
  simp only [parseDate, parseYear_pad y _ hy, skipChar, beq_self_eq_true, if_true,
    getnum_pad m true _ (by omega), h1, Bool.false_eq_true, if_false, getnum_pad d true _ hd]

theorem parseClock_pad (h m s : Nat) (rest : List Char) (hh : h ≤ 23) (hm : m ≤ 59)
    (hs : s ≤ 59) :
    parseClock (pad 2 h ++ ':' :: (pad 2 m ++ ':' :: (pad 2 s ++ rest))) =
      some ((h, m, s), rest) := by
  have h1 : ¬ 24 ≤ h := by omega
  have h2 : ¬ 60 ≤ m := by omega
  have h3 : ¬ 60 ≤ s := by omega
  simp only [parseClock, getnum_pad h false _ (by omega), h1, if_false, skipChar,
    beq_self_eq_true, if_true, getnum_pad m true _ (by omega), h2,
    getnum_pad s true _ (by omega), h3]


theorem digitsVal_foldl (cs : List Char) :
    digitsVal cs = cs.foldl (fun acc c =>
      match acc with
      | some n => if isDigit c then some (n * 10 + (c.toNat - '0'.toNat)) else none
      | none => none) (some 0) := by
  cases cs <;> rfl

theorem digitsVal_pad (k n : Nat) : digitsVal (pad k n) = some (n % 10 ^ k) := by
  induction k generalizing n with
  | zero => simp [pad, digitsVal, Nat.mod_one]
  | succ k ih =>
    obtain ⟨a1, -, a3, -⟩ := digitChar_spec (n % 10) (Nat.mod_lt _ (by decide))
    have h := ih (n / 10)
    rw [digitsVal_foldl] at h ⊢
    rw [pad, List.foldl_append, h]
    simp only [List.foldl_cons, List.foldl_nil, a1, if_true, a3, Option.some.injEq]
    rw [pow_succ', Nat.mod_mul]
    omega

theorem pad_length (k n : Nat) : (pad k n).length = k := by
  induction k generalizing n with
  | zero => rfl
  | succ k ih => simp [pad, ih]

theorem pad_digits (k n : Nat) : ∀ c ∈ pad k n, isDigit c = true ∧ plainChar c = true := by
  induction k generalizing n with
  | zero => simp [pad]
  | succ k ih =>
    intro c hc
    obtain ⟨a1, -, -, a4⟩ := digitChar_spec (n % 10) (Nat.mod_lt _ (by decide))
    simp only [pad, List.mem_append, List.mem_singleton] at hc
    rcases hc with hc | rfl
    · exact ih _ c hc
    · exact ⟨a1, a4⟩

theorem spanDigits_digits (ds : List Char) (z : Char) (zs : List Char)
    (hds : ∀ c ∈ ds, isDigit c = true) (hz : isDigit z = false) :
    spanDigits (ds ++ z :: zs) = (ds, z :: zs) := by
  induction ds with
  | nil => simp [spanDigits, hz]
  | cons d ds ih =>
    have hd := hds d (List.mem_cons_self _ _)
    have := ih (fun c hc => hds c (List.mem_cons_of_mem _ hc))
    simp only [spanDigits, Prod.mk.injEq] at this
    simp [spanDigits, hd, this.1, this.2]

theorem fracNanos_pad (k nsec : Nat) (hk : k ≤ 9) (hn : nsec < 10 ^ 9)
    (hdiv : nsec % 10 ^ (9 - k) = 0) :
    fracNanos (pad k (nsec / 10 ^ (9 - k))) = some nsec := by
  have hlen := pad_length k (nsec / 10 ^ (9 - k))
  have htake : (pad k (nsec / 10 ^ (9 - k))).take 9 = pad k (nsec / 10 ^ (9 - k)) :=
    List.take_of_length_le (by omega)
  have hlt : nsec / 10 ^ (9 - k) < 10 ^ k := by
    rw [Nat.div_lt_iff_lt_mul (by positivity)]
    rw [← Nat.pow_add]
    have : k + (9 - k) = 9 := by omega
    rw [this]
    exact hn
  simp only [fracNanos, htake, digitsVal_pad, Nat.mod_eq_of_lt hlt, Option.map_some', hlen,
    Option.some.injEq]
  exact Nat.div_mul_cancel (Nat.dvd_of_mod_eq_zero hdiv)

theorem zoneText_head (off : Int) :
    ∃ z zs, zoneText off = z :: zs ∧ isDigit z = false ∧ (z == '.' || z == ',') = false := by
  unfold zoneText
  split
  · exact ⟨'Z', [], rfl, by decide, by decide⟩
  · split
    · exact ⟨'-', _, rfl, by decide, by decide⟩
    · exact ⟨'+', _, rfl, by decide, by decide⟩

theorem parseFraction_format (nsec k : Nat) (off : Int) (hk : k ≤ 9) (hn : nsec < 10 ^ 9)
    (hdiv : nsec % 10 ^ (9 - k) = 0) :
    parseFraction (fracText nsec k ++ zoneText off) = some (nsec, zoneText off) := by
  obtain ⟨z, zs, hz, hzd, hzs⟩ := zoneText_head off
  unfold fracText
  split
  · rename_i hk0
    subst hk0
    have h0 : nsec = 0 := by
      simp only [Nat.sub_zero] at hdiv
      omega
    rw [List.nil_append, hz, h0]
    cases zs with
    | nil => simp [parseFraction]
    | cons y ys => simp [parseFraction, hzs]
  · rename_i hk0
    obtain ⟨k1, rfl⟩ : ∃ j, k = j + 1 := ⟨k - 1, by omega⟩
    have hdig := pad_digits (k1 + 1) (nsec / 10 ^ (9 - (k1 + 1)))
    have hlen := pad_length (k1 + 1) (nsec / 10 ^ (9 - (k1 + 1)))
    have hfr := fracNanos_pad (k1 + 1) nsec hk hn hdiv
    generalize pad (k1 + 1) (nsec / 10 ^ (9 - (k1 + 1))) = ds at hdig hlen hfr
    cases ds with
    | nil => simp at hlen
    | cons d ds =>
      have hd := (hdig d (List.mem_cons_self _ _)).1
      have hsp : spanDigits (d :: (ds ++ zoneText off)) = (d :: ds, zoneText off) := by
        rw [hz]
        exact spanDigits_digits (d :: ds) z zs (fun c hc => (hdig c hc).1) hzd
      simp only [List.cons_append, parseFraction, beq_self_eq_true, Bool.true_or, hd,
        Bool.and_self, if_true, hsp, hfr, Option.map_some']

theorem parseZone_format (off : Int) (hlt : off.natAbs < 86400) (hdiv : off.natAbs % 60 = 0) :
    parseZone (zoneText off) = some (off, []) := by
  unfold zoneText
  split
  · rename_i h0
    subst h0
    simp [parseZone]
  · rename_i h0
    have hh := getnum_pad (off.natAbs / 3600) true [] (by omega)
    have hm := getnum_pad (off.natAbs / 60 % 60) true [] (by omega)
    rw [pad_two] at hh hm
    simp only [List.cons_append, List.nil_append, List.append_nil] at hh hm
    have hr : (decide (24 < off.natAbs / 3600) || decide (60 < off.natAbs / 60 % 60)) = false := by
      simp only [Bool.or_eq_false_iff, decide_eq_false_iff_not]
      omega
    split
    · rename_i hneg
      have h1 : ('-' == 'Z') = false := by decide
      have h2 : ('-' == '+') = false := by decide
      simp only [pad_two, List.cons_append, List.nil_append, parseZone, h1, Bool.false_eq_true,
        if_false, beq_self_eq_true, if_true, hh, hm, hr, h2, Option.some.injEq, Prod.mk.injEq,
        and_true]
      omega
    · rename_i hneg
      have h1 : ('+' == 'Z') = false := by decide
      simp only [pad_two, List.cons_append, List.nil_append, parseZone, h1, Bool.false_eq_true,
        if_false, beq_self_eq_true, if_true, hh, hm, hr, Option.some.injEq, Prod.mk.injEq,
        and_true]
      omega

/-- A timestamp written from a `time.Time` is read back as that time. -/
theorem parseRFC3339_format (t : Time) (k : Nat) (h : wellFormedTime t k = true) :
    parseRFC3339 (formatRFC3339 t k) = some t := by
  simp only [wellFormedTime, decide_eq_true_eq] at h
  obtain ⟨hy, hm1, hm, hd1, hd, hh, hmi, hs, hk, hn, hndiv, hoff, hodiv⟩ := h
  have hd31 : daysIn t.month t.year ≤ 31 := by
    unfold daysIn
    repeat' split
    all_goals omega
  have hday : (decide (1 ≤ t.day) && decide (t.day ≤ daysIn t.month t.year)) = true := by
    simp [hd1, hd]
  simp only [parseRFC3339, formatRFC3339,
    parseDate_pad t.year t.month t.day _ hy hm1 hm (by omega),
    parseClock_pad t.hour t.min t.sec _ hh hmi hs,
    parseFraction_format t.nsec k t.offset hk hn hndiv, parseZone_format t.offset hoff hodiv,
    List.isEmpty_nil, Bool.true_and, hday, if_true]

/-- A timestamp is made of characters that stand for themselves in a JSON
string. -/
theorem formatRFC3339_plain (t : Time) (k : Nat) :
    (formatRFC3339 t k).all plainChar = true := by
  have hp := fun w n c hc => (pad_digits w n c hc).2
  have hfrac : (fracText t.nsec k).all plainChar = true := by
    unfold fracText
    split
    · rfl
    · simp only [List.all_cons, List.all_eq_true, Bool.and_eq_true]
      exact ⟨by decide, hp _ _⟩
  have hzone : (zoneText t.offset).all plainChar = true := by
    unfold zoneText
    split
    · decide
    · simp only [List.all_cons, List.all_append, List.all_eq_true, Bool.and_eq_true]
      refine ⟨?_, hp _ _, by decide, hp _ _⟩
      split <;> decide
  simp only [formatRFC3339, List.all_append, List.all_cons, Bool.and_eq_true, hfrac, hzone,
    and_true]
  simp only [List.all_eq_true]
  exact ⟨hp _ _, by decide, hp _ _, by decide, hp _ _, by decide, hp _ _, by decide, hp _ _,
    by decide, hp _ _⟩

/-! ## Printed records, records cut short, output that is no record -/

theorem blankLayout_spec (gaps : List (List Char))
    (vs : Option (List (List Char × String × List Char))) (h : blankLayout gaps vs = true) :
    gaps.all blank = true ∧
      ∀ e ∈ vs.getD [], blank e.1 = true ∧ blank e.2.2 = true ∧
        readsAs ((fun s : String => encodeString s.data) e.2.1) e.2.1.data := by
  simp only [blankLayout, Bool.and_eq_true, List.all_eq_true] at h
  refine ⟨List.all_eq_true.2 h.1, fun e he => ?_⟩
  obtain ⟨h1, h2⟩ := h.2 e he
  exact ⟨h1, h2, readsAs_encodeString _⟩

/-- The decode step accepts every record the tool prints, whatever whitespace
lays it out, and yields the path, version, versions and time it was printed
for. -/
theorem jsonDecode_recordText (gaps : List (List Char)) (path version : String)
    (vs : Option (List (List Char × String × List Char))) (t : Time) (k : Nat)
    (hl : blankLayout gaps vs = true) (ht : wellFormedTime t k = true) :
    jsonDecode (recordText gaps path version vs t k) =
      .ok ⟨path, version, versionsOf vs, t⟩ := by
  obtain ⟨hg, hvs⟩ := blankLayout_spec gaps vs hl
  exact jsonDecode_layout (fun s => encodeString s.data) gaps path version vs
    (formatRFC3339 t k) t hg hvs (readsAs_encodeString _) (readsAs_encodeString _)
    (readsAs_plain _ (formatRFC3339_plain t k)) (parseRFC3339_format t k ht)

theorem parseMembers_obj : ∀ (f d : Nat) (acc : List (List Char × JValue)) (cs : List Char)
    (v : JValue) (r : List Char), parseMembers f d acc cs = some (v, r) → v.isNum = false := by
  intro f
  induction f with
  | zero =>
    intro d acc cs v r h
    simp [parseMembers] at h
  | succ f ih =>
    intro d acc cs v r h
    rw [parseMembers.eq_2] at h
    split at h
    · cases h
    · split at h
      · split at h
        · cases h
        · split at h
          · cases h
          · split at h
            · split at h
              · cases h
              · split at h
                · cases h
                · split at h
                  · exact ih _ _ _ _ _ h
                  · split at h
                    · cases h
                      rfl
                    · cases h
            · cases h
      · cases h

theorem parseValue_brace_obj (f d : Nat) (r : List Char) (v : JValue) (rest : List Char)
    (h : parseValue f d ('\x7b' :: r) = some (v, rest)) : v.isNum = false := by
  cases f with
  | zero => simp [parseValue] at h
  | succ f =>
    have hsk : skipSpace ('\x7b' :: r) = '\x7b' :: r := by simp [skipSpace, isSpace]
    rw [parseValue.eq_2, hsk] at h
    simp only [beq_self_eq_true, if_true] at h
    split at h
    · split at h
      · cases h
      · split at h
        · cases h
          rfl
        · exact parseMembers_obj _ _ _ _ _ _ h
    · cases h

/-- A record cut short before its closing brace is rejected by the decode
step. -/
theorem jsonDecode_cutShort (stdout : String) (gaps : List (List Char)) (path version : String)
    (vs : Option (List (List Char × String × List Char))) (t : Time) (k : Nat)
    (hl : blankLayout gaps vs = true) (hcut : cutShort stdout gaps path version vs t k) :
    ∃ e, jsonDecode stdout = .error e := by
  obtain ⟨hg, hvs⟩ := blankLayout_spec gaps vs hl
  obtain ⟨m, hm⟩ := hcut
  unfold jsonDecode
  cases hsk : skipSpace stdout.data with
  | nil => exact ⟨_, rfl⟩
  | cons c r =>
    simp only
    cases hp : parseValue (2 * (c :: r).length + 2) 0 (c :: r) with
    | none => exact ⟨_, rfl⟩
    | some p =>
      exfalso
      obtain ⟨v, rest⟩ := p
      have hskT := skipSpace_append stdout.data (m ++ '\x7d' :: gap gaps 18) c r hsk
      have hT : stdout.data ++ (m ++ '\x7d' :: gap gaps 18) =
          gap gaps 0 ++ '\x7b' :: (layoutMembers gaps (encodeString path.data)
            (encodeString version.data) (vs.map (fun es => es.map encodeElem))
            (formatRFC3339 t k) ++ '\x7d' :: gap gaps 18) := by
        rw [← List.append_assoc, hm]
        simp [layoutBody]
      rw [hT, skipSpace_blank _ _ _ (blank_gap gaps hg 0) (by decide)] at hskT
      simp only [List.cons.injEq] at hskT
      obtain ⟨hc, hr⟩ := hskT
      subst hc
      have hnum := parseValue_brace_obj _ _ _ _ _ hp
      obtain ⟨v1, hparse, -⟩ := parse_layout (fun s => encodeString s.data) gaps path version
        vs (formatRFC3339 t k) t (gap gaps 18) hg hvs (readsAs_encodeString _)
        (readsAs_encodeString _) (readsAs_plain _ (formatRFC3339_plain t k))
        (2 * ('\x7b' :: r).length + 2 + ((vs.getD []).length + 6)) (by omega)
      have happ := (parse_append (m ++ '\x7d' :: gap gaps 18) _).1 0 _ v rest hp
        (fun hn => by rw [hnum] at hn; cases hn)
        (2 * ('\x7b' :: r).length + 2 + ((vs.getD []).length + 6)) (by omega)
      rw [List.cons_append, ← hr] at happ
      have heq : some (v, rest ++ (m ++ '\x7d' :: gap gaps 18)) = some (v1, gap gaps 18) := by
        rw [← happ]
        exact hparse
      simp only [Option.some.injEq, Prod.mk.injEq] at heq
      have hlen := congrArg List.length heq.2
      simp only [List.length_append, List.length_cons] at hlen
      omega

theorem skipSpace_eq_dropWhile (cs : List Char) : skipSpace cs = cs.dropWhile blankChar := by
  induction cs with
  | nil => rfl
  | cons c cs ih =>
    by_cases hc : blankChar c = true
    · simp [skipSpace, isSpace_of_blankChar c hc, hc, ih]
    · have hs : isSpace c = false := by
        cases h : isSpace c with
        | false => rfl
        | true => exact absurd (blankChar_of_isSpace c h) hc
      simp [skipSpace, hs, hc]

theorem parseElems_arr : ∀ (f d : Nat) (acc : List JValue) (cs : List Char)
    (v : JValue) (r : List Char), parseElems f d acc cs = some (v, r) →
    ∃ xs, v = JValue.arr xs := by
  intro f
  induction f with
  | zero =>
    intro d acc cs v r h
    simp [parseElems] at h
  | succ f ih =>
    intro d acc cs v r h
    rw [parseElems.eq_2] at h
    split at h
    · cases h
    · split at h
      · cases h
      · split at h
        · exact ih _ _ _ _ _ h
        · split at h
          · cases h
            exact ⟨_, rfl⟩
          · cases h

theorem unmarshal_of_first (f d : Nat) (c : Char) (r : List Char) (v : JValue)
    (rest : List Char) (hsk : skipSpace (c :: r) = c :: r) (h1 : (c == '\x7b') = false)
    (h2 : (c == 'n') = false) (h : parseValue f d (c :: r) = some (v, rest)) :
    ∃ e, unmarshal v = .error e := by
  cases f with
  | zero => simp [parseValue] at h
  | succ f =>
    rw [parseValue.eq_2, hsk] at h
    simp only [h1, Bool.false_eq_true, if_false] at h
    split at h
    · split at h
      · split at h
        · cases h
        · split at h
          · cases h
            exact ⟨_, rfl⟩
          · obtain ⟨xs, hxs⟩ := parseElems_arr _ _ _ _ _ _ h
            subst hxs
            exact ⟨_, rfl⟩
      · cases h
    · unfold parseScalar at h
      split at h
      · split at h
        · cases h
          exact ⟨_, rfl⟩
        · cases h
      · split at h
        · cases hm : matchLit ['r', 'u', 'e'] r with
          | none => simp [hm] at h
          | some r2 =>
            simp only [hm, Option.map_some', Option.some.injEq, Prod.mk.injEq] at h
            rw [← h.1]
            exact ⟨_, rfl⟩
        · split at h
          · cases hm : matchLit ['a', 'l', 's', 'e'] r with
            | none => simp [hm] at h
            | some r2 =>
              simp only [hm, Option.map_some', Option.some.injEq, Prod.mk.injEq] at h
              rw [← h.1]
              exact ⟨_, rfl⟩
          · simp only [h2, Bool.false_eq_true, if_false] at h
            split at h
            · cases hm : scanNum (c :: r) with
              | none => simp [hm] at h
              | some p =>
                simp only [hm, Option.map_some', Option.some.injEq, Prod.mk.injEq] at h
                rw [← h.1]
                exact ⟨_, rfl⟩
            · cases h

/-- Output that cannot begin with a record is rejected by the decode step:
either no value can be read, or the value read is not an object. -/
theorem jsonDecode_startsNoRecord (stdout : String) (h : startsNoRecord stdout = true) :
    ∃ e, jsonDecode stdout = .error e := by
  unfold startsNoRecord firstChar at h
  rw [← skipSpace_eq_dropWhile] at h
  unfold jsonDecode
  cases hsk : skipSpace stdout.data with
  | nil => exact ⟨_, rfl⟩
  | cons c r =>
    rw [hsk] at h
    simp only [List.head?_cons, Bool.not_eq_true', Bool.or_eq_false_iff] at h
    obtain ⟨h1, h2⟩ := h
    have hsk2 : skipSpace (c :: r) = c :: r := by
      rw [← hsk]
      exact skipSpace_idem _
    simp only
    cases hp : parseValue (2 * (c :: r).length + 2) 0 (c :: r) with
    | none => exact ⟨_, rfl⟩
    | some p =>
      obtain ⟨v, rest⟩ := p
      exact unmarshal_of_first _ _ c r v rest hsk2 h1 h2 hp

/-! ## What the parser accepts is JSON -/

theorem skipSpace_split (cs : List Char) (c : Char) (r : List Char)
    (h : skipSpace cs = c :: r) : ∃ w, cs = w ++ c :: r ∧ blank w = true := by
  induction cs with
  | nil => simp [skipSpace] at h
  | cons x xs ih =>
    simp only [skipSpace] at h
    split at h
    · rename_i hx
      obtain ⟨w, hw, hb⟩ := ih h
      refine ⟨x :: w, by rw [hw]; rfl, ?_⟩
      simp only [blank, List.all_cons, Bool.and_eq_true]
      exact ⟨blankChar_of_isSpace x hx, hb⟩
    · cases h
      exact ⟨[], rfl, rfl⟩

theorem hexChar_of_hexVal (x : Char) (n : Nat) (h : hexVal x = some n) : hexChar x = true := by
  unfold hexVal at h
  unfold hexChar
  split at h
  · rename_i h1
    simp [h1]
  · split at h
    · rename_i h2
      simp [h2]
    · split at h
      · rename_i h3
        simp [h3]
      · cases h

theorem hexChar_of_hex4 (a b c d : Char) (n : Nat) (h : hex4 a b c d = some n) :
    hexChar a = true ∧ hexChar b = true ∧ hexChar c = true ∧ hexChar d = true := by
  unfold hex4 at h
  split at h
  · rename_i x y z w ha hb hc hd
    exact ⟨hexChar_of_hexVal a x ha, hexChar_of_hexVal b y hb, hexChar_of_hexVal c z hc,
      hexChar_of_hexVal d w hd⟩
  · cases h

theorem lowSurrogate_sound (rest : List Char) (lo : Nat) (rest2 : List Char)
    (h : lowSurrogate rest = some (lo, rest2)) :
    ∃ a b c d, rest = '\\' :: 'u' :: a :: b :: c :: d :: rest2 ∧ hexChar a = true ∧
      hexChar b = true ∧ hexChar c = true ∧ hexChar d = true := by
  obtain ⟨a, b, c, d, r, rfl⟩ := lowSurrogate_some_shape rest _ h
  simp only [lowSurrogate] at h
  split at h
  · split at h
    · rename_i lo1 hhex
      split at h
      · cases h
        exact ⟨a, b, c, d, rfl, hexChar_of_hex4 a b c d lo hhex⟩
      · cases h
    · cases h
  · cases h

theorem escapeChar_of_unescape1 (e u : Char) (h : unescape1 e = some u) :
    escapeChar e = true := by
  unfold unescape1 at h
  unfold escapeChar
  repeat' split at h
  all_goals simp_all

/-- What the string scanner accepts is the body of a JSON string. -/
theorem scanStr_sound : ∀ (fuel : Nat) (raw val cs a b r : List Char),
    scanStr fuel raw val cs = some (a, b, r) →
    ∃ body, cs = body ++ '"' :: r ∧ StringBody body := by
  intro fuel
  induction fuel with
  | zero =>
    intro raw val cs a b r h
    simp [scanStr] at h
  | succ fuel ih =>
    intro raw val cs a b r h
    cases cs with
    | nil => simp [scanStr] at h
    | cons c cs =>
      simp only [scanStr] at h
      split at h
      · rename_i hq
        simp only [beq_iff_eq] at hq
        cases h
        exact ⟨[], by rw [hq]; rfl, StringBody.nil⟩
      · rename_i hq
        split at h
        · rename_i hb
          simp only [beq_iff_eq] at hb
          subst hb
          cases cs with
          | nil => simp at h
          | cons e rest0 =>
            simp only at h
            split at h
            · rename_i hu
              simp only [beq_iff_eq] at hu
              subst hu
              rcases rest0 with _ | ⟨x1, _ | ⟨x2, _ | ⟨x3, _ | ⟨x4, rest⟩⟩⟩⟩ <;>
                try (simp at h; done)
              simp only at h
              split at h
              · cases h
              · rename_i hi hhex
                obtain ⟨g1, g2, g3, g4⟩ := hexChar_of_hex4 _ _ _ _ _ hhex
                split at h
                · split at h
                  · rename_i lo rest2 hlow
                    have hlow2 : lowSurrogate rest = some (lo, rest2) := by
                      split at hlow
                      · exact hlow
                      · cases hlow
                    obtain ⟨a1, b1, c1, d1, hrest, k1, k2, k3, k4⟩ :=
                      lowSurrogate_sound rest lo rest2 hlow2
                    obtain ⟨body, hbody, hsb⟩ := ih _ _ _ _ _ _ h
                    refine ⟨'\\' :: 'u' :: x1 :: x2 :: x3 :: x4 ::
                      '\\' :: 'u' :: a1 :: b1 :: c1 :: d1 :: body, ?_, ?_⟩
                    · rw [hrest, hbody]
                      rfl
                    · exact StringBody.unicode _ _ _ _ _ g1 g2 g3 g4
                        (StringBody.unicode _ _ _ _ _ k1 k2 k3 k4 hsb)
                  · obtain ⟨body, hbody, hsb⟩ := ih _ _ _ _ _ _ h
                    exact ⟨'\\' :: 'u' :: x1 :: x2 :: x3 :: x4 :: body, by rw [hbody]; rfl,
                      StringBody.unicode _ _ _ _ _ g1 g2 g3 g4 hsb⟩
                · obtain ⟨body, hbody, hsb⟩ := ih _ _ _ _ _ _ h
                  exact ⟨'\\' :: 'u' :: x1 :: x2 :: x3 :: x4 :: body, by rw [hbody]; rfl,
                    StringBody.unicode _ _ _ _ _ g1 g2 g3 g4 hsb⟩
            · split at h
              · rename_i u hun
                obtain ⟨body, hbody, hsb⟩ := ih _ _ _ _ _ _ h
                exact ⟨'\\' :: e :: body, by rw [hbody]; rfl,
                  StringBody.escape _ _ (escapeChar_of_unescape1 e u hun) hsb⟩
              · cases h
        · rename_i hb
          split at h
          · cases h
          · rename_i hctl
            obtain ⟨body, hbody, hsb⟩ := ih _ _ _ _ _ _ h
            refine ⟨c :: body, by rw [hbody]; rfl, StringBody.char _ _ ?_ ?_ ?_ hsb⟩
            · simpa using hq
            · simpa using hb
            · omega


theorem spanDigits_sound (cs : List Char) :
    cs = (spanDigits cs).1 ++ (spanDigits cs).2 ∧
      (spanDigits cs).1.all (fun c => decide ('0' ≤ c) && decide (c ≤ '9')) = true := by
  refine ⟨(List.takeWhile_append_dropWhile _ _).symm, ?_⟩
  rw [List.all_eq_true]
  intro c hc
  have h : isDigit c = true := List.mem_takeWhile_imp (p := isDigit) hc
  exact h

theorem spanDigits_run (cs x r : List Char) (f : List Char → List Char)
    (h : (match spanDigits cs with
      | ([], _) => none
      | (ds, r) => some (f ds, r)) = some (x, r)) :
    ∃ ds, x = f ds ∧ cs = ds ++ r ∧ digitRun ds = true := by
  obtain ⟨h1, h2⟩ := spanDigits_sound cs
  split at h
  · cases h
  · rename_i ds r1 hne heq
    simp only [Option.some.injEq, Prod.mk.injEq] at h
    obtain ⟨hx, hr⟩ := h
    subst hr
    rw [heq] at h1 h2
    refine ⟨ds, hx.symm, h1, ?_⟩
    simp only [digitRun, Bool.and_eq_true, Bool.not_eq_true', List.isEmpty_eq_false]
    refine ⟨?_, h2⟩
    intro hnil
    exact hne hnil

theorem scanInt_sound (cs ip r : List Char) (h : scanInt cs = some (ip, r)) :
    cs = ip ++ r ∧ (ip = ['0'] ∨ (digitRun ip = true ∧ ip.head? ≠ some '0')) := by
  cases cs with
  | nil => simp [scanInt] at h
  | cons c rest =>
    simp only [scanInt] at h
    split at h
    · rename_i h0
      simp only [beq_iff_eq] at h0
      cases h
      exact ⟨by rw [h0]; rfl, Or.inl rfl⟩
    · rename_i h0
      split at h
      · rename_i hd
        obtain ⟨h1, h2⟩ := spanDigits_sound rest
        cases h
        refine ⟨by rw [List.cons_append, ← h1], Or.inr ⟨?_, ?_⟩⟩
        · simp only [digitRun, List.isEmpty_cons, Bool.not_false, List.all_cons, Bool.true_and,
            Bool.and_eq_true]
          exact ⟨by simpa [isDigit] using hd, h2⟩
        · simpa using h0
      · cases h

theorem scanFrac_sound (cs fp r : List Char) (h : scanFrac cs = some (fp, r)) :
    cs = fp ++ r ∧ (fp = [] ∨ ∃ ds, fp = '.' :: ds ∧ digitRun ds = true) := by
  cases cs with
  | nil =>
    simp only [scanFrac, Option.some.injEq, Prod.mk.injEq] at h
    exact ⟨by rw [← h.1, ← h.2]; rfl, Or.inl h.1.symm⟩
  | cons c rest =>
    simp only [scanFrac] at h
    split at h
    · rename_i hc
      simp only [beq_iff_eq] at hc
      obtain ⟨ds, h1, h2, h3⟩ := spanDigits_run rest fp r (fun ds => '.' :: ds) h
      exact ⟨by rw [h1, hc, h2]; rfl, Or.inr ⟨ds, h1, h3⟩⟩
    · cases h
      exact ⟨rfl, Or.inl rfl⟩

theorem scanExp_sound (cs ep r : List Char) (h : scanExp cs = some (ep, r)) :
    cs = ep ++ r ∧ (ep = [] ∨ ∃ e sg ds, ep = e :: (sg ++ ds) ∧ (e = 'e' ∨ e = 'E') ∧
      (sg = [] ∨ sg = ['+'] ∨ sg = ['-']) ∧ digitRun ds = true) := by
  cases cs with
  | nil =>
    simp only [scanExp, Option.some.injEq, Prod.mk.injEq] at h
    exact ⟨by rw [← h.1, ← h.2]; rfl, Or.inl h.1.symm⟩
  | cons e rest =>
    simp only [scanExp] at h
    split at h
    · rename_i he
      simp only [Bool.or_eq_true, beq_iff_eq] at he
      cases rest with
      | nil => simp at h
      | cons s rest1 =>
        simp only at h
        split at h
        · rename_i hsg
          simp only [Bool.or_eq_true, beq_iff_eq] at hsg
          obtain ⟨ds, h1, h2, h3⟩ := spanDigits_run rest1 ep r (fun ds => e :: s :: ds) h
          refine ⟨by rw [h1, h2]; rfl, Or.inr ⟨e, [s], ds, h1, he, ?_, h3⟩⟩
          rcases hsg with hsg | hsg
          · exact Or.inr (Or.inl (by rw [hsg]))
          · exact Or.inr (Or.inr (by rw [hsg]))
        · obtain ⟨ds, h1, h2, h3⟩ := spanDigits_run (s :: rest1) ep r (fun ds => e :: ds) h
          exact ⟨by rw [h1, h2]; rfl, Or.inr ⟨e, [], ds, h1, he, Or.inl rfl, h3⟩⟩
    · cases h
      exact ⟨rfl, Or.inl rfl⟩

theorem scanSign_sound (cs : List Char) :
    cs = (scanSign cs).1 ++ (scanSign cs).2 ∧
      ((scanSign cs).1 = [] ∨ (scanSign cs).1 = ['-']) := by
  cases cs with
  | nil => exact ⟨rfl, Or.inl rfl⟩
  | cons c rest =>
    simp only [scanSign]
    split
    · rename_i hc
      simp only [beq_iff_eq] at hc
      exact ⟨by rw [hc]; rfl, Or.inr rfl⟩
    · exact ⟨rfl, Or.inl rfl⟩

/-- What the number scanner accepts is a JSON number. -/
theorem scanNum_sound (cs raw r : List Char) (h : scanNum cs = some (raw, r)) :
    cs = raw ++ r ∧ NumberText raw := by
  unfold scanNum at h
  obtain ⟨s1, s2⟩ := scanSign_sound cs
  split at h
  · cases h
  · rename_i ip cs2 hint
    obtain ⟨i1, i2⟩ := scanInt_sound _ ip cs2 hint
    split at h
    · cases h
    · rename_i fp cs3 hfrac
      obtain ⟨f1, f2⟩ := scanFrac_sound cs2 fp cs3 hfrac
      split at h
      · cases h
      · rename_i ep cs4 hexp
        obtain ⟨e1, e2⟩ := scanExp_sound cs3 ep cs4 hexp
        cases h
        refine ⟨?_, (scanSign cs).1, ip, fp, ep, by simp, s2, i2, f2, e2⟩
        rw [List.append_assoc, List.append_assoc, List.append_assoc, ← e1, ← f1, ← i1, ← s1]

theorem matchLit_sound (lit r r1 : List Char) (h : matchLit lit r = some r1) :
    r = lit ++ r1 := by
  unfold matchLit at h
  split at h
  · rename_i hp
    cases h
    obtain ⟨t, ht⟩ := List.isPrefixOf_iff_prefix.1 hp
    rw [← ht]
    simp
  · cases h

theorem parseScalar_sound (c : Char) (r : List Char) (v : JValue) (r1 : List Char)
    (h : parseScalar c r = some (v, r1)) : ∃ t, c :: r = t ++ r1 ∧ JsonText t := by
  unfold parseScalar at h
  split at h
  · rename_i hq
    simp only [beq_iff_eq] at hq
    split at h
    · rename_i raw val r2 hs
      cases h
      obtain ⟨body, hbody, hsb⟩ := scanStr_sound _ _ _ _ _ _ _ hs
      exact ⟨'"' :: (body ++ ['"']), by rw [hq, hbody]; simp, JsonText.string body hsb⟩
    · cases h
  · split at h
    · rename_i ht
      simp only [beq_iff_eq] at ht
      cases hm : matchLit ['r', 'u', 'e'] r with
      | none => simp [hm] at h
      | some r2 =>
        simp only [hm, Option.map_some', Option.some.injEq, Prod.mk.injEq] at h
        rw [← h.2, ht, matchLit_sound _ _ _ hm]
        exact ⟨_, rfl, JsonText.litTrue⟩
    · split at h
      · rename_i hf
        simp only [beq_iff_eq] at hf
        cases hm : matchLit ['a', 'l', 's', 'e'] r with
        | none => simp [hm] at h
        | some r2 =>
          simp only [hm, Option.map_some', Option.some.injEq, Prod.mk.injEq] at h
          rw [← h.2, hf, matchLit_sound _ _ _ hm]
          exact ⟨_, rfl, JsonText.litFalse⟩
      · split at h
        · rename_i hn
          simp only [beq_iff_eq] at hn
          cases hm : matchLit ['u', 'l', 'l'] r with
          | none => simp [hm] at h
          | some r2 =>
            simp only [hm, Option.map_some', Option.some.injEq, Prod.mk.injEq] at h
            rw [← h.2, hn, matchLit_sound _ _ _ hm]
            exact ⟨_, rfl, JsonText.litNull⟩
        · split at h
          · cases hm : scanNum (c :: r) with
            | none => simp [hm] at h
            | some p =>
              obtain ⟨raw, r2⟩ := p
              simp only [hm, Option.map_some', Option.some.injEq, Prod.mk.injEq] at h
              obtain ⟨n1, n2⟩ := scanNum_sound _ _ _ hm
              rw [← h.2]
              exact ⟨raw, n1, JsonText.number raw n2⟩
          · cases h

theorem blank_append (w1 w2 : List Char) (h1 : blank w1 = true) (h2 : blank w2 = true) :
    blank (w1 ++ w2) = true := by
  simp only [blank, List.all_append, Bool.and_eq_true] at h1 h2 ⊢
  exact ⟨h1, h2⟩

theorem elementsText_blank (w b : List Char) (hw : blank w = true) (hb : ElementsText b) :
    ElementsText (w ++ b) := by
  cases hb with
  | one w1 v w2 h1 hv h2 =>
    rw [← List.append_assoc]
    exact ElementsText.one (w ++ w1) v w2 (blank_append w w1 hw h1) hv h2
  | more w1 v w2 rest h1 hv h2 hrest =>
    rw [← List.append_assoc]
    exact ElementsText.more (w ++ w1) v w2 rest (blank_append w w1 hw h1) hv h2 hrest

theorem membersText_blank (w b : List Char) (hw : blank w = true) (hb : MembersText b) :
    MembersText (w ++ b) := by
  cases hb with
  | one w1 k w2 w3 v w4 h1 hk h2 h3 hv h4 =>
    rw [← List.append_assoc]
    exact MembersText.one (w ++ w1) k w2 w3 v w4 (blank_append w w1 hw h1) hk h2 h3 hv h4
  | more w1 k w2 w3 v w4 rest h1 hk h2 h3 hv h4 hrest =>
    rw [← List.append_assoc]
    exact MembersText.more (w ++ w1) k w2 w3 v w4 rest (blank_append w w1 hw h1) hk h2 h3 hv h4
      hrest

/-- What the parser accepts is JSON: a value it reads is, after leading
whitespace, a text of the grammar, and the input it returns is what follows
that text. -/
theorem parse_sound : ∀ fuel : Nat,
    (∀ d cs v r, parseValue fuel d cs = some (v, r) →
      ∃ w t, cs = w ++ (t ++ r) ∧ blank w = true ∧ JsonText t) ∧
    (∀ d acc cs v r, parseElems fuel d acc cs = some (v, r) →
      ∃ b, cs = b ++ ']' :: r ∧ ElementsText b) ∧
    (∀ d acc cs v r, parseMembers fuel d acc cs = some (v, r) →
      ∃ b, cs = b ++ '\x7d' :: r ∧ MembersText b) := by
  intro fuel
  induction fuel with
  | zero =>
    refine ⟨?_, ?_, ?_⟩
    · intro d cs v r h
      simp [parseValue] at h
    · intro d acc cs v r h
      simp [parseElems] at h
    · intro d acc cs v r h
      simp [parseMembers] at h
  | succ fuel ih =>
    obtain ⟨ihV, ihE, ihM⟩ := ih
    refine ⟨?_, ?_, ?_⟩
    · intro d cs v r h
      simp only [parseValue] at h
      split at h
      · cases h
      · rename_i c r0 hsk
        obtain ⟨w, hw, hwb⟩ := skipSpace_split cs c r0 hsk
        split at h
        · rename_i hc
          simp only [beq_iff_eq] at hc
          subst hc
          split at h
          · split at h
            · cases h
            · rename_i c1 r1 hsk1
              obtain ⟨w1, hw1, hwb1⟩ := skipSpace_split r0 c1 r1 hsk1
              split at h
              · rename_i hc1
                simp only [beq_iff_eq] at hc1
                subst hc1
                cases h
                exact ⟨w, '\x7b' :: (w1 ++ ['\x7d']), by rw [hw, hw1]; simp, hwb,
                  JsonText.emptyObject w1 hwb1⟩
              · obtain ⟨b, hb, hmb⟩ := ihM _ _ _ _ _ h
                exact ⟨w, '\x7b' :: ((w1 ++ b) ++ ['\x7d']), by rw [hw, hw1, hb]; simp, hwb,
                  JsonText.object _ (membersText_blank w1 b hwb1 hmb)⟩
          · cases h
        · rename_i hc
          split at h
          · rename_i hb
            simp only [beq_iff_eq] at hb
            subst hb
            split at h
            · split at h
              · cases h
              · rename_i c1 r1 hsk1
                obtain ⟨w1, hw1, hwb1⟩ := skipSpace_split r0 c1 r1 hsk1
                split at h
                · rename_i hc1
                  simp only [beq_iff_eq] at hc1
                  subst hc1
                  cases h
                  exact ⟨w, '[' :: (w1 ++ [']']), by rw [hw, hw1]; simp, hwb,
                    JsonText.emptyArray w1 hwb1⟩
                · obtain ⟨b, hb, hmb⟩ := ihE _ _ _ _ _ h
                  exact ⟨w, '[' :: ((w1 ++ b) ++ [']']), by rw [hw, hw1, hb]; simp, hwb,
                    JsonText.array _ (elementsText_blank w1 b hwb1 hmb)⟩
            · cases h
          · obtain ⟨t, ht, hjt⟩ := parseScalar_sound c r0 v r h
            exact ⟨w, t, by rw [hw, ht], hwb, hjt⟩
    · intro d acc cs v r h
      simp only [parseElems] at h
      split at h
      · cases h
      · rename_i v1 r1 hv
        obtain ⟨w, t, hcs, hwb, hjt⟩ := ihV _ _ _ _ hv
        split at h
        · cases h
        · rename_i c r2 hsk
          obtain ⟨w2, hw2, hwb2⟩ := skipSpace_split r1 c r2 hsk
          split at h
          · rename_i hc
            simp only [beq_iff_eq] at hc
            subst hc
            obtain ⟨b, hb, heb⟩ := ihE _ _ _ _ _ h
            exact ⟨w ++ (t ++ (w2 ++ ',' :: b)), by rw [hcs, hw2, hb]; simp,
              ElementsText.more w t w2 b hwb hjt hwb2 heb⟩
          · split at h
            · rename_i hc2
              simp only [beq_iff_eq] at hc2
              subst hc2
              cases h
              exact ⟨w ++ (t ++ w2), by rw [hcs, hw2]; simp, ElementsText.one w t w2 hwb hjt hwb2⟩
            · cases h
    · intro d acc cs v r h
      simp only [parseMembers] at h
      split at h
      · cases h
      · rename_i q r0 hsk
        obtain ⟨w1, hw1, hwb1⟩ := skipSpace_split cs q r0 hsk
        split at h
        · rename_i hq
          simp only [beq_iff_eq] at hq
          subst hq
          split at h
          · cases h
          · rename_i raw key r1 hs
            obtain ⟨k, hk, hsb⟩ := scanStr_sound _ _ _ _ _ _ _ hs
            split at h
            · cases h
            · rename_i c r2 hsk1
              obtain ⟨w2, hw2, hwb2⟩ := skipSpace_split r1 c r2 hsk1
              split at h
              · rename_i hc
                simp only [beq_iff_eq] at hc
                subst hc
                split at h
                · cases h
                · rename_i v1 r3 hv
                  obtain ⟨w3, t, hr2, hwb3, hjt⟩ := ihV _ _ _ _ hv
                  split at h
                  · cases h
                  · rename_i c3 r4 hsk3
                    obtain ⟨w4, hw4, hwb4⟩ := skipSpace_split r3 c3 r4 hsk3
                    split at h
                    · rename_i hc3
                      simp only [beq_iff_eq] at hc3
                      subst hc3
                      obtain ⟨b, hb, hmb⟩ := ihM _ _ _ _ _ h
                      exact ⟨_, by rw [hw1, hk, hw2, hr2, hw4, hb]; simp,
                        MembersText.more w1 k w2 w3 t w4 b hwb1 hsb hwb2 hwb3 hjt hwb4 hmb⟩
                    · split at h
                      · rename_i hc4
                        simp only [beq_iff_eq] at hc4
                        subst hc4
                        cases h
                        exact ⟨_, by rw [hw1, hk, hw2, hr2, hw4]; simp,
                          MembersText.one w1 k w2 w3 t w4 hwb1 hsb hwb2 hwb3 hjt hwb4⟩
                      · cases h
              · cases h
        · cases h

/-- Output that does not begin with a JSON value is rejected by the decode
step. -/
theorem jsonDecode_noJsonAtHead (stdout : String) (h : noJsonAtHead stdout) :
    ∃ e, jsonDecode stdout = .error e := by
  unfold jsonDecode
  cases hsk : skipSpace stdout.data with
  | nil => exact ⟨_, rfl⟩
  | cons c r =>
    simp only
    cases hp : parseValue (2 * (c :: r).length + 2) 0 (c :: r) with
    | none => exact ⟨_, rfl⟩
    | some p =>
      exfalso
      obtain ⟨v, rest⟩ := p
      obtain ⟨w0, hw0, hwb0⟩ := skipSpace_split _ c r hsk
      obtain ⟨w, t, hcs, hwb, hjt⟩ := (parse_sound _).1 _ _ _ _ hp
      exact h ⟨w0 ++ w, t, rest, by rw [hw0, hcs]; simp, blank_append w0 w hwb0 hwb, hjt⟩

/-! ## How a JSON value begins and ends -/

theorem getLast?_append_cons (xs : List Char) (c : Char) (ys : List Char) :
    (xs ++ c :: ys).getLast? = (c :: ys).getLast? := by
  rw [List.getLast?_append]
  cases h : (c :: ys).getLast? with
  | none => simp at h
  | some x => simp

theorem digitRun_last (ds : List Char) (h : digitRun ds = true) :
    ∃ c, ds.getLast? = some c ∧ closingChar c = true := by
  simp only [digitRun, Bool.and_eq_true, Bool.not_eq_true', List.isEmpty_eq_false,
    List.all_eq_true] at h
  obtain ⟨hne, hall⟩ := h
  refine ⟨ds.getLast (by simpa using hne), List.getLast?_eq_getLast _ _, ?_⟩
  have := hall _ (List.getLast_mem (by simpa using hne))
  simp only [closingChar, Bool.or_eq_true]
  exact Or.inr (by simpa using this)

theorem last_append (xs ys : List Char) (c : Char) (h : ys.getLast? = some c) :
    (xs ++ ys).getLast? = some c := by
  cases ys with
  | nil => simp at h
  | cons y ys => rw [getLast?_append_cons, h]

theorem numberText_last (n : List Char) (h : NumberText n) :
    ∃ c, n.getLast? = some c ∧ closingChar c = true := by
  obtain ⟨sign, int, frac, exp, rfl, -, hint, hfrac, hexp⟩ := h
  have hi : ∃ c, int.getLast? = some c ∧ closingChar c = true := by
    rcases hint with rfl | ⟨h1, -⟩
    · exact ⟨'0', rfl, by decide⟩
    · exact digitRun_last int h1
  rcases hexp with rfl | ⟨e, sg, ds, rfl, -, -, hds⟩
  · rcases hfrac with rfl | ⟨ds, rfl, hds⟩
    · obtain ⟨c, hc, hcl⟩ := hi
      exact ⟨c, by simpa using last_append sign int c hc, hcl⟩
    · obtain ⟨c, hc, hcl⟩ := digitRun_last ds hds
      refine ⟨c, ?_, hcl⟩
      rw [List.append_nil]
      exact last_append _ _ c (last_append _ _ c (last_append ['.'] ds c hc))
  · obtain ⟨c, hc, hcl⟩ := digitRun_last ds hds
    refine ⟨c, ?_, hcl⟩
    exact last_append _ _ c (last_append _ _ c (last_append _ _ c
      (last_append [e] _ c (last_append sg ds c hc))))

/-- A JSON value ends with a closing brace or bracket, a quote, a digit, or
the last letter of `true`, `false` or `null`. -/
theorem jsonText_last (t : List Char) (h : JsonText t) :
    ∃ c, t.getLast? = some c ∧ closingChar c = true := by
  cases h with
  | string s hs => exact ⟨'"', by simpa using last_append ('"' :: s) ['"'] '"' rfl, by decide⟩
  | number n hn => exact numberText_last t hn
  | litTrue => exact ⟨'e', rfl, by decide⟩
  | litFalse => exact ⟨'e', rfl, by decide⟩
  | litNull => exact ⟨'l', rfl, by decide⟩
  | emptyArray w hw => exact ⟨']', by simpa using last_append ('[' :: w) [']'] ']' rfl, by decide⟩
  | array b hb => exact ⟨']', by simpa using last_append ('[' :: b) [']'] ']' rfl, by decide⟩
  | emptyObject w hw =>
    exact ⟨'\x7d', by simpa using last_append ('\x7b' :: w) ['\x7d'] '\x7d' rfl, by decide⟩
  | object b hb =>
    exact ⟨'\x7d', by simpa using last_append ('\x7b' :: b) ['\x7d'] '\x7d' rfl, by decide⟩

/-- A text whose last character is neither whitespace nor one a JSON value
ends with is not a JSON document. -/
theorem not_jsonDocument (stdout : String) (h : endsNoDocument stdout = true) :
    ¬ jsonDocument stdout.data := by
  rintro ⟨w1, t, w2, hs, -, hw2, ht⟩
  obtain ⟨c, hc, hcl⟩ := jsonText_last t ht
  unfold endsNoDocument at h
  rw [hs] at h
  cases w2 with
  | nil =>
    rw [List.append_nil, last_append w1 t c hc] at h
    simp [hcl] at h
  | cons x xs =>
    have hx : ∃ y, (x :: xs).getLast? = some y ∧ blankChar y = true := by
      refine ⟨(x :: xs).getLast (by simp), List.getLast?_eq_getLast _ _, ?_⟩
      exact List.all_eq_true.1 hw2 _ (List.getLast_mem _)
    obtain ⟨y, hy, hyb⟩ := hx
    rw [last_append w1 _ y (last_append t _ y hy)] at h
    simp [hyb] at h

theorem digitRun_head (ds : List Char) (h : digitRun ds = true) :
    ∃ c r, ds = c :: r ∧ openingChar c = true := by
  cases ds with
  | nil => simp [digitRun] at h
  | cons c r =>
    simp only [digitRun, List.isEmpty_cons, Bool.not_false, List.all_cons, Bool.true_and,
      Bool.and_eq_true] at h
    refine ⟨c, r, rfl, ?_⟩
    simp only [openingChar, Bool.or_eq_true, Bool.and_eq_true]
    exact Or.inr h.1

theorem numberText_head (n : List Char) (h : NumberText n) :
    ∃ c r, n = c :: r ∧ openingChar c = true := by
  obtain ⟨sign, int, frac, exp, rfl, hsign, hint, -, -⟩ := h
  rcases hsign with rfl | rfl
  · rcases hint with rfl | ⟨h1, -⟩
    · exact ⟨'0', _, rfl, by decide⟩
    · obtain ⟨c, r, rfl, hc⟩ := digitRun_head int h1
      exact ⟨c, _, rfl, hc⟩
  · exact ⟨'-', _, rfl, by decide⟩

/-- A JSON value begins with a brace, a bracket, a quote, a minus sign, a
digit, or the first letter of `true`, `false` or `null`. -/
theorem jsonText_head (t : List Char) (h : JsonText t) :
    ∃ c r, t = c :: r ∧ openingChar c = true := by
  cases h with
  | string s hs => exact ⟨'"', _, rfl, by decide⟩
  | number n hn => exact numberText_head t hn
  | litTrue => exact ⟨'t', _, rfl, by decide⟩
  | litFalse => exact ⟨'f', _, rfl, by decide⟩
  | litNull => exact ⟨'n', _, rfl, by decide⟩
  | emptyArray w hw => exact ⟨'[', _, rfl, by decide⟩
  | array b hb => exact ⟨'[', _, rfl, by decide⟩
  | emptyObject w hw => exact ⟨'\x7b', _, rfl, by decide⟩
  | object b hb => exact ⟨'\x7b', _, rfl, by decide⟩

theorem dropWhile_blank (w : List Char) (c : Char) (x : List Char) (hw : blank w = true)
    (hc : blankChar c = false) : (w ++ c :: x).dropWhile blankChar = c :: x := by
  induction w with
  | nil => simp [hc]
  | cons y ys ih =>
    simp only [blank, List.all_cons, Bool.and_eq_true] at hw
    simp only [List.cons_append, List.dropWhile_cons, hw.1, if_true]
    exact ih hw.2

theorem blankChar_of_opening : ∀ c, openingChar c = true → blankChar c = false := by
  intro c hc
  cases hb : blankChar c with
  | false => rfl
  | true =>
    simp only [blankChar, Bool.or_eq_true, beq_iff_eq] at hb
    rcases hb with ((rfl | rfl) | rfl) | rfl <;> simp [openingChar] at hc

/-- Output that holds no JSON at all does not begin with a JSON value. -/
theorem noJsonAtHead_of_start (stdout : String) (h : startsNoValue stdout = true) :
    noJsonAtHead stdout := by
  rintro ⟨w, t, rest, hs, hw, ht⟩
  obtain ⟨c, r, rfl, hc⟩ := jsonText_head t ht
  unfold startsNoValue firstChar at h
  rw [hs, List.cons_append, dropWhile_blank w c _ hw (blankChar_of_opening c hc)] at h
  simp [hc] at h

/-! ## The claims -/

/-- C1. For every module path and every content of standard error, when the
sandbox was set up (the tool ran, with command `cmd`) and the tool exited zero
with a well-formed record on standard output, `List` returns a nil error, a
`RevInfo` holding exactly the record's version and time, and the record's list
of versions in the same order and with the same repetitions (a nil list, the
empty sequence, when the record has no `Versions` member). A well-formed
record is the text the tool prints for a path, a version, a list of versions
(or none) and a time: an object with the members `Path`, `Version`, `Versions`
and `Time`, its strings written as the encoder writes them, its time as an
RFC 3339 timestamp, and any whitespace between its tokens. -/
theorem list_returns_printed_record (l : vcsLister) (pkg : Pkg) (w : World) (ctx : Context)
    (module : String) (fs : FS) (cmd : Cmd) (gaps : List (List Char)) (path version : String)
    (vs : Option (List (List Char × String × List Char))) (t : Time) (k : Nat)
    (hran : Event.run cmd ∈ (l.List pkg w ctx module ⟨fs, []⟩).2.trace)
    (hexit : (w.run cmd).err = none)
    (hlayout : blankLayout gaps vs = true) (htime : wellFormedTime t k = true)
    (hout : (w.run cmd).stdout = recordText gaps path version vs t k) :
    (l.List pkg w ctx module ⟨fs, []⟩).1.err = none ∧
    (l.List pkg w ctx module ⟨fs, []⟩).1.rev = some ⟨version, t⟩ ∧
    (l.List pkg w ctx module ⟨fs, []⟩).1.versions = versionsOf vs ∧
    elems (l.List pkg w ctx module ⟨fs, []⟩).1.versions =
      (vs.getD []).map (fun e => e.2.1) := by
  have hdec := jsonDecode_recordText gaps path version vs t k hlayout htime
  rw [← hout] at hdec
  rw [run_inv l pkg w ctx module fs cmd hran]
  simp only [listResult, hexit, hdec, true_and]
  cases vs <;> rfl

/-- C1 at the record as the tool prints it, indented, with a list of versions
that is unsorted and holds a repetition, and a warning on standard error; and
at the example of the specification, a record without a `Versions` member. -/
theorem list_returns_printed_record_witness :
    Event.run (listCmd sampleLister samplePkg "m" "" "/tmp/go-list1" "/tmp/athens1") ∈
      (sampleLister.List samplePkg (sampleWorld ⟨none, printedStdout, "go: warning", []⟩)
        sampleCtx "m" ⟨[], []⟩).2.trace ∧
    printedStdout =
      recordText printedLayout "m" "v1.2.0" printedVersions ⟨2023, 1, 1, 0, 0, 0, 0, 0⟩ 0 ∧
    ((sampleLister.List samplePkg (sampleWorld ⟨none, printedStdout, "go: warning", []⟩)
        sampleCtx "m" ⟨[], []⟩).1.err = none ∧
      (sampleLister.List samplePkg (sampleWorld ⟨none, printedStdout, "go: warning", []⟩)
        sampleCtx "m" ⟨[], []⟩).1.rev = some ⟨"v1.2.0", ⟨2023, 1, 1, 0, 0, 0, 0, 0⟩⟩ ∧
      (sampleLister.List samplePkg (sampleWorld ⟨none, printedStdout, "go: warning", []⟩)
        sampleCtx "m" ⟨[], []⟩).1.versions =
        some ["v1.0.0", "v1.2.0", "v1.1.0", "v1.0.0"] ∧
      elems (sampleLister.List samplePkg (sampleWorld ⟨none, printedStdout, "go: warning", []⟩)
        sampleCtx "m" ⟨[], []⟩).1.versions = ["v1.0.0", "v1.2.0", "v1.1.0", "v1.0.0"]) ∧
    sampleStdout = recordText [] "m" "v1.2.0" none ⟨2023, 1, 1, 0, 0, 0, 0, 0⟩ 0 ∧
    ((sampleLister.List samplePkg (sampleWorld ⟨none, sampleStdout, "go: warning", []⟩)
        sampleCtx "m" ⟨[], []⟩).1.err = none ∧
      (sampleLister.List samplePkg (sampleWorld ⟨none, sampleStdout, "go: warning", []⟩)
        sampleCtx "m" ⟨[], []⟩).1.rev = some ⟨"v1.2.0", ⟨2023, 1, 1, 0, 0, 0, 0, 0⟩⟩ ∧
      (sampleLister.List samplePkg (sampleWorld ⟨none, sampleStdout, "go: warning", []⟩)
        sampleCtx "m" ⟨[], []⟩).1.versions = none ∧
      elems (sampleLister.List samplePkg (sampleWorld ⟨none, sampleStdout, "go: warning", []⟩)
        sampleCtx "m" ⟨[], []⟩).1.versions = []) :=
  ⟨by decide, by decide,
    list_returns_printed_record sampleLister samplePkg
      (sampleWorld ⟨none, printedStdout, "go: warning", []⟩) sampleCtx "m" []
      (listCmd sampleLister samplePkg "m" "" "/tmp/go-list1" "/tmp/athens1")
      printedLayout "m" "v1.2.0" printedVersions ⟨2023, 1, 1, 0, 0, 0, 0, 0⟩ 0
      (by decide) rfl (by decide) (by decide) (by decide),
    by decide,
    list_returns_printed_record sampleLister samplePkg
      (sampleWorld ⟨none, sampleStdout, "go: warning", []⟩) sampleCtx "m" []
      (listCmd sampleLister samplePkg "m" "" "/tmp/go-list1" "/tmp/athens1")
      [] "m" "v1.2.0" none ⟨2023, 1, 1, 0, 0, 0, 0, 0⟩ 0
      (by decide) rfl (by decide) (by decide) (by decide)⟩

/-- C2. For every module path: when the sandbox was set up (the tool ran, with
command `cmd`) and `cmd.Run()` returned the error `e`, `List` returns a nil
`RevInfo`, a nil version list and an error of kind NotFound whose text is the
text of `e`, a colon and the captured standard error, whatever standard output
holds. -/
theorem list_tool_failure_is_not_found (l : vcsLister) (pkg : Pkg) (w : World) (ctx : Context)
    (module : String) (fs : FS) (cmd : Cmd) (e : String)
    (hran : Event.run cmd ∈ (l.List pkg w ctx module ⟨fs, []⟩).2.trace)
    (hexit : (w.run cmd).err = some e) :
    (l.List pkg w ctx module ⟨fs, []⟩).1.rev = none ∧
    (l.List pkg w ctx module ⟨fs, []⟩).1.versions = none ∧
    ∃ err, (l.List pkg w ctx module ⟨fs, []⟩).1.err = some err ∧
      errorsKind err = KindNotFound ∧ err.Error = e ++ ": " ++ (w.run cmd).stderr := by
  rw [run_inv l pkg w ctx module fs cmd hran]
  simp [listResult, hexit, ListResult.fail, errorsEKind, errorsKind, KindNotFound,
    GoError.Error]

/-- C2 at a run that exits with status 1 although standard output holds a
well-formed record. -/
theorem list_tool_failure_is_not_found_witness :
    Event.run (listCmd sampleLister samplePkg "m" "" "/tmp/go-list1" "/tmp/athens1") ∈
      (sampleLister.List samplePkg
        (sampleWorld ⟨some "exit status 1", sampleStdout, "go: module m: not found", []⟩)
        sampleCtx "m" ⟨[], []⟩).2.trace ∧
    (sampleLister.List samplePkg
        (sampleWorld ⟨some "exit status 1", sampleStdout, "go: module m: not found", []⟩)
        sampleCtx "m" ⟨[], []⟩).1.rev = none ∧
    (sampleLister.List samplePkg
        (sampleWorld ⟨some "exit status 1", sampleStdout, "go: module m: not found", []⟩)
        sampleCtx "m" ⟨[], []⟩).1.versions = none ∧
    ∃ err, (sampleLister.List samplePkg
        (sampleWorld ⟨some "exit status 1", sampleStdout, "go: module m: not found", []⟩)
        sampleCtx "m" ⟨[], []⟩).1.err = some err ∧
      errorsKind err = KindNotFound ∧
      err.Error = "exit status 1" ++ ": " ++ "go: module m: not found" :=
  ⟨by decide,
    list_tool_failure_is_not_found sampleLister samplePkg
      (sampleWorld ⟨some "exit status 1", sampleStdout, "go: module m: not found", []⟩)
      sampleCtx "m" []
      (listCmd sampleLister samplePkg "m" "" "/tmp/go-list1" "/tmp/athens1")
      "exit status 1" (by decide) rfl⟩

/-- C3, as stated, fails: the sample record followed by text that is not JSON
is not a JSON document, and the tool exits zero; yet `List` returns the record
with a nil error, not an Internal failure. -/
theorem malformed_output_counterexample :
    ¬ jsonDocument garbledStdout.data ∧
    (printingRun garbledStdout).err = none ∧
    Event.run (listCmd sampleLister samplePkg "m" "" "/tmp/go-list1" "/tmp/athens1") ∈
      (sampleLister.List samplePkg (sampleWorld (printingRun garbledStdout))
        sampleCtx "m" ⟨[], []⟩).2.trace ∧
    (sampleLister.List samplePkg (sampleWorld (printingRun garbledStdout))
        sampleCtx "m" ⟨[], []⟩).1 =
      ⟨some ⟨"v1.2.0", ⟨2023, 1, 1, 0, 0, 0, 0, 0⟩⟩, none, none⟩ ∧
    ¬ internalFailure (sampleLister.List samplePkg (sampleWorld (printingRun garbledStdout))
        sampleCtx "m" ⟨[], []⟩).1 :=
  ⟨not_jsonDocument garbledStdout (by decide), rfl, by decide, by decide,
    fun h => absurd h.1 (by decide)⟩

/-- C3, amended. For every input, when the tool ran and exited zero, `List`
returns a nil `RevInfo`, a nil version list and an error of kind Internal,
which is not NotFound, in each of these cases: standard output does not begin
with a JSON value (it is empty, is no JSON at all, or is JSON that is
malformed or cut short before its first value is complete); the first
character of standard output after its whitespace is neither an opening brace
nor the `n` of `null` (so that it begins with an array, a string, a number,
`true` or `false`, if with a value at all); standard output is a record cut
short anywhere before its closing brace. What follows the first complete value
on standard output plays no part. -/
theorem list_rejects_output_without_record (l : vcsLister) (pkg : Pkg) (w : World)
    (ctx : Context) (module : String) (fs : FS) (cmd : Cmd)
    (hran : Event.run cmd ∈ (l.List pkg w ctx module ⟨fs, []⟩).2.trace)
    (hexit : (w.run cmd).err = none) :
    (noJsonAtHead (w.run cmd).stdout →
      internalFailure (l.List pkg w ctx module ⟨fs, []⟩).1) ∧
    (startsNoRecord (w.run cmd).stdout = true →
      internalFailure (l.List pkg w ctx module ⟨fs, []⟩).1) ∧
    (∀ gaps path version vs t k, blankLayout gaps vs = true →
      cutShort (w.run cmd).stdout gaps path version vs t k →
      internalFailure (l.List pkg w ctx module ⟨fs, []⟩).1) := by
  have hrej : (∃ e, jsonDecode (w.run cmd).stdout = .error e) →
      internalFailure (l.List pkg w ctx module ⟨fs, []⟩).1 := by
    rintro ⟨e, hdec⟩
    rw [run_inv l pkg w ctx module fs cmd hran]
    simp [internalFailure, listResult, hexit, hdec, ListResult.fail, errorsE, errorsKind,
      KindNotFound, KindUnexpected]
  exact ⟨fun h => hrej (jsonDecode_noJsonAtHead _ h),
    fun h => hrej (jsonDecode_startsNoRecord _ h),
    fun gaps path version vs t k hl hcut =>
      hrej (jsonDecode_cutShort _ gaps path version vs t k hl hcut)⟩

/-- C3, amended, at output that is no JSON at all, at output that is a JSON
array, and at the printed record cut short in the middle of its list of
versions. -/
theorem list_rejects_output_without_record_witness :
    noJsonAtHead "go: finding module" ∧
    internalFailure (sampleLister.List samplePkg
      (sampleWorld (printingRun "go: finding module")) anonymousCtx "m" ⟨[], []⟩).1 ∧
    startsNoRecord "[\"v1.0.0\", \"v1.2.0\"]" = true ∧
    internalFailure (sampleLister.List samplePkg
      (sampleWorld (printingRun "[\"v1.0.0\", \"v1.2.0\"]")) anonymousCtx "m" ⟨[], []⟩).1 ∧
    cutShort truncatedStdout printedLayout "m" "v1.2.0" printedVersions
      ⟨2023, 1, 1, 0, 0, 0, 0, 0⟩ 0 ∧
    internalFailure (sampleLister.List samplePkg (sampleWorld (printingRun truncatedStdout))
      anonymousCtx "m" ⟨[], []⟩).1 :=
  ⟨noJsonAtHead_of_start _ (by decide),
    (list_rejects_output_without_record sampleLister samplePkg
      (sampleWorld (printingRun "go: finding module")) anonymousCtx "m" []
      (listCmd sampleLister samplePkg "m" "" "/tmp/go-list1" "/tmp/athens1")
      (by decide) rfl).1 (noJsonAtHead_of_start _ (by decide)),
    by decide,
    (list_rejects_output_without_record sampleLister samplePkg
      (sampleWorld (printingRun "[\"v1.0.0\", \"v1.2.0\"]")) anonymousCtx "m" []
      (listCmd sampleLister samplePkg "m" "" "/tmp/go-list1" "/tmp/athens1")
      (by decide) rfl).2.1 (by decide),
    List.isPrefixOf_iff_prefix.1 (by decide),
    (list_rejects_output_without_record sampleLister samplePkg
      (sampleWorld (printingRun truncatedStdout)) anonymousCtx "m" []
      (listCmd sampleLister samplePkg "m" "" "/tmp/go-list1" "/tmp/athens1")
      (by decide) rfl).2.2 printedLayout "m" "v1.2.0" printedVersions
      ⟨2023, 1, 1, 0, 0, 0, 0, 0⟩ 0 (by decide) (List.isPrefixOf_iff_prefix.1 (by decide))⟩

/-- C5. For every module path on which `List` takes the credential branch, the
host token handed to the credential materializer is `hostToken module`, the
part of the module path before its first `/`: it holds no `/`, it is a prefix
of the module path, and the module path is the token itself (and has no `/`)
or the token, a `/` and a rest. -/
theorem list_host_token_is_first_segment (l : vcsLister) (pkg : Pkg) (w : World)
    (ctx : Context) (module : String) (fs : FS) (creds : BasicAuth)
    (hc : ctx.auth = some creds) (hp : l.shouldPropAuth pkg module = true) :
    (∃ dir, Event.writeTemporaryNETRC (hostToken module) creds.User creds.Password dir ∈
      (l.List pkg w ctx module ⟨fs, []⟩).2.trace) ∧
    (∀ host user password dir, Event.writeTemporaryNETRC host user password dir ∈
      (l.List pkg w ctx module ⟨fs, []⟩).2.trace → host = hostToken module) ∧
    '/' ∉ (hostToken module).data ∧ (hostToken module).data <+: module.data ∧
    ((module = hostToken module ∧ '/' ∉ module.data) ∨
      ∃ rest, module = hostToken module ++ "/" ++ rest) := by
  refine ⟨?_, ?_, hostToken_spec module⟩
  · have h := list_run l pkg w ctx module fs
    have hg : gated l pkg ctx module = true := (gated_iff l pkg ctx module).2 ⟨⟨creds, hc⟩, hp⟩
    generalize l.List pkg w ctx module ⟨fs, []⟩ = out at h
    cases h <;> simp_all
  · have h := list_run l pkg w ctx module fs
    generalize l.List pkg w ctx module ⟨fs, []⟩ = out at h
    cases h <;> simp <;> intros <;> simp_all

/-- C5, the example of the specification: for `example.org/foo/bar` the
materializer is called with the host token `example.org`. -/
theorem list_host_token_is_first_segment_witness :
    sampleLister.shouldPropAuth samplePkg "example.org/foo/bar" = true ∧
    hostToken "example.org/foo/bar" = "example.org" ∧
    (∃ dir, Event.writeTemporaryNETRC "example.org" "user" "secret" dir ∈
      (sampleLister.List samplePkg (sampleWorld ⟨none, sampleStdout, "", []⟩) sampleCtx
        "example.org/foo/bar" ⟨[], []⟩).2.trace) :=
  ⟨by decide, by decide,
    (list_host_token_is_first_segment sampleLister samplePkg
      (sampleWorld ⟨none, sampleStdout, "", []⟩) sampleCtx "example.org/foo/bar" []
      ⟨"user", "secret"⟩ rfl (by decide)).1⟩

/-- C7. For every input: if materializing the credential file fails, or
creating the working directory or the module-cache directory fails, `List`
returns a nil `RevInfo`, a nil version list and an error of kind Internal, and
the external tool is not invoked in that call. -/
theorem list_setup_failure_is_internal (l : vcsLister) (pkg : Pkg) (w : World)
    (ctx : Context) (module : String) (fs : FS)
    (hfail : setupFailed (l.List pkg w ctx module ⟨fs, []⟩).2.trace) :
    (l.List pkg w ctx module ⟨fs, []⟩).1.rev = none ∧
    (l.List pkg w ctx module ⟨fs, []⟩).1.versions = none ∧
    (∃ err, (l.List pkg w ctx module ⟨fs, []⟩).1.err = some err ∧
      errorsKind err = KindUnexpected) ∧
    ∀ cmd, Event.run cmd ∉ (l.List pkg w ctx module ⟨fs, []⟩).2.trace := by
  have h := list_run l pkg w ctx module fs
  generalize l.List pkg w ctx module ⟨fs, []⟩ = out at h hfail
  cases h <;>
    simp [setupFailed, ListResult.fail, errorsE, errorsKind, KindUnexpected] at hfail ⊢

/-- C7 where the module-cache directory cannot be created, after the
credential file and the working directory were. -/
theorem list_setup_failure_is_internal_witness :
    setupFailed (sampleLister.List samplePkg
      (brokenWorld ["athens"] ⟨none, sampleStdout, "", []⟩) sampleCtx
      "example.org/foo/bar" ⟨[], []⟩).2.trace ∧
    (sampleLister.List samplePkg
      (brokenWorld ["athens"] ⟨none, sampleStdout, "", []⟩) sampleCtx
      "example.org/foo/bar" ⟨[], []⟩).1 =
      ListResult.fail (errorsE op (GoError.plain "mkdir: no space left on device")) ∧
    ∀ cmd, Event.run cmd ∉ (sampleLister.List samplePkg
      (brokenWorld ["athens"] ⟨none, sampleStdout, "", []⟩) sampleCtx
      "example.org/foo/bar" ⟨[], []⟩).2.trace :=
  ⟨Or.inl ⟨"athens", by decide⟩, by decide,
    (list_setup_failure_is_internal sampleLister samplePkg
      (brokenWorld ["athens"] ⟨none, sampleStdout, "", []⟩) sampleCtx
      "example.org/foo/bar" [] (Or.inl ⟨"athens", by decide⟩)).2.2.2⟩

/-- C6. With the filesystem as explicit state, on every exit path of `List`:
every directory created for the call (credential directory, working directory,
module-cache directory) and everything below it is gone when the call returns;
and when those directories were new (nothing at or below them existed before
the call) and the tool wrote only at or below them, the paths present after
the call are exactly the paths present before it. -/
theorem list_leaves_no_temporaries (l : vcsLister) (pkg : Pkg) (w : World)
    (ctx : Context) (module : String) (fs : FS) :
    (∀ d, created (l.List pkg w ctx module ⟨fs, []⟩).2.trace d → d ≠ "" →
      ∀ q ∈ (l.List pkg w ctx module ⟨fs, []⟩).2.fs, under d q = false) ∧
    ((∀ d, created (l.List pkg w ctx module ⟨fs, []⟩).2.trace d →
        d ≠ "" ∧ ∀ q ∈ fs, under d q = false) →
      (∀ cmd q, Event.run cmd ∈ (l.List pkg w ctx module ⟨fs, []⟩).2.trace →
        q ∈ (w.run cmd).writes →
        ∃ d, created (l.List pkg w ctx module ⟨fs, []⟩).2.trace d ∧ under d q = true) →
      (l.List pkg w ctx module ⟨fs, []⟩).2.fs = fs) := by
  have h := list_run l pkg w ctx module fs
  generalize l.List pkg w ctx module ⟨fs, []⟩ = out at h
  constructor
  · intro d hc hd q hq
    cases h <;> simp only [created_iff] at hc <;> simp at hc <;>
      (try rcases hc with rfl | rfl | rfl) <;>
      first
        | exact not_under_of_mem_removeAll hd hq
        | exact not_under_of_mem_removeAll hd (mem_removeAll hq)
        | exact not_under_of_mem_removeAll hd (mem_removeAll (mem_removeAll hq))
  · intro hfresh hconf
    cases h
    · rfl
    · rename_i tmpDir e hg
      simp only [created_iff] at hfresh
      refine cleanup_restores [tmpDir] [tmpDir] fs ?_ ?_ ?_
      · intro d hd
        exact (hfresh d (by simp at hd; simp [hd])).1
      · intro q hq
        simp at hq
        exact ⟨tmpDir, by simp, by rw [hq]; exact under_self _⟩
      · intro q hq d hd
        exact (hfresh d (by simp at hd; simp [hd])).2 q hq
    · rename_i tmpDir gopath hg
      simp only [created_iff] at hfresh hconf
      have key := cleanup_restores [tmpDir, gopath]
        ((w.run (listCmd l pkg module "" tmpDir gopath)).writes ++ [gopath, tmpDir]) fs
        (fun d hd => (hfresh d (by simp at hd; rcases hd with rfl | rfl <;> simp)).1)
        (by
          intro q hq
          rcases List.mem_append.1 hq with hw | hq
          · obtain ⟨d, hd, hu⟩ := hconf _ q (by simp) hw
            refine ⟨d, ?_, hu⟩
            simp at hd
            rcases hd with rfl | rfl <;> simp
          · simp at hq
            rcases hq with rfl | rfl
            · exact ⟨q, by simp, under_self _⟩
            · exact ⟨q, by simp, under_self _⟩)
        (fun q hq d hd => (hfresh d (by simp at hd; rcases hd with rfl | rfl <;> simp)).2 q hq)
      simpa using key
    · rfl
    · rename_i creds netrcDir e hc hp
      simp only [created_iff] at hfresh
      have key := cleanup_restores [netrcDir] [netrcDir, netrcFile netrcDir] fs
        (fun d hd => (hfresh d (by simp at hd; simp [hd])).1)
        (by
          intro q hq
          simp at hq
          rcases hq with rfl | rfl
          · exact ⟨q, by simp, under_self _⟩
          · exact ⟨netrcDir, by simp, under_netrcFile _⟩)
        (fun q hq d hd => (hfresh d (by simp at hd; simp [hd])).2 q hq)
      simpa using key
    · rename_i creds netrcDir tmpDir e hc hp
      simp only [created_iff] at hfresh
      have key := cleanup_restores [netrcDir, tmpDir] [tmpDir, netrcDir, netrcFile netrcDir] fs
        (fun d hd => (hfresh d (by simp at hd; rcases hd with rfl | rfl <;> simp)).1)
        (by
          intro q hq
          simp at hq
          rcases hq with rfl | rfl | rfl
          · exact ⟨q, by simp, under_self _⟩
          · exact ⟨q, by simp, under_self _⟩
          · exact ⟨netrcDir, by simp, under_netrcFile _⟩)
        (fun q hq d hd => (hfresh d (by simp at hd; rcases hd with rfl | rfl <;> simp)).2 q hq)
      simpa using key
    · rename_i creds netrcDir tmpDir gopath hc hp
      simp only [created_iff] at hfresh hconf
      have key := cleanup_restores [netrcDir, tmpDir, gopath]
        ((w.run (listCmd l pkg module netrcDir tmpDir gopath)).writes ++
          [gopath, tmpDir, netrcDir, netrcFile netrcDir]) fs
        (fun d hd => (hfresh d (by simp at hd; rcases hd with rfl | rfl | rfl <;> simp)).1)
        (by
          intro q hq
          rcases List.mem_append.1 hq with hw | hq
          · obtain ⟨d, hd, hu⟩ := hconf _ q (by simp) hw
            refine ⟨d, ?_, hu⟩
            simp at hd
            rcases hd with rfl | rfl | rfl <;> simp
          · simp at hq
            rcases hq with rfl | rfl | rfl | rfl
            · exact ⟨q, by simp, under_self _⟩
            · exact ⟨q, by simp, under_self _⟩
            · exact ⟨q, by simp, under_self _⟩
            · exact ⟨netrcDir, by simp, under_netrcFile _⟩)
        (fun q hq d hd =>
          (hfresh d (by simp at hd; rcases hd with rfl | rfl | rfl <;> simp)).2 q hq)
      simpa using key

/-- C6 at a call that takes the credential branch and whose tool writes into
both sandbox directories: the filesystem after the call is the one before it. -/
theorem list_leaves_no_temporaries_witness :
    (∀ d, created (sampleLister.List samplePkg (sampleWorld writingRun) sampleCtx
        "example.org/foo/bar" ⟨["/etc/passwd", "/tmp/go-listing"], []⟩).2.trace d →
      d ≠ "" ∧ ∀ q ∈ ["/etc/passwd", "/tmp/go-listing"], under d q = false) ∧
    (sampleLister.List samplePkg (sampleWorld writingRun) sampleCtx
      "example.org/foo/bar" ⟨["/etc/passwd", "/tmp/go-listing"], []⟩).2.fs =
      ["/etc/passwd", "/tmp/go-listing"] := by
  have ht : (sampleLister.List samplePkg (sampleWorld writingRun) sampleCtx
      "example.org/foo/bar" ⟨["/etc/passwd", "/tmp/go-listing"], []⟩).2.trace =
      [Event.writeTemporaryNETRC "example.org" "user" "secret" (some "/tmp/netrcp1"),
        Event.tempDir "go-list" (some "/tmp/go-list1"),
        Event.tempDir "athens" (some "/tmp/athens1"),
        Event.run (listCmd sampleLister samplePkg "example.org/foo/bar" "/tmp/netrcp1"
          "/tmp/go-list1" "/tmp/athens1"),
        Event.clearFiles "/tmp/athens1", Event.fsRemoveAll "/tmp/go-list1",
        Event.osRemoveAll "/tmp/netrcp1"] := by decide
  have hfresh : ∀ d, created (sampleLister.List samplePkg (sampleWorld writingRun) sampleCtx
        "example.org/foo/bar" ⟨["/etc/passwd", "/tmp/go-listing"], []⟩).2.trace d →
      d ≠ "" ∧ ∀ q ∈ ["/etc/passwd", "/tmp/go-listing"], under d q = false := by
    intro d hd
    rw [ht, created_iff] at hd
    simp at hd
    rcases hd with rfl | rfl | rfl <;> decide
  refine ⟨hfresh, (list_leaves_no_temporaries sampleLister samplePkg (sampleWorld writingRun)
    sampleCtx "example.org/foo/bar" ["/etc/passwd", "/tmp/go-listing"]).2 hfresh ?_⟩
  intro cmd q _ hq
  have hq1 : q = "/tmp/go-list1/go.mod" ∨ q = "/tmp/athens1/pkg/mod/cache/download/m/@v/list" := by
    simpa [sampleWorld, writingRun] using hq
  rw [ht]
  rcases hq1 with rfl | rfl
  · exact ⟨"/tmp/go-list1", Or.inl ⟨"go-list", by decide⟩, by decide⟩
  · exact ⟨"/tmp/athens1", Or.inl ⟨"athens", by decide⟩, by decide⟩

/-- C4, as stated, fails: with the flag set and a pattern that matches, a call
whose context carries no credentials does not call the materializer, and the
tool runs with an environment built for the empty credential directory. -/
theorem propagation_without_credentials_counterexample :
    sampleLister.propagateAuth = true ∧
    samplePkg.matchesAuthPattern sampleLister.propagateAuthPatterns "example.org/foo/bar" =
      true ∧
    ¬ propagated (sampleLister.List samplePkg (sampleWorld writingRun) anonymousCtx
      "example.org/foo/bar" ⟨[], []⟩).2.trace ∧
    Event.run (listCmd sampleLister samplePkg "example.org/foo/bar" "" "/tmp/go-list1"
        "/tmp/athens1") ∈
      (sampleLister.List samplePkg (sampleWorld writingRun) anonymousCtx
        "example.org/foo/bar" ⟨[], []⟩).2.trace := by
  have ht : (sampleLister.List samplePkg (sampleWorld writingRun) anonymousCtx
      "example.org/foo/bar" ⟨[], []⟩).2.trace =
      [Event.tempDir "go-list" (some "/tmp/go-list1"),
        Event.tempDir "athens" (some "/tmp/athens1"),
        Event.run (listCmd sampleLister samplePkg "example.org/foo/bar" ""
          "/tmp/go-list1" "/tmp/athens1"),
        Event.clearFiles "/tmp/athens1", Event.fsRemoveAll "/tmp/go-list1"] := by decide
  refine ⟨rfl, by decide, ?_, by decide⟩
  rw [ht, propagated_iff]
  simp

/-- C4, amended. The credential materializer is called if and only if the
context carries credentials, the enable flag is true and `matchesAuthPattern`
accepts the configured patterns and the module path. When it is not called, the
environment of the tool is built with the empty credential directory; when it
answers a directory, the environment is built with that directory. -/
theorem propagation_iff_credentials_flag_pattern (l : vcsLister) (pkg : Pkg) (w : World)
    (ctx : Context) (module : String) (fs : FS) :
    (propagated (l.List pkg w ctx module ⟨fs, []⟩).2.trace ↔
      ((∃ creds, ctx.auth = some creds) ∧ l.propagateAuth = true ∧
        pkg.matchesAuthPattern l.propagateAuthPatterns module = true)) ∧
    (¬ propagated (l.List pkg w ctx module ⟨fs, []⟩).2.trace →
      ∀ cmd, Event.run cmd ∈ (l.List pkg w ctx module ⟨fs, []⟩).2.trace →
        ∃ gopath, Event.tempDir "athens" (some gopath) ∈
            (l.List pkg w ctx module ⟨fs, []⟩).2.trace ∧
          cmd.Env = pkg.prepareEnv gopath "" l.env) ∧
    (∀ host user password netrcDir,
      Event.writeTemporaryNETRC host user password (some netrcDir) ∈
          (l.List pkg w ctx module ⟨fs, []⟩).2.trace →
        ∀ cmd, Event.run cmd ∈ (l.List pkg w ctx module ⟨fs, []⟩).2.trace →
          ∃ gopath, Event.tempDir "athens" (some gopath) ∈
              (l.List pkg w ctx module ⟨fs, []⟩).2.trace ∧
            cmd.Env = pkg.prepareEnv gopath netrcDir l.env) := by
  have h := list_run l pkg w ctx module fs
  have hgi := gated_iff l pkg ctx module
  simp only [vcsLister.shouldPropAuth, Bool.and_eq_true] at hgi
  generalize l.List pkg w ctx module ⟨fs, []⟩ = out at h
  refine ⟨?_, ?_, ?_⟩
  · rw [propagated_iff, ← hgi]
    cases h <;> simp_all [gated_iff, vcsLister.shouldPropAuth]
  · rw [propagated_iff]
    intro hnp cmd hrun
    cases h <;> simp at hnp hrun ⊢
    · subst hrun
      simp [listCmd]
  · intro host user password netrcDir hn cmd hrun
    cases h <;> simp at hn hrun ⊢
    · obtain ⟨-, -, -, rfl⟩ := hn
      subst hrun
      simp [listCmd]

/-- C4, amended, at the example of the specification: with credentials in the
context the materializer is called, and the tool's environment is built with
the directory it answered. -/
theorem propagation_iff_credentials_flag_pattern_witness :
    propagated (sampleLister.List samplePkg (sampleWorld writingRun) sampleCtx
      "example.org/foo/bar" ⟨[], []⟩).2.trace ∧
    ∀ cmd, Event.run cmd ∈ (sampleLister.List samplePkg (sampleWorld writingRun) sampleCtx
        "example.org/foo/bar" ⟨[], []⟩).2.trace →
      ∃ gopath, Event.tempDir "athens" (some gopath) ∈
          (sampleLister.List samplePkg (sampleWorld writingRun) sampleCtx
            "example.org/foo/bar" ⟨[], []⟩).2.trace ∧
        cmd.Env = samplePkg.prepareEnv gopath "/tmp/netrcp1" sampleLister.env :=
  ⟨(propagation_iff_credentials_flag_pattern sampleLister samplePkg (sampleWorld writingRun)
      sampleCtx "example.org/foo/bar" []).1.2 ⟨⟨_, rfl⟩, rfl, by decide⟩,
    (propagation_iff_credentials_flag_pattern sampleLister samplePkg (sampleWorld writingRun)
      sampleCtx "example.org/foo/bar" []).2.2 "example.org" "user" "secret" "/tmp/netrcp1"
      (by decide)⟩

/-- C8, as stated, fails: the context is cancelled while the tool runs, the tool
exits zero on its own, and `List` returns the record with a nil error. -/
theorem cancelled_context_counterexample :
    cancelledCtx.err = some CtxErr.Canceled ∧
    Event.run (listCmd sampleLister samplePkg "example.org/foo/bar" "/tmp/netrcp1"
        "/tmp/go-list1" "/tmp/athens1") ∈
      (sampleLister.List samplePkg (sampleWorld writingRun) cancelledCtx
        "example.org/foo/bar" ⟨[], []⟩).2.trace ∧
    (sampleLister.List samplePkg (sampleWorld writingRun) cancelledCtx
        "example.org/foo/bar" ⟨[], []⟩).1 =
      ⟨some ⟨"v1.2.0", ⟨2023, 1, 1, 0, 0, 0, 0, 0⟩⟩, none, none⟩ :=
  ⟨rfl, by decide, by decide⟩

/-- C8, amended. The subprocess is not bound to the caller's context: whatever
the cancellation state of the context, `List` makes the same calls and returns
the same result; once the tool has run, the result is the one its own exit
gives; and an error `List` returns has kind NotFound or Internal, never a
cancellation. -/
theorem list_ignores_cancellation (l : vcsLister) (pkg : Pkg) (w : World) (ctx : Context)
    (module : String) (fs : FS) (c : Option CtxErr) :
    l.List pkg w ⟨ctx.auth, c⟩ module ⟨fs, []⟩ = l.List pkg w ctx module ⟨fs, []⟩ ∧
    (∀ cmd, Event.run cmd ∈ (l.List pkg w ctx module ⟨fs, []⟩).2.trace →
      (l.List pkg w ctx module ⟨fs, []⟩).1 = listResult (w.run cmd)) ∧
    (∀ err, (l.List pkg w ctx module ⟨fs, []⟩).1.err = some err →
      errorsKind err = KindNotFound ∨ errorsKind err = KindUnexpected) := by
  refine ⟨?_, fun cmd hrun => run_inv l pkg w ctx module fs cmd hrun, ?_⟩
  · simp only [vcsLister.List, authFromContext]
  · intro err herr
    have h := list_run l pkg w ctx module fs
    generalize l.List pkg w ctx module ⟨fs, []⟩ = out at h herr
    have hres : ∀ r : RunResult, (listResult r).err = some err →
        errorsKind err = KindNotFound ∨ errorsKind err = KindUnexpected := by
      intro r hr
      unfold listResult at hr
      split at hr
      · simp [ListResult.fail] at hr
        subst hr
        left
        simp [errorsEKind, errorsKind, KindNotFound]
      · split at hr
        · simp [ListResult.fail] at hr
          subst hr
          right
          simp [errorsE, errorsKind]
        · simp at hr
    cases h <;> first
      | exact hres _ herr
      | (simp [ListResult.fail] at herr
         subst herr
         right
         simp [errorsE, errorsKind])

/-- C8, amended, at a cancelled and at a live context: the same result. -/
theorem list_ignores_cancellation_witness :
    sampleLister.List samplePkg (sampleWorld writingRun) cancelledCtx
        "example.org/foo/bar" ⟨[], []⟩ =
      sampleLister.List samplePkg (sampleWorld writingRun) sampleCtx
        "example.org/foo/bar" ⟨[], []⟩ :=
  (list_ignores_cancellation sampleLister samplePkg (sampleWorld writingRun) sampleCtx
    "example.org/foo/bar" [] (some CtxErr.Canceled)).1

/-- C10, as stated, fails: standard output holding the sample record followed
by a second record, or by text that is not JSON, is accepted, and `List` returns
the first record with a nil error. -/
theorem trailing_content_counterexample :
    jsonDecode (sampleStdout ++ secondRecord) =
      .ok ⟨"m", "v1.2.0", none, ⟨2023, 1, 1, 0, 0, 0, 0, 0⟩⟩ ∧
    (sampleLister.List samplePkg (sampleWorld (printingRun (sampleStdout ++ secondRecord)))
        sampleCtx "m" ⟨[], []⟩).1 =
      ⟨some ⟨"v1.2.0", ⟨2023, 1, 1, 0, 0, 0, 0, 0⟩⟩, none, none⟩ ∧
    (sampleLister.List samplePkg
        (sampleWorld (printingRun (sampleStdout ++ " trailing garbage ]"))) sampleCtx "m"
        ⟨[], []⟩).1 =
      ⟨some ⟨"v1.2.0", ⟨2023, 1, 1, 0, 0, 0, 0, 0⟩⟩, none, none⟩ :=
  ⟨rfl, by decide, by decide⟩

/-- C10, amended. For every zero-exit run, the decode step reads the first JSON
value on standard output and nothing after it: when standard output is a text
the decode step accepts as the record `lr`, followed by any further content,
`List` returns the result for `lr` with a nil error; in particular a
well-formed record followed by a second record or by trailing garbage yields
the version, time and versions of the first record. -/
theorem list_decodes_first_record (l : vcsLister) (pkg : Pkg) (w : World) (ctx : Context)
    (module : String) (fs : FS) (cmd : Cmd)
    (hran : Event.run cmd ∈ (l.List pkg w ctx module ⟨fs, []⟩).2.trace)
    (hexit : (w.run cmd).err = none) :
    (∀ head tail lr, (w.run cmd).stdout = head ++ tail → jsonDecode head = .ok lr →
      (l.List pkg w ctx module ⟨fs, []⟩).1 =
        ⟨some ⟨lr.Version, lr.Time⟩, lr.Versions, none⟩) ∧
    (∀ path version vs ts t tail, plain path = true → plain version = true →
      (∀ x ∈ vs, plain x = true) → plain ts = true → parseRFC3339 ts.data = some t →
      (w.run cmd).stdout = renderRecord path version vs ts ++ tail →
      (l.List pkg w ctx module ⟨fs, []⟩).1 = ⟨some ⟨version, t⟩, sliceOf vs, none⟩) := by
  have hfirst : ∀ head tail lr, (w.run cmd).stdout = head ++ tail → jsonDecode head = .ok lr →
      (l.List pkg w ctx module ⟨fs, []⟩).1 =
        ⟨some ⟨lr.Version, lr.Time⟩, lr.Versions, none⟩ := by
    intro head tail lr hout hdec
    have happ : jsonDecode (w.run cmd).stdout = .ok lr := by
      rw [hout]
      exact jsonDecode_append head tail lr hdec
    rw [run_inv l pkg w ctx module fs cmd hran]
    simp [listResult, hexit, happ]
  refine ⟨hfirst, ?_⟩
  intro path version vs ts t tail hp hv hvs hts ht hout
  exact hfirst _ tail _ hout (jsonDecode_renderRecord path version vs ts t hp hv hvs hts ht)

/-- C10, amended, at the sample record followed by a second record. -/
theorem list_decodes_first_record_witness :
    Event.run (listCmd sampleLister samplePkg "m" "" "/tmp/go-list1" "/tmp/athens1") ∈
      (sampleLister.List samplePkg (sampleWorld (printingRun (sampleStdout ++ secondRecord)))
        anonymousCtx "m" ⟨[], []⟩).2.trace ∧
    jsonDecode sampleStdout = .ok ⟨"m", "v1.2.0", none, ⟨2023, 1, 1, 0, 0, 0, 0, 0⟩⟩ ∧
    (sampleLister.List samplePkg (sampleWorld (printingRun (sampleStdout ++ secondRecord)))
        anonymousCtx "m" ⟨[], []⟩).1 =
      ⟨some ⟨"v1.2.0", ⟨2023, 1, 1, 0, 0, 0, 0, 0⟩⟩, none, none⟩ :=
  ⟨by decide, rfl,
    (list_decodes_first_record sampleLister samplePkg
      (sampleWorld (printingRun (sampleStdout ++ secondRecord))) anonymousCtx "m" []
      (listCmd sampleLister samplePkg "m" "" "/tmp/go-list1" "/tmp/athens1")
      (by decide) rfl).1 sampleStdout secondRecord
      ⟨"m", "v1.2.0", none, ⟨2023, 1, 1, 0, 0, 0, 0, 0⟩⟩ rfl rfl⟩

end Athens
